import Mathlib

/-!
# Verification of the mcp-docs-scraper source-resolution and indexing pipeline

Shallow embedding, in Lean 4, of the core pipeline of the `mcp-docs-scraper`
repository: URL utilities (`src/utils/url.ts`), the GitHub tree fetcher
(`src/services/github-fetcher.ts`), the web crawler and GitHub detector
(`src/services/web-scraper.ts`, `github-detector.ts`), the search-index
snippet generator (`src/services/search-index.ts`), the content-cleaner title
extraction (`src/services/content-cleaner.ts`) and the `index_docs`
orchestrator (`src/tools/index-docs.ts`).

Modelling conventions:
* Pure TypeScript functions become Lean functions over `String` / `List Char`.
* Network effects (`fetch`, robots.txt, the GitHub API, the cache store) are
  passed in as explicit oracle functions, and stateful code threads its state
  explicitly; stored side effects are returned as traces.
* JavaScript `number` option fields become `Int` (their integer fragment);
  array indices and lengths become `Nat`.
* The WHATWG `URL` platform class (used by `new URL(...)` in `url.ts`) is
  modelled for `http(s)://host/path?query#hash` URLs over printable ASCII:
  lower-casing of scheme and host, percent-encoding of the path on parse and
  on pathname assignment, raw query/fragment storage, and
  `application/x-www-form-urlencoded` query (re)serialization after
  `searchParams` mutation.  Out-of-model inputs (non-ASCII, backslashes,
  userinfo/ports, dot segments) make the model parser return `none`, matching
  the `catch` branches of the source.  `decodeURIComponent` /
  form-decoding are modelled for single-byte (ASCII) escape sequences.
* JavaScript string methods (`trim`, `toLowerCase`, `split`, `indexOf`,
  `includes`, `endsWith`) are modelled for ASCII content.
-/

namespace DocsScraper

/-! ## JavaScript string primitives (ASCII-scoped models) -/

/-- Whitespace characters matched by JavaScript `\s` (ASCII fragment). -/
def isWsChar (c : Char) : Bool :=
  c = ' ' || c = '\t' || c = '\n' || c = '\x0d' || c = '\x0b' || c = '\x0c'

/-- Model of JavaScript `String.prototype.trim` on a character list. -/
def trimL (l : List Char) : List Char :=
  ((l.dropWhile isWsChar).reverse.dropWhile isWsChar).reverse

/-- Model of JavaScript `String.prototype.trim`. -/
def jsTrim (s : String) : String := ⟨trimL s.toList⟩

/-- Model of JavaScript `String.prototype.toLowerCase` (ASCII fragment). -/
def jsToLower (s : String) : String := ⟨s.toList.map Char.toLower⟩

/-- Index of the first occurrence of `pat` in `l` (JavaScript `indexOf`). -/
def indexOfL (l pat : List Char) : Option Nat :=
  if pat.isPrefixOf l then some 0
  else
    match l with
    | [] => none
    | _ :: t => (indexOfL t pat).map (· + 1)

/-- Model of JavaScript `String.prototype.includes`. -/
def containsSub (s pat : String) : Bool := (indexOfL s.toList pat.toList).isSome

/-- Splits a character list at every occurrence of the separator character,
keeping empty parts — the behaviour of JavaScript `String.prototype.split`
with a single-character separator. -/
def splitCharL (sep : Char) : List Char → List (List Char)
  | [] => [[]]
  | c :: t =>
    if c = sep then [] :: splitCharL sep t
    else
      match splitCharL sep t with
      | h :: r => (c :: h) :: r
      | [] => [[c]]

/-- Worker for `splitWsL`: `inRun` records whether the previous character
was whitespace (so that a run produces a single boundary). -/
def splitWsAux (inRun : Bool) : List Char → List (List Char)
  | [] => [[]]
  | c :: t =>
    if isWsChar c then
      if inRun then splitWsAux true t else [] :: splitWsAux true t
    else
      match splitWsAux false t with
      | h :: r => (c :: h) :: r
      | [] => [[c]]

/-- Splits at maximal runs of whitespace, keeping boundary empty tokens —
the behaviour of JavaScript `split(/\s+/)`. -/
def splitWsL (l : List Char) : List (List Char) := splitWsAux false l

/-- Worker for `collapseRuns`: `inRun` records whether the previous
character was in the collapsed class. -/
def collapseRunsAux (p : Char → Bool) (inRun : Bool) : List Char → List Char
  | [] => []
  | c :: t =>
    if p c then
      if inRun then collapseRunsAux p true t else ' ' :: collapseRunsAux p true t
    else c :: collapseRunsAux p false t

/-- Collapses each maximal run of characters satisfying `p` to a single
space — the effect of JavaScript `replace(/X+/g, " ")` for a character
class `X`. -/
def collapseRuns (p : Char → Bool) (l : List Char) : List Char :=
  collapseRunsAux p false l

/-! ## Percent- and form-encoding (WHATWG URL model) -/

/-- Value of a hexadecimal digit character. -/
def hexVal (c : Char) : Option Nat :=
  if '0' ≤ c ∧ c ≤ '9' then some (c.toNat - '0'.toNat)
  else if 'a' ≤ c ∧ c ≤ 'f' then some (c.toNat - 'a'.toNat + 10)
  else if 'A' ≤ c ∧ c ≤ 'F' then some (c.toNat - 'A'.toNat + 10)
  else none

/-- Upper-case hexadecimal digit for `n < 16`. -/
def hexDigit (n : Nat) : Char :=
  if n < 10 then Char.ofNat ('0'.toNat + n) else Char.ofNat ('A'.toNat + n - 10)

/-- `%XX` escape for a byte value. -/
def percentHex (n : Nat) : List Char := ['%', hexDigit (n / 16), hexDigit (n % 16)]

/-- Model of `decodeURIComponent` for single-byte (ASCII) escapes: a `%`
must be followed by two hex digits denoting a byte below `0x80`, otherwise
decoding fails (the source wraps the call in `try/catch` and keeps the
input on failure).  Multi-byte UTF-8 escapes are outside the model and also
fail. -/
def percentDecodeL : List Char → Option (List Char)
  | [] => some []
  | c :: t =>
    if c = '%' then
      match t with
      | a :: b :: t2 =>
        match hexVal a, hexVal b with
        | some hi, some lo =>
          if 16 * hi + lo < 128 then
            (percentDecodeL t2).map (Char.ofNat (16 * hi + lo) :: ·)
          else none
        | _, _ => none
      | _ => none
    else (percentDecodeL t).map (c :: ·)

/-- The WHATWG path percent-encode set: C0 controls, space, `"`, `#`, `<`,
`>`, `?`, backtick, braces, DEL and beyond.  `%` and `/` are *not* in the
set and pass through unchanged. -/
def pathEncChar (c : Char) : Bool :=
  c.toNat < 0x20 || c = ' ' || c = '"' || c = '#' || c = '<' || c = '>' ||
  c = '?' || c = '\x60' || c = '\x7b' || c = '\x7d' || c.toNat ≥ 0x7f

/-- Percent-encodes a path: characters in the path encode set become `%XX`,
everything else (including `%` itself) is copied verbatim — the behaviour of
the WHATWG path parser, used both when a URL string is parsed and when
`pathname` is assigned. -/
def encodePathL (l : List Char) : List Char :=
  (l.map (fun c => if pathEncChar c then percentHex c.toNat else [c])).flatten

/-- Characters kept verbatim by `application/x-www-form-urlencoded`
serialization. -/
def formSafe (c : Char) : Bool :=
  c.isAlphanum || c = '*' || c = '-' || c = '.' || c = '_'

/-- Form-urlencoded serialization of one decoded string. -/
def formEncodeL (l : List Char) : List Char :=
  (l.map (fun c =>
    if c = ' ' then ['+']
    else if formSafe c then [c]
    else percentHex c.toNat)).flatten

/-- Form-urlencoded decoding of one raw token: `+` becomes a space, valid
single-byte `%XX` escapes are decoded, anything else (including malformed
escapes) is kept literally — form decoding never fails. -/
def formDecodeL : List Char → List Char
  | [] => []
  | '+' :: t => ' ' :: formDecodeL t
  | '%' :: a :: b :: t2 =>
    match hexVal a, hexVal b with
    | some hi, some lo =>
      if 16 * hi + lo < 128 then Char.ofNat (16 * hi + lo) :: formDecodeL t2
      else '%' :: formDecodeL (a :: b :: t2)
    | _, _ => '%' :: formDecodeL (a :: b :: t2)
  | c :: t => c :: formDecodeL t

/-- One form pair: split at the first `=`. -/
def parsePairL (part : List Char) : List Char × List Char :=
  let s := part.span (· ≠ '=')
  match s.2 with
  | _ :: v => (formDecodeL s.1, formDecodeL v)
  | [] => (formDecodeL s.1, [])

/-- Form-urlencoded parsing of a raw query string into decoded name/value
pairs; empty `&`-separated chunks are skipped. -/
def parseFormL (raw : List Char) : List (List Char × List Char) :=
  ((splitCharL '&' raw).filter (· ≠ [])).map parsePairL

/-- Form-urlencoded serialization of a pair list (always emits `=`). -/
def serializeFormL (l : List (List Char × List Char)) : List Char :=
  (List.intercalate ['&'] (l.map (fun p => formEncodeL p.1 ++ '=' :: formEncodeL p.2)))

/-- Lexicographic comparison of character lists by code point — the order
`URLSearchParams.sort` uses on ASCII names. -/
def listLe : List Char → List Char → Bool
  | [], _ => true
  | _ :: _, [] => false
  | a :: x, b :: y => a < b || (a = b && listLe x y)

/-- Stable insertion of a pair into a name-sorted pair list. -/
def insertPairL (x : List Char × List Char) :
    List (List Char × List Char) → List (List Char × List Char)
  | [] => [x]
  | y :: t => if listLe x.1 y.1 then x :: y :: t else y :: insertPairL x t

/-- Stable name-sort of a pair list, modelling `URLSearchParams.sort`. -/
def sortPairsL : List (List Char × List Char) → List (List Char × List Char)
  | [] => []
  | x :: t => insertPairL x (sortPairsL t)

/-! ## URL record, parser and serializer (`new URL` model) -/

/-- `TRACKING_PARAMS` from `src/utils/url.ts`. -/
def TRACKING_PARAMS : List String :=
  ["utm_source", "utm_medium", "utm_campaign", "utm_term", "utm_content",
   "ref", "source", "fbclid", "gclid", "msclkid", "_ga"]

/-- Removes the pairs whose (decoded) name is a tracking parameter —
the loop of `searchParams.delete` calls in `normalizeUrl`. -/
def removeTrackingL (l : List (List Char × List Char)) :
    List (List Char × List Char) :=
  l.filter (fun p => ¬ (TRACKING_PARAMS.map String.toList).contains p.1)

/-- A parsed URL: the components of a WHATWG `URL` object.  `query` and
`hash` are stored raw and without their `?` / `#` markers; an empty string
means the component is absent. -/
structure URLRec where
  scheme : String
  host : String
  path : String
  query : String
  hash : String
deriving Repr, DecidableEq

/-- ASCII letter. -/
def isAsciiAlpha (c : Char) : Bool :=
  ('a' ≤ c ∧ c ≤ 'z') || ('A' ≤ c ∧ c ≤ 'Z')

/-- Characters the model accepts in a hostname (after lower-casing). -/
def hostChar (c : Char) : Bool :=
  ('a' ≤ c ∧ c ≤ 'z') || c.isDigit || c = '.' || c = '-' || c = '_'

/-- Printable ASCII. -/
def printableChar (c : Char) : Bool := ' ' ≤ c ∧ c ≤ '~'

/-- Replaces literal `%2e` / `%2E` escapes by `.` (used only to recognise
dot segments the way the WHATWG path parser does). -/
def decodeDotsL : List Char → List Char
  | [] => []
  | '%' :: d :: e :: t2 =>
    if d = '2' ∧ (e = 'e' ∨ e = 'E') then '.' :: decodeDotsL t2
    else '%' :: decodeDotsL (d :: e :: t2)
  | c :: t => c :: decodeDotsL t

/-- A single- or double-dot path segment (including percent-encoded dots). -/
def isDotSeg (seg : List Char) : Bool :=
  decodeDotsL seg = ['.'] || decodeDotsL seg = ['.', '.']

/-- Core of the `new URL` model on a trimmed character list.  Accepts
`http(s)://host/path?query#hash` over printable ASCII; rejects (returns
`none` for) backslashes, userinfo/ports, empty or non-ASCII hosts, other
schemes, and dot segments — inputs on which the WHATWG parser performs
rewriting this model does not reproduce. -/
def parseURLCore (cs : List Char) : Option URLRec :=
  if cs.all printableChar ∧ ¬ cs.contains '\\' then
    let s1 := cs.span isAsciiAlpha
    match s1.2 with
    | ':' :: '/' :: '/' :: r2 =>
      let schemeL := s1.1.map Char.toLower
      if schemeL = "http".toList ∨ schemeL = "https".toList then
        let s2 := r2.span (fun c => ¬ (c = '/' ∨ c = '?' ∨ c = '#'))
        let hostL := s2.1.map Char.toLower
        if hostL ≠ [] ∧ hostL.all hostChar then
          let s3 := match s2.2 with
            | '/' :: r3 => (('/' :: r3).span (fun c => ¬ (c = '?' ∨ c = '#')))
            | r3 => (['/'], r3)
          if (splitCharL '/' s3.1).all (fun seg => ¬ isDotSeg seg) then
            let s4 := match s3.2 with
              | '?' :: q => (q.span (· ≠ '#'))
              | r4 => ([], r4)
            let hash := match s4.2 with
              | '#' :: h => h
              | _ => []
            some ⟨⟨schemeL⟩, ⟨hostL⟩, ⟨encodePathL s3.1⟩, ⟨s4.1⟩, ⟨hash⟩⟩
          else none
        else none
      else none
    | _ => none
  else none

/-- Model of `new URL(s)` (the WHATWG parser first strips leading and
trailing C0-control-or-space characters). -/
def parseURL (s : String) : Option URLRec :=
  parseURLCore ((s.toList.dropWhile (·.toNat ≤ 0x20)).reverse.dropWhile (·.toNat ≤ 0x20) |>.reverse)

/-- Model of `URL.prototype.href`. -/
def serializeURL (r : URLRec) : String :=
  r.scheme ++ "://" ++ r.host ++ r.path ++
  (if r.query = "" then "" else "?" ++ r.query) ++
  (if r.hash = "" then "" else "#" ++ r.hash)

/-- `pathname.length > 1 && pathname.endsWith("/")` → drop the final slash
(one character, once) — from `normalizeUrl`. -/
def stripTrailingSlashL (p : List Char) : List Char :=
  if p.length > 1 ∧ p.getLast? = some '/' then p.dropLast else p

/-- `normalizeUrl` from `src/utils/url.ts`: parse; clear the fragment;
delete tracking parameters and sort the remaining query pairs (which
re-serializes the query in form-urlencoded form); strip one trailing slash
from the pathname; percent-decode the pathname and assign it back (which
re-encodes via the path encode set); return `href`.  An unparseable input
is returned unchanged. -/
def normalizeUrl (url : String) : String :=
  match parseURL url with
  | none => url
  | some parsed =>
    let query := serializeFormL (sortPairsL (removeTrackingL (parseFormL parsed.query.toList)))
    let p1 := stripTrailingSlashL parsed.path.toList
    let path := match percentDecodeL p1 with
      | some d => encodePathL d
      | none => p1
    serializeURL { parsed with hash := "", query := ⟨query⟩, path := ⟨path⟩ }

/-- `extractDomain` from `src/utils/url.ts`. -/
def extractDomain (url : String) : Option String :=
  (parseURL url).map URLRec.host

/-- The `^www.` strip used by `isSameDomain`. -/
def stripWww (d : String) : String :=
  if ("www.".toList).isPrefixOf d.toList then ⟨d.toList.drop 4⟩ else d

/-- `isSameDomain` from `src/utils/url.ts`. -/
def isSameDomain (url1 url2 : String) : Bool :=
  match extractDomain url1, extractDomain url2 with
  | some d1, some d2 => stripWww d1 = stripWww d2
  | _, _ => false

/-! ## GitHub tree fetcher (`src/services/github-fetcher.ts`) -/

/-- Model of JavaScript `String.prototype.startsWith`. -/
def jsStartsWith (s pre : String) : Bool := pre.toList.isPrefixOf s.toList

/-- Model of JavaScript `String.prototype.endsWith`. -/
def jsEndsWith (s suf : String) : Bool := suf.toList.isSuffixOf s.toList

/-- `split("/")` on a string (kept at the character-list level). -/
def jsSplitSlash (s : String) : List String :=
  (splitCharL '/' s.toList).map (fun l => ⟨l⟩)

/-- `join("/")` on string parts. -/
def joinSlash (parts : List String) : String :=
  ⟨List.intercalate ['/'] (parts.map String.toList)⟩

/-- The characters of a path before its last `/` (empty when there is no
slash) — the value of `path.split("/")` → `pop()` → `join("/")`. -/
def getParentPathL (l : List Char) : List Char :=
  match l.reverse.dropWhile (· ≠ '/') with
  | _ :: rest => rest.reverse
  | [] => []

/-- `getParentPath` from `github-fetcher.ts` (split, pop, join). -/
def getParentPath (path : String) : String := ⟨getParentPathL path.toList⟩

/-- `getNameFromPath` from `github-fetcher.ts`: the last `/`-separated
segment (split, take last). -/
def getNameFromPath (path : String) : String :=
  ⟨(path.toList.reverse.takeWhile (· ≠ '/')).reverse⟩

/-- `getPathDepth` from `github-fetcher.ts`: `0` for the empty string, else
the number of `/`-separated segments (`split("/").length`). -/
def getPathDepth (path : String) : Nat :=
  if path = "" then 0 else path.toList.count '/' + 1

/-- `DEFAULT_EXTENSIONS` from `github-fetcher.ts`. -/
def DEFAULT_EXTENSIONS : List String := [".md", ".mdx", ".markdown"]

/-- `shouldIncludeFile` from `github-fetcher.ts`: an empty extension list
admits every file; otherwise the lower-cased *path* must end with one of
the lower-cased extensions. -/
def shouldIncludeFile (filename : String) (extensions : List String) : Bool :=
  if extensions.length = 0 then true
  else extensions.any (fun ext => jsEndsWith (jsToLower filename) (jsToLower ext))

/-- `type` of a GitHub Git Trees API item. -/
inductive GitItemType where
  | blob
  | tree
deriving Repr, DecidableEq

/-- One item of a (flat, recursive) GitHub tree listing; only the fields
`buildHierarchicalTree` reads are modelled. -/
structure GitHubTreeItem where
  path : String
  type : GitItemType
  size : Option Nat
deriving Repr, DecidableEq

/-- A node of the documentation tree (`DocsTreeNode` in
`src/types/cache.ts`, with `type` split into two constructors). -/
inductive DocsTreeNode where
  | file (name path : String) (sizeBytes : Option Nat)
  | folder (name path : String) (children : List DocsTreeNode)
deriving Repr

/-- The value stored in the `nodeMap` for one path: either a file (with
its size) or a folder whose children are linked up later. -/
inductive EntryKind where
  | fileE (size : Option Nat)
  | folderE
deriving Repr, DecidableEq

/-- Insertion-ordered map from paths to entries (JavaScript `Map`). -/
abbrev NodeMap := List (String × EntryKind)

/-- JavaScript `Map.has`. -/
def mapHas (m : NodeMap) (k : String) : Bool := m.any (·.1 = k)

/-- JavaScript `Map.set`: replace in place if the key exists, else append. -/
def mapSet (m : NodeMap) (k : String) (v : EntryKind) : NodeMap :=
  if mapHas m k then m.map (fun e => if e.1 = k then (k, v) else e)
  else m ++ [(k, v)]

/-- The filter over tree items at the top of `buildHierarchicalTree`:
under the base path, within depth, and (for blobs) extension-matching. -/
def itemPasses (basePath : String) (extensions : List String) (maxDepth : Int)
    (item : GitHubTreeItem) : Bool :=
  (if basePath ≠ "" then
    jsStartsWith item.path (basePath ++ "/") || item.path = basePath
   else true) &&
  (let relativePath :=
    if basePath ≠ "" then ⟨item.path.toList.drop (basePath.length + 1)⟩
    else item.path
   ((getPathDepth relativePath : Int) ≤ maxDepth : Bool)) &&
  (match item.type with
   | .blob => shouldIncludeFile item.path extensions
   | .tree => true)

/-- `filteredItems` from `buildHierarchicalTree`. -/
def filteredItems (items : List GitHubTreeItem) (basePath : String)
    (extensions : List String) (maxDepth : Int) : List GitHubTreeItem :=
  items.filter (itemPasses basePath extensions maxDepth)

/-- First pass of `buildHierarchicalTree`: a node for every matching file. -/
def filePass (items : List GitHubTreeItem) : NodeMap :=
  items.foldl
    (fun m it =>
      match it.type with
      | .blob => mapSet m it.path (.fileE it.size)
      | .tree => m)
    []

/-- Appends an element unless already present (JavaScript `Set.add` on an
insertion-ordered set). -/
def addUnique (l : List String) (x : String) : List String :=
  if l.contains x then l else l ++ [x]

/-- The `while` loop of the second pass: walk up from a parent path,
collecting every ancestor folder that stays at or under the base path.
`fuel` is an iteration bound; started at `p.length + 1` it never runs out,
since each step strictly shortens the path. -/
def walkAncestors (basePath : String) : Nat → List String → String → List String
  | 0, acc, _ => acc
  | fuel + 1, acc, p =>
    if p ≠ "" ∧ (basePath = "" ∨ jsStartsWith p basePath ∨ p = basePath) then
      if basePath ≠ "" ∧ p.length < basePath.length then acc
      else walkAncestors basePath fuel (addUnique acc p) (getParentPath p)
    else acc

/-- Second pass of `buildHierarchicalTree`: the insertion-ordered set of
ancestor folder paths of all matching files. -/
def folderPaths (blobs : List GitHubTreeItem) (basePath : String) :
    List String :=
  blobs.foldl
    (fun acc it =>
      match it.type with
      | .blob =>
        walkAncestors basePath ((getParentPath it.path).length + 1) acc
          (getParentPath it.path)
      | .tree => acc)
    []

/-- Folder-node creation: add a folder entry for every collected folder
path that does not already carry a node. -/
def addFolders (m : NodeMap) (fps : List String) : NodeMap :=
  fps.foldl (fun m fp => if mapHas m fp then m else mapSet m fp .folderE) m

/-- The complete `nodeMap` of `buildHierarchicalTree`. -/
def nodeMapOf (items : List GitHubTreeItem) (basePath : String)
    (extensions : List String) (maxDepth : Int) : NodeMap :=
  let filtered := filteredItems items basePath extensions maxDepth
  addFolders (filePass filtered) (folderPaths filtered basePath)

/-- The skip condition of the third pass (a node is not linked to a parent
when its parent path is empty or above the base path). -/
def thirdPassSkip (basePath : String) (path : String) : Bool :=
  getParentPath path = "" ||
  (basePath ≠ "" && (getParentPath path).length < basePath.length)

/-- The entries linked as children of the folder at `q` by the third pass,
in map insertion order. -/
def childEntries (m : NodeMap) (basePath : String) (q : String) :
    List (String × EntryKind) :=
  m.filter (fun e => ¬ thirdPassSkip basePath e.1 && getParentPath e.1 = q)

/-- Whether an entry is collected as a root node by `buildHierarchicalTree`
(its path relative to the base path contains no slash). -/
def isRootEntry (basePath : String) (path : String) : Bool :=
  if basePath ≠ "" then
    ¬ (path.toList.drop (basePath.length + 1)).contains '/'
  else ¬ path.toList.contains '/'

/-- Materializes the linked node structure rooted at one entry.  `fuel`
dominates the longest path in the map, so recursion never runs dry on a
reachable entry (children have strictly longer paths than their parent). -/
def materialize (m : NodeMap) (basePath : String) :
    Nat → String × EntryKind → DocsTreeNode
  | _, (p, .fileE sz) => .file (getNameFromPath p) p sz
  | 0, (p, .folderE) => .folder (getNameFromPath p) p []
  | fuel + 1, (p, .folderE) =>
    .folder (getNameFromPath p) p
      ((childEntries m basePath p).map (materialize m basePath fuel))

/-- Node comparator of `sortNodes`: folders before files, then by name
(`localeCompare` modelled as code-point order). -/
def nodeLe (a b : DocsTreeNode) : Bool :=
  match a, b with
  | .folder .., .file .. => true
  | .file .., .folder .. => false
  | .file na .., .file nb ..
  | .folder na .., .folder nb .. => listLe na.toList nb.toList

/-- Stable insertion into a sorted list. -/
def insertLe (le : α → α → Bool) (x : α) : List α → List α
  | [] => [x]
  | y :: t => if le x y then x :: y :: t else y :: insertLe le x t

/-- Stable insertion sort (JavaScript `Array.prototype.sort` is stable). -/
def sortByLe (le : α → α → Bool) : List α → List α
  | [] => []
  | x :: t => insertLe le x (sortByLe le t)

mutual

/-- `sortNodes` applied recursively to one node's subtree. -/
def sortTree : DocsTreeNode → DocsTreeNode
  | .file n p s => .file n p s
  | .folder n p ch => .folder n p (sortByLe nodeLe (sortTreeList ch))

/-- `sortNodes` recursion over a children list. -/
def sortTreeList : List DocsTreeNode → List DocsTreeNode
  | [] => []
  | c :: cs => sortTree c :: sortTreeList cs

end

/-- `sortNodes` on a forest: sort the level, then each subtree. -/
def sortForest (l : List DocsTreeNode) : List DocsTreeNode :=
  sortByLe nodeLe (l.map sortTree)

/-- `buildHierarchicalTree` from `github-fetcher.ts`: filter the flat
listing, create file nodes, synthesize ancestor folders, link children,
collect roots, and sort (folders first, then alphabetical). -/
def buildHierarchicalTree (items : List GitHubTreeItem) (basePath : String)
    (extensions : List String) (maxDepth : Int) :
    List DocsTreeNode × Nat × Nat :=
  let filtered := filteredItems items basePath extensions maxDepth
  let blobs := filtered.filter (fun it => it.type = GitItemType.blob)
  let fileCount := blobs.length
  let totalSize := (blobs.map (fun it => it.size.getD 0)).sum
  let nm := nodeMapOf items basePath extensions maxDepth
  let fuel := (nm.map (fun e => e.1.length)).foldr max 0 + 1
  let roots := nm.filter (fun e => isRootEntry basePath e.1)
  (sortForest (roots.map (materialize nm basePath fuel)), fileCount, totalSize)

mutual

/-- `true` iff every node of the subtree satisfies `pred`. -/
def allNodes (pred : DocsTreeNode → Bool) : DocsTreeNode → Bool
  | .file n p s => pred (.file n p s)
  | .folder n p ch => pred (.folder n p ch) && allNodesList pred ch

/-- `allNodes` over a forest. -/
def allNodesList (pred : DocsTreeNode → Bool) : List DocsTreeNode → Bool
  | [] => true
  | c :: cs => allNodes pred c && allNodesList pred cs

end

/-- File-leaf extension invariant for one node. -/
def fileExtOK (extensions : List String) : DocsTreeNode → Bool
  | .file n _ _ => extensions.any (fun ext => jsEndsWith (jsToLower n) (jsToLower ext))
  | .folder .. => true

/-- Folder-nonemptiness invariant for one node. -/
def folderNonempty : DocsTreeNode → Bool
  | .file .. => true
  | .folder _ _ ch => ¬ ch.isEmpty

/-- The loop body of `filePass`, factored out for fold induction. -/
def filePassStep (m : NodeMap) (it : GitHubTreeItem) : NodeMap :=
  match it.type with
  | .blob => mapSet m it.path (.fileE it.size)
  | .tree => m

/-- The loop body of `addFolders`, factored out for fold induction. -/
def addFoldersStep (m : NodeMap) (fp : String) : NodeMap :=
  if mapHas m fp then m else mapSet m fp .folderE

/-- The loop body of `folderPaths`, factored out for fold induction. -/
def folderPathsStep (basePath : String) (acc : List String)
    (it : GitHubTreeItem) : List String :=
  match it.type with
  | .blob =>
    walkAncestors basePath ((getParentPath it.path).length + 1) acc
      (getParentPath it.path)
  | .tree => acc

/-- Invariant of the collected ancestor-folder set: every collected path is
nonempty, is not above the base path, and is the parent of some path that
is either a surviving blob's path or itself collected. -/
def ancestorInv (basePath : String) (blobs : List GitHubTreeItem)
    (acc : List String) : Prop :=
  ∀ q ∈ acc, q ≠ "" ∧ ¬ (basePath ≠ "" ∧ q.length < basePath.length) ∧
    ∃ c : String, getParentPath c = q ∧
      ((∃ it ∈ blobs, it.type = GitItemType.blob ∧ it.path = c) ∨ c ∈ acc)

/-! ## URL helpers used by the crawler (`src/utils/url.ts`) -/

/-- Digit character of `toString(36)`. -/
def base36Digit (d : Nat) : Char :=
  if d < 10 then Char.ofNat ('0'.toNat + d) else Char.ofNat ('a'.toNat + d - 10)

/-- Accumulating worker for `toBase36`. -/
def toBase36Aux : Nat → List Char → List Char
  | 0, acc => acc
  | n + 1, acc => toBase36Aux ((n + 1) / 36) (base36Digit ((n + 1) % 36) :: acc)
decreasing_by exact Nat.div_lt_self (Nat.succ_pos n) (by omega)

/-- `Number.prototype.toString(36)` for non-negative integers. -/
def toBase36 (n : Nat) : String :=
  if n = 0 then "0" else ⟨toBase36Aux n []⟩

/-- `simpleHash` from `url.ts`: the classic 31-based rolling hash over
UTF-16 code units, truncated to a signed 32-bit integer at each step
(`(hash << 5) - hash + char` followed by `hash & hash`), then
`Math.abs(...).toString(36)`. -/
def simpleHash (s : String) : String :=
  let step : Int → Char → Int := fun h c =>
    let v := (h * 31 + (c.toNat : Int)) % 4294967296
    let v := if v < 0 then v + 4294967296 else v
    if v ≥ 2147483648 then v - 4294967296 else v
  let h := s.toList.foldl step 0
  toBase36 h.natAbs

/-- `urlToFilename` from `url.ts`: pathname (plus a short hash of the query
string when present), sanitized, length-capped, `.md`-suffixed. -/
def urlToFilename (url : String) : String :=
  match parseURL url with
  | none => "page.md"
  | some r =>
    let base := r.path ++
      (if r.query = "" then "" else "_" ++ simpleHash ("?" ++ r.query))
    let cs := base.toList.dropWhile (· = '/')
    let cs := cs.map (fun c => if c = '/' then '_' else c)
    let cs := cs.map (fun c => if c.isAlphanum || c = '_' || c = '.' || c = '-' then c else '_')
    let cs := collapseUnderscores cs
    let cs := cs.take 200
    let f : String := ⟨cs⟩
    if jsEndsWith f ".md" then f
    else (if f = "" then "index" else f) ++ ".md"
where
  /-- `replace(/_+/g, "_")`. -/
  collapseUnderscores : List Char → List Char
    | [] => []
    | c :: t =>
      if c = '_' then '_' :: collapseUnderscores (t.dropWhile (· = '_'))
      else c :: collapseUnderscores t
  termination_by l => l.length
  decreasing_by
    · exact Nat.lt_succ_of_le (List.dropWhile_sublist _).length_le
    · exact Nat.lt_succ_self _

/-- `shouldCrawl` from `url.ts`: http(s) only, same domain, and not a
non-content path (API/auth/asset patterns). -/
def shouldCrawl (url : String) (baseUrl : String) : Bool :=
  match parseURL url with
  | none => false
  | some r =>
    -- scheme restriction: the model parser only accepts http/https
    (isSameDomain url baseUrl) &&
    (let p := jsToLower r.path
     ¬ (containsSub p "/api/" || containsSub p "/auth/" || containsSub p "/login" ||
        containsSub p "/logout" || containsSub p "/signup" || containsSub p "/register" ||
        containsSub p "/admin" || containsSub p "/cdn-cgi/" ||
        ["pdf", "zip", "tar", "gz", "exe", "dmg", "pkg", "deb", "rpm",
         "png", "jpg", "jpeg", "gif", "svg", "ico", "webp",
         "css", "js", "json", "xml", "rss", "atom",
         "mp3", "mp4", "avi", "mov", "wmv", "flv", "webm"].any
          (fun ext => jsEndsWith p ("." ++ ext))))

/-- `resolveUrl` from `url.ts`: absolute hrefs parse on their own;
protocol-relative hrefs take the base's scheme; root- and path-relative
hrefs are resolved against the base (dot segments are out of the model and
make resolution fail, as does an unparseable base). -/
def resolveUrl (href : String) (baseUrl : String) : Option String :=
  if jsStartsWith href "//" then
    (parseURL baseUrl).bind fun b =>
      (parseURL (b.scheme ++ ":" ++ href)).map serializeURL
  else
    match parseURL href with
    | some r => some (serializeURL r)
    | none =>
      (parseURL baseUrl).bind fun b =>
        let hrefL := href.toList
        let pq := hrefL.span (fun c => ¬ (c = '?' ∨ c = '#'))
        let pathPart : List Char := pq.1
        let newPath : List Char :=
          if pathPart.head? = some '/' then pathPart
          else (getParentPathL b.path.toList) ++ '/' :: pathPart
        (parseURL (serializeURL { b with
            path := ⟨encodePathL newPath⟩,
            query := ⟨(match pq.2 with
              | '?' :: rest => (rest.span (· ≠ '#')).1
              | _ => [])⟩,
            hash := "" })).map serializeURL

/-- `extractLinks` from `url.ts`: scan for `href="..."` / `href='...'`
attributes (the regex `/href=["']([^"']+)["']/gi`), skip anchor /
`javascript:` / `mailto:` / `tel:` targets, resolve against the page URL,
normalize, admission-check with `shouldCrawl`, and deduplicate. -/
def extractLinks (html : String) (baseUrl : String) : List String :=
  let hrefs := scanHrefs (jsToLower html).toList html.toList
  let step : List String × List String → String → List String × List String :=
    fun (acc : List String × List String) href =>
      if jsStartsWith href "#" || jsStartsWith href "javascript:" ||
         jsStartsWith href "mailto:" || jsStartsWith href "tel:" then acc
      else
        match resolveUrl href baseUrl with
        | none => acc
        | some resolved =>
          let normalized := normalizeUrl resolved
          if shouldCrawl normalized baseUrl && ¬ acc.2.contains normalized then
            (acc.1 ++ [normalized], acc.2 ++ [normalized])
          else acc
  (hrefs.foldl step ([], [])).1
where
  /-- Scans the lower-cased text (for the case-insensitive `href=` match)
  in lock-step with the original text, returning captured href values. -/
  scanHrefs : List Char → List Char → List String
    | lc, oc =>
      if h : lc = [] then []
      else
        if ("href=".toList).isPrefixOf lc then
          let rest := oc.drop 5
          match rest with
          | q :: body =>
            if q = '"' ∨ q = '\'' then
              let val := body.takeWhile (fun c => ¬ (c = '"' ∨ c = '\''))
              let after := body.drop val.length
              match after with
              | q2 :: tail =>
                if (q2 = '"' ∨ q2 = '\'') ∧ val ≠ [] then
                  (⟨val⟩ : String) :: scanHrefs (lc.drop (5 + 1 + val.length + 1)) tail
                else scanHrefs (lc.drop 1) (oc.drop 1)
              | [] => []
            else scanHrefs (lc.drop 1) (oc.drop 1)
          | [] => []
        else scanHrefs (lc.drop 1) (oc.drop 1)
  termination_by lc _ => lc.length
  decreasing_by
    all_goals
      (have hpos : lc.length > 0 := List.length_pos.mpr h
       simp [List.length_drop]
       omega)

/-! ## Web crawler (`src/services/web-scraper.ts`) -/

/-- `ScraperOptions` (all fields optional; `number` fields become `Int`). -/
structure ScraperOptions where
  maxDepth : Option Int := none
  requestDelay : Option Int := none
  maxPages : Option Int := none
  respectRobotsTxt : Option Bool := none
  userAgent : Option String := none

/-- `ScrapedPage`. -/
structure ScrapedPage where
  url : String
  normalizedUrl : String
  filename : String
  html : String
  status : Nat
  contentType : String
  depth : Nat
  links : List String
deriving Repr, DecidableEq

/-- Crawl statistics (`durationMs`, a wall-clock reading, is not
modelled). -/
structure CrawlStats where
  totalDiscovered : Nat
  totalCrawled : Nat
  totalFailed : Nat
  totalSkipped : Nat
  maxDepthReached : Nat
deriving Repr, DecidableEq

/-- `CrawlResult`. -/
structure CrawlResult where
  baseUrl : String
  pages : List ScrapedPage
  failed : List (String × String)
  skipped : List (String × String)
  stats : CrawlStats
deriving Repr

/-- Parsed robots.txt rules. -/
structure RobotsRules where
  disallowedPaths : List String
  crawlDelay : Option Int := none
deriving Repr

/-- Wildcard match for robots.txt patterns containing `*`: the source
builds `^` + pattern with `*` → `.*` (and `?` escaped) + `$` and tests the
pathname against it. -/
def globMatch : List Char → List Char → Bool
  | [], [] => true
  | [], _ :: _ => false
  | '*' :: ps, l =>
    globMatch ps l ||
      (match l with
       | [] => false
       | _ :: t => globMatch ('*' :: ps) t)
  | p :: ps, c :: t => p = c && globMatch ps t
  | _ :: _, [] => false
termination_by p l => p.length + l.length
decreasing_by all_goals (simp [List.length_cons]; try omega)

/-- `isDisallowed` from `web-scraper.ts`. -/
def isDisallowed (url : String) (rules : RobotsRules) : Bool :=
  match parseURL url with
  | none => false
  | some r =>
    rules.disallowedPaths.any (fun d =>
      if d.toList.contains '*' then globMatch d.toList r.path.toList
      else jsStartsWith r.path d)

/-- A raw page response, as seen by `fetchPage` before its content-type
gate (`none` at the oracle level models a thrown network error/timeout). -/
structure FetchedPage where
  html : String
  status : Nat
  contentType : String
deriving Repr

/-- `fetchPage` from `web-scraper.ts` over a fetch oracle: non-HTML
content types are silently dropped. -/
def fetchPageM (fetchO : String → Option FetchedPage) (url : String) :
    Option FetchedPage :=
  match fetchO url with
  | none => none
  | some resp =>
    if containsSub resp.contentType "text/html" ||
       containsSub resp.contentType "application/xhtml" then some resp
    else none

/-- `MAX_DEPTH` from `web-scraper.ts`. -/
def MAX_DEPTH : Int := 5

/-- The effective crawl depth:
`Math.min(options.maxDepth || DEFAULT_OPTIONS.maxDepth, MAX_DEPTH)` —
`0` (and an absent field) are falsy and fall back to the default `2`. -/
def effectiveMaxDepth (o : Option Int) : Int :=
  min (match o with
       | none => 2
       | some d => if d = 0 then 2 else d) MAX_DEPTH

/-- The crawl loop of `crawlWebsite`.  `fuel` bounds the number of
iterations; the source loop always terminates because the queue only grows
from freshly crawled pages, and every stated invariant holds for every
fuel value. -/
def crawlLoop (fetchO : String → Option FetchedPage) (robots : RobotsRules)
    (respectRobots : Bool) (maxDepth : Int) (maxPages : Int) (baseUrl : String) :
    Nat → List (String × Nat) → List String → CrawlResult → CrawlResult
  | 0, _, _, res => res
  | _ + 1, [], _, res => res
  | fuel + 1, (url, depth) :: rest, visited, res =>
    if ¬ ((res.pages.length : Int) < maxPages) then res
    else if visited.contains url then
      crawlLoop fetchO robots respectRobots maxDepth maxPages baseUrl fuel rest visited res
    else
      let visited := visited ++ [url]
      if respectRobots && isDisallowed url robots then
        crawlLoop fetchO robots respectRobots maxDepth maxPages baseUrl fuel rest visited
          { res with
            skipped := res.skipped ++ [(url, "disallowed by robots.txt")],
            stats := { res.stats with totalSkipped := res.stats.totalSkipped + 1 } }
      else if ¬ isSameDomain url baseUrl then
        crawlLoop fetchO robots respectRobots maxDepth maxPages baseUrl fuel rest visited
          { res with
            skipped := res.skipped ++ [(url, "external domain")],
            stats := { res.stats with totalSkipped := res.stats.totalSkipped + 1 } }
      else
        match fetchPageM fetchO url with
        | none =>
          crawlLoop fetchO robots respectRobots maxDepth maxPages baseUrl fuel rest visited
            { res with
              failed := res.failed ++ [(url, "fetch failed or non-HTML content")],
              stats := { res.stats with totalFailed := res.stats.totalFailed + 1 } }
        | some pr =>
          let links := if (depth : Int) < maxDepth then extractLinks pr.html url else []
          let page : ScrapedPage :=
            ⟨url, normalizeUrl url, urlToFilename url, pr.html, pr.status,
             pr.contentType, depth, links⟩
          let newLinks :=
            if (depth : Int) < maxDepth then
              links.filter (fun link => ¬ visited.contains link)
            else []
          crawlLoop fetchO robots respectRobots maxDepth maxPages baseUrl fuel
            (rest ++ newLinks.map (fun link => (link, depth + 1))) visited
            { res with
              pages := res.pages ++ [page],
              stats := { res.stats with
                totalCrawled := res.stats.totalCrawled + 1,
                maxDepthReached := max res.stats.maxDepthReached depth,
                totalDiscovered := res.stats.totalDiscovered + newLinks.length } }

/-- `crawlWebsite` from `web-scraper.ts`.  `fetchO` models `fetch`;
`robotsO` models the result of `fetchRobotsTxt` (`none` = no robots.txt /
fetch error, meaning allow-all). -/
def crawlWebsite (fetchO : String → Option FetchedPage)
    (robotsO : Option RobotsRules) (startUrl : String)
    (options : ScraperOptions) (fuel : Nat) : CrawlResult :=
  let maxDepth := effectiveMaxDepth options.maxDepth
  let maxPages := options.maxPages.getD 100
  let respect := options.respectRobotsTxt.getD true
  let baseUrl := normalizeUrl startUrl
  let robots := if respect then robotsO.getD ⟨[], none⟩ else ⟨[], none⟩
  crawlLoop fetchO robots respect maxDepth maxPages baseUrl fuel
    [(baseUrl, 0)] []
    ⟨baseUrl, [], [], [], ⟨1, 0, 0, 0, 0⟩⟩

/-! ## Rate limiting and repository tree fetch (`rate-limit.ts`,
`github-fetcher.ts`) -/

/-- `RateLimitInfo` (the `updatedAt` wall-clock field is not modelled). -/
structure RateLimitInfo where
  limit : Int
  remaining : Int
  reset : Int
deriving Repr, DecidableEq

/-- The `RateLimitTracker` state: `none` until headers have been seen. -/
abbrev RLState := Option RateLimitInfo

/-- `RateLimitTracker.isExhausted`. -/
def rlIsExhausted : RLState → Bool
  | none => false
  | some i => i.remaining ≤ 0

/-- `RateLimitTracker.isLow` (threshold 5). -/
def rlIsLow : RLState → Bool
  | none => false
  | some i => i.remaining < 5

/-- A GitHub API response as consumed by `githubFetch` /`fetchGitTree`:
`rlHeaders` models the three `X-RateLimit-*` headers (applied only when
all are present, per `updateFromHeaders`); `items`/`truncated` model the
tree body of an `ok` response. -/
structure GHResp where
  ok : Bool
  status : Nat
  rlHeaders : Option RateLimitInfo
  items : List GitHubTreeItem
  truncated : Bool

/-- Errors of the GitHub path (the source throws `Error`s with distinct
messages; they are modelled as distinct constructors). -/
inductive GHError where
  | rateLimited
  | branchNotFound (owner repo : String)
  | repoNotFound (owner repo branch : String)
  | apiError (status : Nat)
  | invalidRepoFormat (s : String)
deriving Repr, DecidableEq

/-- `githubFetch`: perform the request and feed the rate-limit headers to
the shared tracker.  Returns (response, new tracker state, request
trace). -/
def githubFetch (fetchO : String → GHResp) (url : String) (st : RLState) :
    GHResp × RLState × List String :=
  let resp := fetchO url
  (resp,
   match resp.rlHeaders with
   | some i => some i
   | none => st,
   [url])

/-- The Git Trees API URL for a branch (no recursive flag — used by branch
detection). -/
def ghTreeUrl (owner repo branch : String) : String :=
  "https://api.github.com/repos/" ++ owner ++ "/" ++ repo ++ "/git/trees/" ++ branch

/-- The recursive Git Trees API URL (used by the tree fetch). -/
def ghTreeRecUrl (owner repo branch : String) : String :=
  ghTreeUrl owner repo branch ++ "?recursive=1"

/-- `detectDefaultBranch` from `github-fetcher.ts`: fail fast when the
tracker says the quota is exhausted; try `main`, then `master`; fail with
a branch-not-found condition when neither answers `ok`. -/
def detectDefaultBranch (fetchO : String → GHResp) (owner repo : String)
    (st : RLState) : Except GHError String × RLState × List String :=
  if rlIsExhausted st then (.error .rateLimited, st, [])
  else
    let r1 := githubFetch fetchO (ghTreeUrl owner repo "main") st
    if r1.1.ok then (.ok "main", r1.2.1, r1.2.2)
    else
      let r2 := githubFetch fetchO (ghTreeUrl owner repo "master") r1.2.1
      if r2.1.ok then (.ok "master", r2.2.1, r1.2.2 ++ r2.2.2)
      else (.error (.branchNotFound owner repo), r2.2.1, r1.2.2 ++ r2.2.2)

/-- `fetchGitTree` from `github-fetcher.ts`: quota check (the low-quota
branch only logs a warning), one recursive tree request, 404 → not-found,
other non-ok → API error. -/
def fetchGitTree (fetchO : String → GHResp) (owner repo branch : String)
    (st : RLState) :
    Except GHError (List GitHubTreeItem × Bool) × RLState × List String :=
  if rlIsExhausted st then (.error .rateLimited, st, [])
  else
    let r := githubFetch fetchO (ghTreeRecUrl owner repo branch) st
    if r.1.ok then (.ok (r.1.items, r.1.truncated), r.2.1, r.2.2)
    else if r.1.status = 404 then
      (.error (.repoNotFound owner repo branch), r.2.1, r.2.2)
    else (.error (.apiError r.1.status), r.2.1, r.2.2)

/-- `parseRepoString`. -/
def parseRepoString (repoString : String) : Except GHError (String × String) :=
  match jsSplitSlash repoString with
  | [o, r] => .ok (o, r)
  | _ => .error (.invalidRepoFormat repoString)

/-- `FetchTreeOptions`. -/
structure FetchTreeOptions where
  path : Option String := none
  branch : Option String := none
  extensions : Option (List String) := none
  maxDepth : Option Int := none

/-- `FetchTreeResult`. -/
structure FetchTreeResult where
  repo : String
  branch : String
  tree : List DocsTreeNode
  fileCount : Nat
  totalSize : Nat
  truncated : Bool

/-- `fetchRepoTree` from `github-fetcher.ts`.  Note
`requestedBranch || (await detectDefaultBranch(...))`: an *empty* explicit
branch string is falsy in JavaScript and still triggers detection. -/
def fetchRepoTree (fetchO : String → GHResp) (repoString : String)
    (options : FetchTreeOptions) (st : RLState) :
    Except GHError FetchTreeResult × RLState × List String :=
  match parseRepoString repoString with
  | .error e => (.error e, st, [])
  | .ok (owner, repo) =>
    let path := options.path.getD ""
    let extensions := options.extensions.getD DEFAULT_EXTENSIONS
    let maxDepth := options.maxDepth.getD 10
    let branchStep : Except GHError String × RLState × List String :=
      match options.branch with
      | some b => if b = "" then detectDefaultBranch fetchO owner repo st else (.ok b, st, [])
      | none => detectDefaultBranch fetchO owner repo st
    match branchStep with
    | (.error e, st1, t1) => (.error e, st1, t1)
    | (.ok branch, st1, t1) =>
      match fetchGitTree fetchO owner repo branch st1 with
      | (.error e, st2, t2) => (.error e, st2, t1 ++ t2)
      | (.ok (items, truncated), st2, t2) =>
        let b := buildHierarchicalTree items path extensions maxDepth
        (.ok ⟨owner ++ "/" ++ repo, branch, b.1, b.2.1, b.2.2, truncated⟩,
         st2, t1 ++ t2)

/-! ## Search-index snippets (`src/services/search-index.ts`) -/

/-- `SNIPPET_LENGTH`. -/
def SNIPPET_LENGTH : Nat := 150

/-- `SNIPPET_CONTEXT`. -/
def SNIPPET_CONTEXT : Nat := 50

/-- The loop of `generateSnippet` choosing `bestPosition`: terms shorter
than 2 characters are skipped; a term's first occurrence is scored
`1/(pos+1)` and a strictly greater score wins, so the tracked value is the
first term index that is strictly smaller than the current best (the
float scores `1/(pos+1)` are distinct and monotone for all positions that
fit in a string). -/
def snippetBestPos (content query : String) : Option Nat :=
  let queryTerms := splitWsL (jsToLower query).toList
  let contentLower := (jsToLower content).toList
  queryTerms.foldl
    (fun best term =>
      if term.length < 2 then best
      else
        match indexOfL contentLower term with
        | none => best
        | some pos =>
          match best with
          | none => some pos
          | some b => if pos < b then some pos else best)
    none

/-- `generateSnippet` from `search-index.ts`. -/
def generateSnippet (content query : String) : String :=
  if content = "" then ""
  else
    let bestPosition := (snippetBestPos content query).getD 0
    let start := bestPosition - SNIPPET_CONTEXT
    let len := content.toList.length
    let stop := min len (start + SNIPPET_LENGTH)
    let slice := (content.toList.drop start).take (stop - start)
    let cleaned := trimL (collapseRuns isWsChar (collapseRuns (· = '\n') slice))
    let withLead := if 0 < start then '.' :: '.' :: '.' :: cleaned else cleaned
    let withTrail := if stop < len then withLead ++ ['.', '.', '.'] else withLead
    ⟨withTrail⟩

/-- The snippet window start position (for stating the boundary claim). -/
def snippetWindowStart (content query : String) : Nat :=
  (snippetBestPos content query).getD 0 - SNIPPET_CONTEXT

/-- The snippet window stop position. -/
def snippetWindowStop (content query : String) : Nat :=
  min content.toList.length (snippetWindowStart content query + SNIPPET_LENGTH)

/-- Spec-side description of the snippet (for the refinement theorem):
place the window at the earliest occurrence of any (≥ 2 character) query
token with 50 characters of leading context, collapse whitespace runs,
and mark truncation on either side with ellipses. -/
def snippetSpec (content query : String) : String :=
  if content = "" then ""
  else
    let positions :=
      (splitWsL (jsToLower query).toList).filterMap
        (fun t =>
          if 2 ≤ t.length then indexOfL (jsToLower content).toList t else none)
    let start := (positions.min?).getD 0 - SNIPPET_CONTEXT
    let len := content.toList.length
    let stop := min len (start + SNIPPET_LENGTH)
    let core := trimL (collapseRuns isWsChar ((content.toList.drop start).take (stop - start)))
    ⟨(if 0 < start then "...".toList else []) ++ core ++
      (if stop < len then "...".toList else [])⟩

/-- Minimum of two optional positions. -/
def optMin : Option Nat → Option Nat → Option Nat
  | none, m => m
  | some b, none => some b
  | some b, some m => some (min b m)

/-- The core (window slice after whitespace collapsing and trimming) of a
snippet. -/
def snippetCore (content query : String) : List Char :=
  trimL (collapseRuns isWsChar
    ((content.toList.drop (snippetWindowStart content query)).take
      (snippetWindowStop content query - snippetWindowStart content query)))

/-! ## Content-cleaner title extraction (`src/services/content-cleaner.ts`) -/

/-- The inputs `extractTitle` reads from the parsed document: the text of
the first `title` element, the text of the first `h1`, and the `content`
attribute of an `og:title` meta tag (absent → `none`).  The cheerio query
layer itself is not modelled. -/
structure TitleSources where
  titleTag : String
  h1 : String
  ogTitle : Option String
deriving Repr

/-- Separator characters of the title-suffix heuristic: `|`, `-`,
en dash, em dash. -/
def isSepChar (c : Char) : Bool :=
  c = '|' || c = '-' || c = '–' || c = '—'

/-- Whether `/\s*[|\-–—]\s*.+$/` matches the *whole* remaining text `m`
(the `$` anchor forces any match to extend to the end): optional leading
whitespace, a separator, then a split into a whitespace part and a
nonempty tail free of line terminators matched by `.` up to the end. -/
def sepMatchWhole (m : List Char) : Bool :=
  match m.dropWhile isWsChar with
  | c :: rest =>
    isSepChar c &&
      (List.range (rest.length + 1)).any (fun i =>
        (rest.take i).all isWsChar &&
        rest.drop i ≠ [] &&
        (rest.drop i).all (fun ch => ¬ (ch = '\n' ∨ ch = '\x0d')))
  | [] => false

/-- `titleTag.replace(/\s*[|\-–—]\s*.+$/, "")`: delete from the leftmost
match start (if any) to the end of the string. -/
def stripTitleSuffix (s : String) : String :=
  match (List.range s.toList.length).find? (fun i => sepMatchWhole (s.toList.drop i)) with
  | some i => ⟨s.toList.take i⟩
  | none => s

/-- `extractTitle` from `content-cleaner.ts`: title element (suffix
stripped) if that yields a nonempty string, else first `h1`, else
`og:title`, else nothing. -/
def extractTitleC (src : TitleSources) : Option String :=
  let titleTag := jsTrim src.titleTag
  let fromTitle : Option String :=
    if titleTag ≠ "" then
      let cleaned := jsTrim (stripTitleSuffix titleTag)
      if cleaned ≠ "" then some cleaned else none
    else none
  match fromTitle with
  | some t => some t
  | none =>
    let h1 := jsTrim src.h1
    if h1 ≠ "" then some h1
    else
      match src.ogTitle with
      | some og => if og ≠ "" then some (jsTrim og) else none
      | none => none

/-- Spec-side description of title extraction: the first conclusive
candidate of the ordered chain [stripped title element, first top-level
heading, `og:title`] wins. -/
def extractTitleSpec (src : TitleSources) : Option String :=
  [(let c := jsTrim (stripTitleSuffix (jsTrim src.titleTag))
    if c ≠ "" then some c else none),
   (let h := jsTrim src.h1
    if h ≠ "" then some h else none),
   (src.ogTitle.bind fun og => if og ≠ "" then some (jsTrim og) else none)
  ].findSome? id

/-! ## The `index_docs` orchestrator (`src/tools/index-docs.ts`) -/

/-- Result of parsing a GitHub URL. -/
structure GitHubUrlInfo where
  owner : String
  repo : String
  branch : Option String := none
  path : Option String := none
deriving Repr, DecidableEq

/-- `repo.replace(/\.git$/, "")`. -/
def stripDotGit (s : String) : String :=
  if jsEndsWith s ".git" then ⟨s.toList.take (s.toList.length - 4)⟩ else s

/-- `parseGitHubUrl` from `index-docs.ts`: trim, prefix `https://` when the
input does not start with `http`, parse, and accept any hostname that
merely *ends with* `github.com`; extract `owner/repo[/tree|blob/branch[/path]]`. -/
def parseGitHubUrl (url : String) : Option GitHubUrlInfo :=
  let normalized := jsTrim url
  let normalized :=
    if ¬ jsStartsWith normalized "http" then "https://" ++ normalized else normalized
  match parseURL normalized with
  | none => none
  | some parsed =>
    if ¬ jsEndsWith parsed.host "github.com" then none
    else
      match (jsSplitSlash parsed.path).filter (· ≠ "") with
      | owner :: repoRaw :: rest =>
        let repo := stripDotGit repoRaw
        let bp : Option String × Option String :=
          match rest with
          | seg :: more =>
            if seg = "tree" ∨ seg = "blob" then
              (more.head?,
               if 1 < more.length then some (joinSlash (more.drop 1)) else none)
            else (none, none)
          | [] => (none, none)
        some ⟨owner, repo, bp.1, bp.2⟩
      | _ => none

/-- Detector confidence levels. -/
inductive Confidence where
  | high
  | medium
  | low
deriving Repr, DecidableEq

/-- `GitHubDetectionResult` (from `github-detector.ts`). -/
structure GitHubDetectionResult where
  found : Bool
  repo : Option String := none
  docs_path : Option String := none
  confidence : Confidence
  detection_method : Option String := none
deriving Repr

/-- Typed failures of the orchestrator (`src/types/errors.ts`). -/
inductive OrchError where
  | validation (msg : String)
  | invalidUrl (url : String)
  | scrapingBlocked (url : String)
  | noContent (url : String)
  | github (e : GHError)
  | other (msg : String)
deriving Repr, DecidableEq

/-- The stats block of an `index_docs` result (`indexed_at`, a wall-clock
timestamp, is not modelled). -/
structure IndexStats where
  pages : Nat
  total_size_bytes : Nat
deriving Repr, DecidableEq

/-- `IndexDocsOutput`. -/
structure IndexDocsOutput where
  id : String
  source : String
  repo : Option String := none
  base_url : Option String := none
  tree : List DocsTreeNode
  stats : IndexStats
  detection_method : Option String := none
deriving Repr

/-- Externally visible actions of one `indexDocs` run, in order. -/
inductive IndexAction where
  | detectCall (url : String)
  | githubIndex (owner repo : String)
  | scrapeCrawl (url : String)
deriving Repr, DecidableEq

/-- Oracles for the orchestrator: the repository detector and the two
indexing sub-pipelines, abstracted over their network/cache effects. -/
structure IndexOracles where
  detect : String → GitHubDetectionResult
  github : String → String → Option String → Option String →
    Except OrchError IndexDocsOutput
  scrape : String → Option Int → Except OrchError IndexDocsOutput

/-- `IndexDocsInput` (string-typed `type` as in the source's union). -/
structure IndexDocsInput where
  url : String
  type : Option String := none
  depth : Option Int := none
  force_refresh : Option Bool := none

/-- Tags a successful result with a detection method. -/
def withMethod (r : Except OrchError IndexDocsOutput) (m : String) :
    Except OrchError IndexDocsOutput :=
  match r with
  | .ok o => .ok { o with detection_method := some m }
  | .error e => .error e

/-- `indexDocs` from `index-docs.ts`, with the effectful sub-pipelines as
oracles; returns the result together with the ordered action trace.
In auto mode, the detected-repo branch runs only under
`detection.found && detection.repo && detection.confidence !== "low"`
(an absent or empty `repo` string is falsy), destructures
`detection.repo.split("/")` into its first two pieces, and requires both
to be nonempty; a failed GitHub attempt falls through to scraping. -/
def indexDocs (oc : IndexOracles) (input : IndexDocsInput) :
    Except OrchError IndexDocsOutput × List IndexAction :=
  let url := input.url
  let ty := input.type.getD "auto"
  if url = "" then (.error (.validation "Missing required parameter: url"), [])
  else
    let githubInfo := parseGitHubUrl url
    if ty = "github" then
      match githubInfo with
      | none => (.error (.invalidUrl url), [])
      | some gi =>
        (oc.github gi.owner gi.repo gi.branch gi.path, [.githubIndex gi.owner gi.repo])
    else if ty = "scrape" then
      (oc.scrape url input.depth, [.scrapeCrawl url])
    else if ty = "auto" then
      match githubInfo with
      | some gi =>
        (withMethod (oc.github gi.owner gi.repo gi.branch gi.path) "direct_github_url",
         [.githubIndex gi.owner gi.repo])
      | none =>
        let detection := oc.detect url
        let repoTruthy := match detection.repo with
          | some rs => rs ≠ ""
          | none => false
        if detection.found && repoTruthy && ¬ (detection.confidence = .low) then
          let parts := jsSplitSlash (detection.repo.getD "")
          let owner := parts.headD ""
          let repo := (parts.drop 1).headD ""
          if owner ≠ "" ∧ repo ≠ "" then
            match oc.github owner repo none detection.docs_path with
            | .ok out =>
              (withMethod (.ok out)
                 ("auto_github_" ++ detection.detection_method.getD "undefined"),
               [.detectCall url, .githubIndex owner repo])
            | .error _ =>
              (withMethod (oc.scrape url input.depth) "scraping_fallback",
               [.detectCall url, .githubIndex owner repo, .scrapeCrawl url])
          else
            (withMethod (oc.scrape url input.depth) "scraping_fallback",
             [.detectCall url, .scrapeCrawl url])
        else
          (withMethod (oc.scrape url input.depth) "scraping_fallback",
           [.detectCall url, .scrapeCrawl url])
    else
      (.error (.other ("Invalid type: " ++ ty)), [])

/-! ## The scraping sub-pipeline of `index_docs` (`indexFromScraping`) -/

/-- `cleanHtml`'s result as consumed by `indexFromScraping` (the heading
list is not read there). -/
structure CleanedContent where
  markdown : String
  title : Option String
deriving Repr

/-- Cached metadata (fields `indexFromScraping` reads; timestamps are
represented by the freshness of the oracle below). -/
structure CacheMetaLite where
  id : String
  base_url : Option String
  page_count : Nat
  total_size_bytes : Nat
  tree : List DocsTreeNode

/-- Oracles of the scraping path: the crawler run, the HTML cleaner
(`cleanHtml` with the page URL as base), and the cache lookup (`some m`
means an entry exists *and* is unexpired — `getMeta` + `isExpired`). -/
structure ScrapeOracles where
  crawl : String → Option Int → CrawlResult
  clean : String → String → CleanedContent
  cachedMeta : Option CacheMetaLite

/-- Side effects of one `indexFromScraping` run: `storeContent` calls,
`addDocument` calls on the search index, whether the serialized index was
stored, and the stored metadata. -/
structure ScrapeTrace where
  stored : List (String × String) := []
  indexedDocs : List (String × String) := []
  searchIndexStored : Bool := false
  metaStored : Option CacheMetaLite := none

/-- `generateScrapedCacheId`: hostname with `www.` stripped, dots and
non-`[A-Za-z0-9_-]` characters replaced by underscores. -/
def generateScrapedCacheId (url : String) : Except OrchError String :=
  match extractDomain url with
  | none => .error (.other ("Invalid URL: " ++ url))
  | some domain =>
    .ok ⟨(stripWww domain).toList.map
      (fun c =>
        if c = '.' then '_'
        else if c.isAlphanum || c = '_' || c = '-' then c else '_')⟩

/-- Accumulator of the page-processing loop. -/
structure ScrapeAcc where
  stored : List (String × String) := []
  treeNodes : List DocsTreeNode := []
  indexed : List (String × String) := []
  totalSize : Nat := 0
  count : Nat := 0

/-- Whether `indexFromScraping` discards a crawled page as noise: the
cleaned markdown, trimmed, is shorter than 100 characters. -/
def pageDiscarded (clean : String → String → CleanedContent)
    (page : ScrapedPage) : Bool :=
  (jsTrim (clean page.html page.url).markdown).length < 100

/-- The stored markdown for a kept page: the cleaned markdown, with the
extracted title injected as an H1 when one exists (nonempty) and the body
does not already start with `# `. -/
def pageMarkdown (clean : String → String → CleanedContent)
    (page : ScrapedPage) : String :=
  let cleaned := clean page.html page.url
  let inject :=
    (match cleaned.title with
     | some t => t ≠ ""
     | none => false) && ¬ jsStartsWith cleaned.markdown "# "
  if inject then "# " ++ cleaned.title.getD "" ++ "\n\n" ++ cleaned.markdown
  else cleaned.markdown

/-- One iteration of the page-processing loop of `indexFromScraping`. -/
def scrapeStep (clean : String → String → CleanedContent)
    (acc : ScrapeAcc) (page : ScrapedPage) : ScrapeAcc :=
  if pageDiscarded clean page then acc
  else
    let markdown := pageMarkdown clean page
    let size := markdown.utf8ByteSize
    { stored := acc.stored ++ [(page.filename, markdown)],
      treeNodes := acc.treeNodes ++
        [DocsTreeNode.file page.filename page.filename (some size)],
      indexed := acc.indexed ++ [(page.filename, markdown)],
      totalSize := acc.totalSize + size,
      count := acc.count + 1 }

/-- The page-processing loop of `indexFromScraping`. -/
def scrapeProcess (clean : String → String → CleanedContent)
    (pages : List ScrapedPage) : ScrapeAcc :=
  pages.foldl (scrapeStep clean) {}

/-- `indexFromScraping` from `index-docs.ts`: cache check, crawl, blocked /
no-content classification, per-page clean-or-discard, tree sort by
filename, then store index and metadata. -/
def indexFromScraping (oc : ScrapeOracles) (url : String) (depth : Option Int)
    (forceRefresh : Bool) : Except OrchError IndexDocsOutput × ScrapeTrace :=
  let normalizedUrl := normalizeUrl url
  match generateScrapedCacheId normalizedUrl with
  | .error e => (.error e, {})
  | .ok cacheId =>
    match if forceRefresh then none else oc.cachedMeta with
    | some m =>
      (.ok ⟨m.id, "scraped", none, m.base_url, m.tree,
        ⟨m.page_count, m.total_size_bytes⟩, none⟩, {})
    | none =>
      let crawlResult := oc.crawl normalizedUrl depth
      if crawlResult.pages.length = 0 then
        if crawlResult.skipped.any
            (fun s => containsSub s.2 "robots.txt" || containsSub s.2 "403") then
          (.error (.scrapingBlocked normalizedUrl), {})
        else (.error (.noContent normalizedUrl), {})
      else
        let acc := scrapeProcess oc.clean crawlResult.pages
        if acc.count = 0 then
          (.error (.noContent normalizedUrl),
           { stored := acc.stored, indexedDocs := acc.indexed })
        else
          let tree := sortByLe
            (fun a b =>
              listLe (match a with
                      | DocsTreeNode.file n _ _ => n
                      | DocsTreeNode.folder n _ _ => n).toList
                     (match b with
                      | DocsTreeNode.file n _ _ => n
                      | DocsTreeNode.folder n _ _ => n).toList)
            acc.treeNodes
          (.ok ⟨cacheId, "scraped", none, some normalizedUrl, tree,
             ⟨acc.count, acc.totalSize⟩, none⟩,
           { stored := acc.stored,
             indexedDocs := acc.indexed,
             searchIndexStored := true,
             metaStored := some ⟨cacheId, some normalizedUrl, acc.count,
               acc.totalSize, tree⟩ })

/-! ## Theorems -/

/-- C10: `crawlWebsite` (via its option resolution
`Math.min(options.maxDepth || 2, 5)`) treats a caller-supplied `maxDepth`
of `0` as unset and uses the default depth `2` — so no option value can
request a seed-only depth-0 crawl — and clamps any `maxDepth` above `5`
down to `5`. -/
theorem crawl_maxDepth_zero_default_and_clamp :
    effectiveMaxDepth (some 0) = 2 ∧
    effectiveMaxDepth none = 2 ∧
    (∀ d : Int, 5 < d → effectiveMaxDepth (some d) = 5) ∧
    (∀ o : Option Int, effectiveMaxDepth o ≠ 0) ∧
    (∀ fetchO robotsO url (opts : ScraperOptions) fuel,
      crawlWebsite fetchO robotsO url { opts with maxDepth := some 0 } fuel =
        crawlWebsite fetchO robotsO url { opts with maxDepth := none } fuel) := by
  refine ⟨rfl, rfl, ?_, ?_, ?_⟩
  · intro d hd
    simp only [effectiveMaxDepth, MAX_DEPTH]
    have hd0 : d ≠ 0 := by omega
    simp only [hd0, if_false]
    omega
  · intro o
    cases o with
    | none => simp [effectiveMaxDepth, MAX_DEPTH]
    | some d =>
      simp only [effectiveMaxDepth, MAX_DEPTH]
      by_cases h : d = 0
      · simp [h]
      · simp only [h, if_false]
        intro hmin
        rw [Int.min_def] at hmin
        split at hmin <;> omega
  · intro fetchO robotsO url opts fuel
    have h : effectiveMaxDepth (some 0) = effectiveMaxDepth none := by decide
    simp [crawlWebsite, h]

/-- C10 witness: the clamp theorem applied at the concrete depth `7`. -/
theorem crawl_maxDepth_clamp_witness :
    effectiveMaxDepth (some 7) = 5 ∧ effectiveMaxDepth (some 0) ≠ 0 :=
  ⟨crawl_maxDepth_zero_default_and_clamp.2.2.1 7 (by decide),
   crawl_maxDepth_zero_default_and_clamp.2.2.2.1 (some 0)⟩

/-- C9: `parseGitHubUrl` only checks that the hostname *ends with*
`github.com`, so `https://notgithub.com/a/b` parses as repository `a/b`,
and `indexDocs` in explicit-github mode and in auto mode both route such a
URL to the GitHub indexing path (auto tags it `direct_github_url`). -/
theorem parseGitHubUrl_hostname_suffix_only :
    parseGitHubUrl "https://notgithub.com/a/b" =
      some ⟨"a", "b", none, none⟩ ∧
    (∀ oc : IndexOracles,
      indexDocs oc ⟨"https://notgithub.com/a/b", some "github", none, none⟩ =
        (oc.github "a" "b" none none, [.githubIndex "a" "b"])) ∧
    (∀ oc : IndexOracles,
      indexDocs oc ⟨"https://notgithub.com/a/b", some "auto", none, none⟩ =
        (withMethod (oc.github "a" "b" none none) "direct_github_url",
         [.githubIndex "a" "b"])) := by
  refine ⟨by decide, ?_, ?_⟩ <;>
    · intro oc
      rfl

/-- C8: `cleanHtml`'s title extraction follows the strict first-match-wins
priority chain: document title element with the trailing
`| Site Name` / `- Site Name` suffix stripped, when that yields a nonempty
string; else the first `h1`; else the `og:title` meta tag; else nothing. -/
theorem extractTitle_priority_chain (src : TitleSources) :
    extractTitleC src = extractTitleSpec src := by
  unfold extractTitleC extractTitleSpec
  simp only [List.findSome?_cons, id]
  by_cases h1 : jsTrim src.titleTag = ""
  · have e1 : jsTrim (stripTitleSuffix "") = "" := rfl
    by_cases h2 : jsTrim src.h1 = ""
    · cases hog : src.ogTitle with
      | none => simp [h1, e1, h2, hog]
      | some og => by_cases hogE : og = "" <;> simp [h1, e1, h2, hog, hogE]
    · simp [h1, e1, h2]
  · simp only [h1, if_false, ne_eq, not_false_iff, if_true]
    by_cases h2 : jsTrim (stripTitleSuffix (jsTrim src.titleTag)) = ""
    · simp only [h2, if_true, ne_eq, not_true_eq_false, if_false]
      by_cases h3 : jsTrim src.h1 = ""
      · cases hog : src.ogTitle with
        | none => simp [h3, hog]
        | some og => by_cases hogE : og = "" <;> simp [h3, hog, hogE]
      · simp [h3]
    · simp [h2]

/-! ### Snippet lemmas (C5) -/

theorem foldl_min_pull (L : List Nat) :
    ∀ a b, L.foldl min (min a b) = min a (L.foldl min b) := by
  induction L with
  | nil => intro a b; rfl
  | cons c L ih =>
    intro a b
    simp only [List.foldl_cons]
    rw [Nat.min_assoc, ih]

theorem min?_cons_eq_optMin (a : Nat) (L : List Nat) :
    (a :: L).min? = optMin (some a) L.min? := by
  cases L with
  | nil => rfl
  | cons b L =>
    simp only [List.min?, List.foldl_cons, optMin]
    rw [foldl_min_pull]

theorem optMin_assoc (a b c : Option Nat) :
    optMin (optMin a b) c = optMin a (optMin b c) := by
  cases a <;> cases b <;> cases c <;> simp [optMin, Nat.min_assoc]

/-- The best-position fold of `generateSnippet` computes the minimum of
the first-occurrence positions of the (length ≥ 2) query tokens. -/
theorem snippetBestPos_eq_min (content query : String) :
    snippetBestPos content query =
      ((splitWsL (jsToLower query).toList).filterMap
        (fun t =>
          if 2 ≤ t.length then indexOfL (jsToLower content).toList t else none)).min? := by
  unfold snippetBestPos
  generalize (splitWsL (jsToLower query).toList) = ts
  generalize (jsToLower content).toList = cl
  suffices h : ∀ (b : Option Nat),
      ts.foldl
        (fun best term =>
          if term.length < 2 then best
          else
            match indexOfL cl term with
            | none => best
            | some pos =>
              match best with
              | none => some pos
              | some b => if pos < b then some pos else best)
        b =
      optMin b ((ts.filterMap
        (fun t => if 2 ≤ t.length then indexOfL cl t else none)).min?) by
    rw [h none]; rfl
  induction ts with
  | nil => intro b; cases b <;> rfl
  | cons t ts ih =>
    intro b
    simp only [List.foldl_cons, List.filterMap_cons]
    by_cases hlen : t.length < 2
    · have h2 : ¬ (2 ≤ t.length) := by omega
      simp only [hlen, if_true, h2, if_false]
      exact ih b
    · have h2 : 2 ≤ t.length := by omega
      simp only [hlen, if_false, h2, if_true]
      cases hidx : indexOfL cl t with
      | none => simp only [ih]
      | some pos =>
        rw [ih, min?_cons_eq_optMin, ← optMin_assoc]
        congr 1
        cases b with
        | none => rfl
        | some b0 =>
          simp only [optMin]
          by_cases hlt : pos < b0
          · simp only [hlt, if_true]
            congr 1
            omega
          · simp only [hlt, if_false]
            congr 1
            omega

/-- Collapsing newline runs first does not change the result of collapsing
all whitespace runs. -/
theorem collapse_nl_then_ws (l : List Char) :
    (∀ s, collapseRunsAux isWsChar s (collapseRunsAux (fun c => c = '\n') false l) =
        collapseRunsAux isWsChar s l) ∧
    collapseRunsAux isWsChar true (collapseRunsAux (fun c => c = '\n') true l) =
      collapseRunsAux isWsChar true l := by
  induction l with
  | nil => exact ⟨fun _ => rfl, rfl⟩
  | cons c t ih =>
    constructor
    · intro s
      by_cases hc : c = '\n'
      · subst hc
        cases s <;> simp [collapseRunsAux, isWsChar, ih.2]
      · by_cases hw : isWsChar c = true
        · cases s <;> simp [collapseRunsAux, hc, hw, ih.1]
        · cases s <;> simp [collapseRunsAux, hc, hw, ih.1]
    · by_cases hc : c = '\n'
      · subst hc
        simp [collapseRunsAux, isWsChar, ih.2]
      · by_cases hw : isWsChar c = true
        · simp [collapseRunsAux, hc, hw, ih.1]
        · simp [collapseRunsAux, hc, hw, ih.1]

theorem collapseRunsAux_length_le (p : Char → Bool) :
    ∀ (l : List Char) (s : Bool), (collapseRunsAux p s l).length ≤ l.length := by
  intro l
  induction l with
  | nil => intro s; simp [collapseRunsAux]
  | cons c t ih =>
    intro s
    have h1 := ih true
    have h2 := ih false
    by_cases hp : p c = true <;> cases s <;>
      simp [collapseRunsAux, hp, List.length_cons] <;> omega

theorem trimL_length_le (l : List Char) : (trimL l).length ≤ l.length := by
  unfold trimL
  have h1 : (l.dropWhile isWsChar).length ≤ l.length :=
    (List.dropWhile_sublist _).length_le
  have h2 : ((l.dropWhile isWsChar).reverse.dropWhile isWsChar).length ≤
      (l.dropWhile isWsChar).reverse.length :=
    (List.dropWhile_sublist _).length_le
  simp only [List.length_reverse] at h2 ⊢
  omega

theorem string_mk_length (l : List Char) : (String.mk l).length = l.length := rfl

/-- C5 counterexample: the snippet-boundary claim fails as stated.  For a
body that itself begins with `...`, the snippet begins with an ellipsis
although the window starts at position 0; and single-character query
tokens are ignored, so the window is *not* placed at the earliest
occurrence of *any* token (`a` occurs at 0, yet the window starts at 13,
around the later `zz` match). -/
theorem generateSnippet_boundary_counterexample :
    jsStartsWith (generateSnippet "...x" "zz") "..." = true ∧
    snippetWindowStart "...x" "zz" = 0 ∧
    indexOfL ("a bbbbbbbbbbbbbbbbbbbbbbbbbbbbbbbbbbbbbbbbbbbbbbbbbbbbbbbbbbbb zz" : String).toList
      ("a" : String).toList = some 0 ∧
    snippetWindowStart "a bbbbbbbbbbbbbbbbbbbbbbbbbbbbbbbbbbbbbbbbbbbbbbbbbbbbbbbbbbbb zz" "a zz" = 13 := by
  refine ⟨by decide, by decide, by decide, by decide⟩

/-- `generateSnippet` decomposed into lead-ellipsis, core and
trail-ellipsis. -/
theorem generateSnippet_parts (content query : String) (h : content ≠ "") :
    generateSnippet content query =
      ⟨(if 0 < snippetWindowStart content query then "...".toList else []) ++
        snippetCore content query ++
        (if snippetWindowStop content query < content.toList.length then "...".toList
         else [])⟩ := by
  have hcol : ∀ sl : List Char,
      collapseRuns isWsChar (collapseRuns (fun c => c = '\n') sl) =
        collapseRuns isWsChar sl := fun sl => (collapse_nl_then_ws sl).1 false
  have hdots : ("..." : String).toList = ['.', '.', '.'] := rfl
  unfold generateSnippet snippetCore snippetWindowStop snippetWindowStart
  simp only [h, if_false, hcol]
  by_cases hA : 0 < (snippetBestPos content query).getD 0 - SNIPPET_CONTEXT <;>
    by_cases hB :
      min content.toList.length
        ((snippetBestPos content query).getD 0 - SNIPPET_CONTEXT + SNIPPET_LENGTH) <
        content.toList.length <;>
    simp only [hA, hB, if_true, if_false, hdots, List.cons_append, List.nil_append,
      List.append_assoc, List.append_nil]

/-- The snippet core is at most the window length. -/
theorem snippetCore_length_le (content query : String) :
    (snippetCore content query).length ≤ SNIPPET_LENGTH := by
  unfold snippetCore
  have h1 := trimL_length_le (collapseRuns isWsChar
    ((content.toList.drop (snippetWindowStart content query)).take
      (snippetWindowStop content query - snippetWindowStart content query)))
  have h2 := collapseRunsAux_length_le isWsChar
    ((content.toList.drop (snippetWindowStart content query)).take
      (snippetWindowStop content query - snippetWindowStart content query)) false
  have h3 := List.length_take_le
    (snippetWindowStop content query - snippetWindowStart content query)
    (content.toList.drop (snippetWindowStart content query))
  have h4 : snippetWindowStop content query - snippetWindowStart content query ≤
      SNIPPET_LENGTH := by
    unfold snippetWindowStop
    have := Nat.min_le_right content.toList.length
      (snippetWindowStart content query + SNIPPET_LENGTH)
    omega
  simp only [collapseRuns] at h1 h2 ⊢
  omega

/-- C5 (amended): the produced snippet equals the spec-side description —
window at the earliest occurrence of any query token *of length ≥ 2*
(positions scored `1/(pos+1)`, highest wins) with 50 characters of leading
context, whitespace collapsed — its length never exceeds the 150-character
window plus two 3-character ellipsis markers, an ellipsis is *prepended*
iff the window does not start at position 0, and *appended* iff the window
does not reach the end of the body. -/
theorem generateSnippet_spec_and_bounds (content query : String) :
    generateSnippet content query = snippetSpec content query ∧
    (generateSnippet content query).length ≤ SNIPPET_LENGTH + 6 ∧
    (0 < snippetWindowStart content query →
      jsStartsWith (generateSnippet content query) "..." = true) ∧
    (snippetWindowStop content query < content.toList.length →
      jsEndsWith (generateSnippet content query) "..." = true) := by
  by_cases hc : content = ""
  · subst hc
    refine ⟨rfl, by simp [generateSnippet], ?_, ?_⟩
    · intro h
      have hb : snippetBestPos "" query = none := by
        unfold snippetBestPos
        generalize (splitWsL (jsToLower query).toList) = ts
        induction ts with
        | nil => rfl
        | cons t ts ih =>
          simp only [List.foldl_cons]
          by_cases hlen : t.length < 2
          · simpa [hlen] using ih
          · have hio : indexOfL (jsToLower "").data t = none := by
              cases t with
              | nil => simp at hlen
              | cons a t' => rfl
            simp only [hlen, if_false, String.toList, hio]
            simpa using ih
      unfold snippetWindowStart at h
      rw [hb] at h
      simp at h
    · intro h
      unfold snippetWindowStop at h
      simp at h
  · have heq : generateSnippet content query = snippetSpec content query := by
      rw [generateSnippet_parts content query hc]
      unfold snippetSpec snippetCore snippetWindowStop snippetWindowStart
      rw [snippetBestPos_eq_min]
      simp only [hc, if_false]
    refine ⟨heq, ?_, ?_, ?_⟩
    · rw [generateSnippet_parts content query hc]
      have hcore := snippetCore_length_le content query
      rw [string_mk_length]
      simp only [List.length_append]
      split <;> split <;> simp_all <;> omega
    · intro h
      rw [generateSnippet_parts content query hc]
      simp only [h, if_true]
      simp [jsStartsWith, List.isPrefixOf]
    · intro h
      rw [generateSnippet_parts content query hc]
      simp only [h, if_true]
      simp [jsEndsWith, List.isSuffixOf, List.reverse_append]

set_option maxRecDepth 8000 in
/-- C5 witness: the boundary theorem at a body long enough that the chosen
window neither starts at the beginning nor reaches the end. -/
theorem generateSnippet_spec_witness :
    jsStartsWith
      (generateSnippet
        ⟨List.replicate 60 'a' ++ (" zz" : String).toList ++ List.replicate 120 'b'⟩ "zz")
      "..." = true ∧
    jsEndsWith
      (generateSnippet
        ⟨List.replicate 60 'a' ++ (" zz" : String).toList ++ List.replicate 120 'b'⟩ "zz")
      "..." = true :=
  ⟨(generateSnippet_spec_and_bounds
      ⟨List.replicate 60 'a' ++ (" zz" : String).toList ++ List.replicate 120 'b'⟩ "zz").2.2.1
      (by decide),
   (generateSnippet_spec_and_bounds
      ⟨List.replicate 60 'a' ++ (" zz" : String).toList ++ List.replicate 120 'b'⟩ "zz").2.2.2
      (by decide)⟩

/-- C6 counterexample: supplying the *empty string* as an explicit branch
option does not bypass detection — `requestedBranch || detect(...)`
treats `""` as falsy, so a detection request for branch `main` is still
issued (here `main` answers ok, so the trace is the `main` probe followed
by the recursive tree fetch on `main`). -/
theorem fetchRepoTree_empty_branch_counterexample :
    (fetchRepoTree (fun _ => ⟨true, 200, none, [], false⟩) "o/r"
        { branch := some "" } none).2.2 =
      [ghTreeUrl "o" "r" "main", ghTreeRecUrl "o" "r" "main"] := by
  rfl

/-- C6 (amended): without an explicit branch, `fetchRepoTree` fails fast on
an exhausted quota; otherwise it probes `main` first and `master` second,
resolves to the first that answers ok, and fails with the
branch-not-found condition — distinct from the rate-limit condition —
when neither does.  An explicit *nonempty* branch bypasses detection
entirely: the only request ever issued is the recursive tree fetch for
that branch (none when the quota is exhausted); the empty string, being
falsy, still triggers detection. -/
theorem fetchRepoTree_branch_resolution
    (fetchO : String → GHResp) (repoString owner repo : String) (st : RLState)
    (opts : FetchTreeOptions)
    (hparse : parseRepoString repoString = .ok (owner, repo)) :
    (rlIsExhausted st = true →
      detectDefaultBranch fetchO owner repo st = (.error .rateLimited, st, [])) ∧
    (rlIsExhausted st = false →
      (detectDefaultBranch fetchO owner repo st).2.2 =
        (if (fetchO (ghTreeUrl owner repo "main")).ok then
          [ghTreeUrl owner repo "main"]
         else [ghTreeUrl owner repo "main", ghTreeUrl owner repo "master"]) ∧
      ((fetchO (ghTreeUrl owner repo "main")).ok = true →
        (detectDefaultBranch fetchO owner repo st).1 = .ok "main") ∧
      ((fetchO (ghTreeUrl owner repo "main")).ok = false →
        (fetchO (ghTreeUrl owner repo "master")).ok = false →
        (fetchRepoTree fetchO repoString
            ⟨opts.path, none, opts.extensions, opts.maxDepth⟩ st).1 =
          .error (.branchNotFound owner repo))) ∧
    GHError.branchNotFound owner repo ≠ GHError.rateLimited ∧
    (∀ b, b ≠ "" →
      (fetchRepoTree fetchO repoString
          ⟨opts.path, some b, opts.extensions, opts.maxDepth⟩ st).2.2 =
        if rlIsExhausted st then [] else [ghTreeRecUrl owner repo b]) := by
  refine ⟨?_, ?_, by simp, ?_⟩
  · intro hex
    simp [detectDefaultBranch, hex]
  · intro hex
    refine ⟨?_, ?_, ?_⟩
    · by_cases hok : (fetchO (ghTreeUrl owner repo "main")).ok
      · simp [detectDefaultBranch, hex, githubFetch, hok]
      · simp only [detectDefaultBranch, hex, Bool.false_eq_true, if_false, githubFetch,
          hok, if_true]
        split <;> simp
    · intro hok
      simp [detectDefaultBranch, hex, githubFetch, hok]
    · intro hok1 hok2
      simp [fetchRepoTree, hparse, detectDefaultBranch, hex, githubFetch, hok1, hok2]
  · intro b hb
    by_cases hex : rlIsExhausted st = true
    · simp [fetchRepoTree, hparse, hb, fetchGitTree, hex]
    · simp only [Bool.not_eq_true] at hex
      by_cases hok2 : (fetchO (ghTreeRecUrl owner repo b)).ok = true
      · simp [fetchRepoTree, hparse, hb, fetchGitTree, hex, githubFetch, hok2]
      · by_cases h404 : (fetchO (ghTreeRecUrl owner repo b)).status = 404 <;>
          simp [fetchRepoTree, hparse, hb, fetchGitTree, hex, githubFetch, hok2, h404]

/-- C6 witness: the branch-resolution theorem applied to a concrete
oracle on which neither `main` nor `master` exists, and to an explicit
branch `dev`. -/
theorem fetchRepoTree_branch_resolution_witness :
    (fetchRepoTree (fun _ => ⟨false, 404, none, [], false⟩) "o/r"
        { branch := none } none).1 = .error (.branchNotFound "o" "r") ∧
    (fetchRepoTree (fun _ => ⟨true, 200, none, [], false⟩) "o/r"
        { branch := some "dev" } none).2.2 = [ghTreeRecUrl "o" "r" "dev"] := by
  have h := fetchRepoTree_branch_resolution (fun _ => ⟨false, 404, none, [], false⟩)
    "o/r" "o" "r" none {} (by rfl)
  have h2 := fetchRepoTree_branch_resolution (fun _ => ⟨true, 200, none, [], false⟩)
    "o/r" "o" "r" none {} (by rfl)
  exact ⟨((h.2.1 (by rfl)).2.2 (by rfl) (by rfl)),
    by simpa using h2.2.2.2 "dev" (by decide)⟩

/-- C1: `indexDocs` in auto mode on a URL that does not parse as a GitHub
URL.  If the detector reports `found` with a well-formed repo string and
confidence strictly above `low`, the GitHub path is attempted with the
detected owner/repo: on success the result is tagged
`auto_github_<method>`; if the GitHub attempt fails *for any reason*, the
run falls back to crawling the original input URL (tagged as the scraping
fallback) instead of propagating the GitHub failure.  If the detector
found nothing, or only with low confidence, the run goes straight to
crawling, with no GitHub attempt. -/
theorem indexDocs_auto_detection_flow
    (oc : IndexOracles) (url : String) (depth : Option Int) (fr : Option Bool)
    (hurl : url ≠ "")
    (hng : parseGitHubUrl url = none) :
    (∀ rs owner repo rest,
      (oc.detect url).found = true →
      (oc.detect url).confidence ≠ .low →
      (oc.detect url).repo = some rs →
      jsSplitSlash rs = owner :: repo :: rest →
      owner ≠ "" → repo ≠ "" →
      (∀ out, oc.github owner repo none (oc.detect url).docs_path = .ok out →
        indexDocs oc ⟨url, some "auto", depth, fr⟩ =
          (withMethod (.ok out)
             ("auto_github_" ++ (oc.detect url).detection_method.getD "undefined"),
           [.detectCall url, .githubIndex owner repo])) ∧
      (∀ e, oc.github owner repo none (oc.detect url).docs_path = .error e →
        indexDocs oc ⟨url, some "auto", depth, fr⟩ =
          (withMethod (oc.scrape url depth) "scraping_fallback",
           [.detectCall url, .githubIndex owner repo, .scrapeCrawl url]))) ∧
    ((oc.detect url).found = false ∨ (oc.detect url).confidence = .low →
      indexDocs oc ⟨url, some "auto", depth, fr⟩ =
        (withMethod (oc.scrape url depth) "scraping_fallback",
         [.detectCall url, .scrapeCrawl url])) := by
  constructor
  · intro rs owner repo rest hfound hconf hrepo hsplit howner hrepoNe
    have hrsne : rs ≠ "" := by
      intro h
      subst h
      simp [jsSplitSlash, splitCharL] at hsplit
    constructor
    · intro out hok
      simp [indexDocs, hurl, hng, hfound, hrepo, hrsne, hconf, hsplit,
        howner, hrepoNe, hok]
    · intro e herr
      simp [indexDocs, hurl, hng, hfound, hrepo, hrsne, hconf, hsplit,
        howner, hrepoNe, herr]
  · intro hno
    cases hno with
    | inl hf => simp [indexDocs, hurl, hng, hf]
    | inr hc => simp [indexDocs, hurl, hng, hc]

/-- C1 witness: the auto-mode flow at a concrete URL, detector and
oracles — one GitHub-succeeding run, one GitHub-failing run that falls
back to scraping, and one low-confidence run that crawls directly. -/
theorem indexDocs_auto_detection_flow_witness :
    (indexDocs
      ⟨fun _ => ⟨true, some "o/r", none, .high, some "meta_tag"⟩,
       fun _ _ _ _ => .ok ⟨"o_r", "github", some "o/r", none, [], ⟨1, 10⟩, none⟩,
       fun u _ => .ok ⟨"site", "scraped", none, some u, [], ⟨2, 20⟩, none⟩⟩
      ⟨"https://docs.example.com", some "auto", none, none⟩ =
      (.ok ⟨"o_r", "github", some "o/r", none, [], ⟨1, 10⟩,
          some "auto_github_meta_tag"⟩,
       [.detectCall "https://docs.example.com", .githubIndex "o" "r"])) ∧
    (indexDocs
      ⟨fun _ => ⟨true, some "o/r", none, .high, some "meta_tag"⟩,
       fun _ _ _ _ => .error (.github .rateLimited),
       fun u _ => .ok ⟨"site", "scraped", none, some u, [], ⟨2, 20⟩, none⟩⟩
      ⟨"https://docs.example.com", some "auto", none, none⟩ =
      (.ok ⟨"site", "scraped", none, some "https://docs.example.com", [], ⟨2, 20⟩,
          some "scraping_fallback"⟩,
       [.detectCall "https://docs.example.com", .githubIndex "o" "r",
        .scrapeCrawl "https://docs.example.com"])) ∧
    (indexDocs
      ⟨fun _ => ⟨true, some "o/r", none, .low, some "github_links_found_1"⟩,
       fun _ _ _ _ => .ok ⟨"o_r", "github", some "o/r", none, [], ⟨1, 10⟩, none⟩,
       fun u _ => .ok ⟨"site", "scraped", none, some u, [], ⟨2, 20⟩, none⟩⟩
      ⟨"https://docs.example.com", some "auto", none, none⟩ =
      (.ok ⟨"site", "scraped", none, some "https://docs.example.com", [], ⟨2, 20⟩,
          some "scraping_fallback"⟩,
       [.detectCall "https://docs.example.com", .scrapeCrawl "https://docs.example.com"])) := by
  have hng : parseGitHubUrl "https://docs.example.com" = none := by rfl
  refine ⟨?_, ?_, ?_⟩
  · exact ((indexDocs_auto_detection_flow
      ⟨fun _ => ⟨true, some "o/r", none, .high, some "meta_tag"⟩,
       fun _ _ _ _ => .ok ⟨"o_r", "github", some "o/r", none, [], ⟨1, 10⟩, none⟩,
       fun u _ => .ok ⟨"site", "scraped", none, some u, [], ⟨2, 20⟩, none⟩⟩
      "https://docs.example.com" none none (by decide) hng).1
      "o/r" "o" "r" [] rfl (by decide) rfl (by decide) (by decide) (by decide)).1
      _ rfl
  · exact ((indexDocs_auto_detection_flow
      ⟨fun _ => ⟨true, some "o/r", none, .high, some "meta_tag"⟩,
       fun _ _ _ _ => .error (.github .rateLimited),
       fun u _ => .ok ⟨"site", "scraped", none, some u, [], ⟨2, 20⟩, none⟩⟩
      "https://docs.example.com" none none (by decide) hng).1
      "o/r" "o" "r" [] rfl (by decide) rfl (by decide) (by decide) (by decide)).2
      _ rfl
  · exact (indexDocs_auto_detection_flow
      ⟨fun _ => ⟨true, some "o/r", none, .low, some "github_links_found_1"⟩,
       fun _ _ _ _ => .ok ⟨"o_r", "github", some "o/r", none, [], ⟨1, 10⟩, none⟩,
       fun u _ => .ok ⟨"site", "scraped", none, some u, [], ⟨2, 20⟩, none⟩⟩
      "https://docs.example.com" none none (by decide) hng).2
      (Or.inr rfl)

/-- The page-processing fold characterized: kept pages (those not
discarded as too short) contribute, in order, their stored content, tree
node, index document, byte size and count. -/
theorem scrapeProcess_foldl (clean : String → String → CleanedContent)
    (pages : List ScrapedPage) : ∀ acc : ScrapeAcc,
    pages.foldl (scrapeStep clean) acc =
      { stored := acc.stored ++
          (pages.filter (fun p => ¬ pageDiscarded clean p)).map
            (fun p => (p.filename, pageMarkdown clean p)),
        treeNodes := acc.treeNodes ++
          (pages.filter (fun p => ¬ pageDiscarded clean p)).map
            (fun p => DocsTreeNode.file p.filename p.filename
              (some (pageMarkdown clean p).utf8ByteSize)),
        indexed := acc.indexed ++
          (pages.filter (fun p => ¬ pageDiscarded clean p)).map
            (fun p => (p.filename, pageMarkdown clean p)),
        totalSize := acc.totalSize +
          ((pages.filter (fun p => ¬ pageDiscarded clean p)).map
            (fun p => (pageMarkdown clean p).utf8ByteSize)).sum,
        count := acc.count +
          (pages.filter (fun p => ¬ pageDiscarded clean p)).length } := by
  induction pages with
  | nil => intro acc; simp
  | cons p ps ih =>
    intro acc
    by_cases hd : pageDiscarded clean p
    · simp [List.foldl_cons, scrapeStep, hd, ih, List.filter_cons]
    · simp only [List.foldl_cons]
      rw [show scrapeStep clean acc p =
        { stored := acc.stored ++ [(p.filename, pageMarkdown clean p)],
          treeNodes := acc.treeNodes ++
            [DocsTreeNode.file p.filename p.filename
              (some (pageMarkdown clean p).utf8ByteSize)],
          indexed := acc.indexed ++ [(p.filename, pageMarkdown clean p)],
          totalSize := acc.totalSize + (pageMarkdown clean p).utf8ByteSize,
          count := acc.count + 1 } from by simp [scrapeStep, hd]]
      rw [ih]
      simp [hd, List.append_assoc]
      omega

/-- C7: on the crawl path, every crawled page whose cleaned markdown body
trims to fewer than 100 characters is discarded — it is not stored, not
indexed, does not contribute a tree node and does not count toward the
page count — and when *every* crawled page is discarded, the run fails
with the no-content error and writes neither search index nor metadata,
even though pages were fetched. -/
theorem indexFromScraping_discards_short_pages
    (oc : ScrapeOracles) (url : String) (depth : Option Int)
    (forceRefresh : Bool) (cid : String)
    (hdom : generateScrapedCacheId (normalizeUrl url) = .ok cid)
    (hcache : (if forceRefresh then none else oc.cachedMeta) = none)
    (hpages : (oc.crawl (normalizeUrl url) depth).pages ≠ []) :
    ((indexFromScraping oc url depth forceRefresh).2.stored =
      ((oc.crawl (normalizeUrl url) depth).pages.filter
        (fun p => ¬ pageDiscarded oc.clean p)).map
        (fun p => (p.filename, pageMarkdown oc.clean p))) ∧
    ((indexFromScraping oc url depth forceRefresh).2.indexedDocs =
      ((oc.crawl (normalizeUrl url) depth).pages.filter
        (fun p => ¬ pageDiscarded oc.clean p)).map
        (fun p => (p.filename, pageMarkdown oc.clean p))) ∧
    ((∀ p ∈ (oc.crawl (normalizeUrl url) depth).pages, pageDiscarded oc.clean p) →
      indexFromScraping oc url depth forceRefresh =
        (.error (.noContent (normalizeUrl url)), ⟨[], [], false, none⟩)) ∧
    (((oc.crawl (normalizeUrl url) depth).pages.filter
        (fun p => ¬ pageDiscarded oc.clean p)) ≠ [] →
      ∃ out, (indexFromScraping oc url depth forceRefresh).1 = .ok out ∧
        out.stats.pages =
          ((oc.crawl (normalizeUrl url) depth).pages.filter
            (fun p => ¬ pageDiscarded oc.clean p)).length ∧
        out.tree = sortByLe
          (fun a b =>
            listLe (match a with
                    | DocsTreeNode.file n _ _ => n
                    | DocsTreeNode.folder n _ _ => n).toList
                   (match b with
                    | DocsTreeNode.file n _ _ => n
                    | DocsTreeNode.folder n _ _ => n).toList)
          (((oc.crawl (normalizeUrl url) depth).pages.filter
              (fun p => ¬ pageDiscarded oc.clean p)).map
            (fun p => DocsTreeNode.file p.filename p.filename
              (some (pageMarkdown oc.clean p).utf8ByteSize))) ∧
        (indexFromScraping oc url depth forceRefresh).2.metaStored.isSome) := by
  have hlen : ¬ ((oc.crawl (normalizeUrl url) depth).pages.length = 0) := by
    simpa [List.length_eq_zero] using hpages
  have hproc := scrapeProcess_foldl oc.clean (oc.crawl (normalizeUrl url) depth).pages
    ({} : ScrapeAcc)
  refine ⟨?_, ?_, ?_, ?_⟩
  · simp only [indexFromScraping, hdom, hcache]
    simp only [hlen, if_false, scrapeProcess, hproc]
    split <;> simp
  · simp only [indexFromScraping, hdom, hcache]
    simp only [hlen, if_false, scrapeProcess, hproc]
    split <;> simp
  · intro hall
    have hfilt : (oc.crawl (normalizeUrl url) depth).pages.filter
        (fun p => ¬ pageDiscarded oc.clean p) = [] := by
      rw [List.filter_eq_nil]
      intro p hp
      simp [hall p hp]
    simp only [indexFromScraping, hdom, hcache]
    simp only [hlen, if_false, scrapeProcess, hproc, hfilt]
    simp
  · intro hne
    have hnall : ¬ (∀ a ∈ (oc.crawl (normalizeUrl url) depth).pages,
        pageDiscarded oc.clean a = true) := by
      intro hall
      apply hne
      rw [List.filter_eq_nil]
      intro p hp
      simp [hall p hp]
    simp only [indexFromScraping, hdom, hcache]
    simp only [hlen, if_false, scrapeProcess, hproc]
    simp [hnall]

set_option maxRecDepth 8000 in
/-- C7 witness: a concrete two-page crawl where the first page cleans to a
short body (discarded) and the second to a long one (kept): exactly the
long page is stored, indexed, counted and in the tree; plus a run where
both pages are short, failing with no-content and storing nothing. -/
theorem indexFromScraping_discards_short_pages_witness :
    (indexFromScraping
      ⟨fun _ _ => ⟨"https://site.example",
          [⟨"https://site.example/a", "https://site.example/a", "a.md", "short", 200, "text/html", 0, []⟩,
           ⟨"https://site.example/b", "https://site.example/b", "b.md", "long", 200, "text/html", 1, []⟩],
          [], [], ⟨2, 2, 0, 0, 1⟩⟩,
       fun html _ => if html = "long" then ⟨⟨List.replicate 120 'x'⟩, none⟩ else ⟨"tiny", none⟩,
       none⟩
      "https://site.example" none false).2.stored =
      [("b.md", ⟨List.replicate 120 'x'⟩)] ∧
    (indexFromScraping
      ⟨fun _ _ => ⟨"https://site.example",
          [⟨"https://site.example/a", "https://site.example/a", "a.md", "short", 200, "text/html", 0, []⟩],
          [], [], ⟨1, 1, 0, 0, 0⟩⟩,
       fun _ _ => ⟨"tiny", none⟩,
       none⟩
      "https://site.example" none false) =
      (.error (.noContent (normalizeUrl "https://site.example")), ⟨[], [], false, none⟩) := by
  constructor
  · have h := (indexFromScraping_discards_short_pages
      ⟨fun _ _ => ⟨"https://site.example",
          [⟨"https://site.example/a", "https://site.example/a", "a.md", "short", 200, "text/html", 0, []⟩,
           ⟨"https://site.example/b", "https://site.example/b", "b.md", "long", 200, "text/html", 1, []⟩],
          [], [], ⟨2, 2, 0, 0, 1⟩⟩,
       fun html _ => if html = "long" then ⟨⟨List.replicate 120 'x'⟩, none⟩ else ⟨"tiny", none⟩,
       none⟩
      "https://site.example" none false "site_example" (by rfl) (by rfl)
      (by decide)).1
    rw [h]
    rfl
  · exact (indexFromScraping_discards_short_pages
      ⟨fun _ _ => ⟨"https://site.example",
          [⟨"https://site.example/a", "https://site.example/a", "a.md", "short", 200, "text/html", 0, []⟩],
          [], [], ⟨1, 1, 0, 0, 0⟩⟩,
       fun _ _ => ⟨"tiny", none⟩,
       none⟩
      "https://site.example" none false "site_example" (by rfl) (by rfl)
      (by decide)).2.2.1 (by decide)

/-! ### Hierarchical-tree invariants (C2) -/

theorem filePass_eq_foldl (its : List GitHubTreeItem) :
    filePass its = its.foldl filePassStep [] := rfl

theorem addFolders_eq_foldl (m : NodeMap) (fps : List String) :
    addFolders m fps = fps.foldl addFoldersStep m := rfl

theorem folderPaths_eq_foldl (blobs : List GitHubTreeItem)
    (basePath : String) :
    folderPaths blobs basePath =
      blobs.foldl (folderPathsStep basePath) [] := rfl

theorem mapHas_iff (m : NodeMap) (k : String) :
    mapHas m k = true ↔ ∃ v, (k, v) ∈ m := by
  simp only [mapHas, List.any_eq_true, decide_eq_true_eq]
  constructor
  · rintro ⟨⟨p, v⟩, he, hk⟩
    subst hk
    exact ⟨v, he⟩
  · rintro ⟨v, hv⟩
    exact ⟨(k, v), hv, rfl⟩

theorem mapSet_mem {m : NodeMap} {k : String} {v : EntryKind}
    {x : String × EntryKind} (hx : x ∈ mapSet m k v) :
    x = (k, v) ∨ x ∈ m := by
  unfold mapSet at hx
  split at hx
  · obtain ⟨e, he, hee⟩ := List.mem_map.mp hx
    by_cases hek : e.1 = k
    · rw [if_pos hek] at hee
      exact Or.inl hee.symm
    · rw [if_neg hek] at hee
      exact Or.inr (hee ▸ he)
  · rcases List.mem_append.mp hx with h1 | h2
    · exact Or.inr h1
    · exact Or.inl (by simpa using h2)

theorem mapHas_mapSet_of (m : NodeMap) (k k2 : String) (v : EntryKind)
    (h : mapHas m k = true) : mapHas (mapSet m k2 v) k = true := by
  simp only [mapHas, List.any_eq_true, decide_eq_true_eq] at h ⊢
  obtain ⟨e, he, hek⟩ := h
  unfold mapSet
  split
  · refine ⟨if e.1 = k2 then (k2, v) else e, List.mem_map.mpr ⟨e, he, rfl⟩, ?_⟩
    by_cases hek2 : e.1 = k2
    · rw [if_pos hek2]
      exact hek2.symm.trans hek
    · rw [if_neg hek2]
      exact hek
  · exact ⟨e, List.mem_append_left _ he, hek⟩

theorem mapHas_mapSet_self (m : NodeMap) (k : String) (v : EntryKind) :
    mapHas (mapSet m k v) k = true := by
  by_cases h : mapHas m k = true
  · exact mapHas_mapSet_of m k k v h
  · unfold mapSet
    rw [if_neg h]
    simp [mapHas]

theorem addFolders_has_mono (fps : List String) :
    ∀ m k, mapHas m k = true →
      mapHas (fps.foldl addFoldersStep m) k = true := by
  induction fps with
  | nil => exact fun m k h => h
  | cons fp rest ih =>
    intro m k h
    simp only [List.foldl_cons]
    apply ih
    unfold addFoldersStep
    split
    · exact h
    · exact mapHas_mapSet_of m k fp .folderE h

theorem addFolders_has (fps : List String) :
    ∀ m k, k ∈ fps → mapHas (fps.foldl addFoldersStep m) k = true := by
  induction fps with
  | nil => intro m k h; cases h
  | cons fp rest ih =>
    intro m k h
    simp only [List.foldl_cons]
    rcases List.mem_cons.mp h with rfl | hr
    · apply addFolders_has_mono
      unfold addFoldersStep
      split
      · rename_i hhas
        exact hhas
      · exact mapHas_mapSet_self m k .folderE
    · exact ih _ _ hr

theorem filePass_has_mono (its : List GitHubTreeItem) :
    ∀ m k, mapHas m k = true →
      mapHas (its.foldl filePassStep m) k = true := by
  induction its with
  | nil => exact fun m k h => h
  | cons it rest ih =>
    intro m k h
    simp only [List.foldl_cons]
    apply ih
    unfold filePassStep
    split
    · exact mapHas_mapSet_of m k it.path _ h
    · exact h

theorem filePass_has_blob (its : List GitHubTreeItem) :
    ∀ m it, it ∈ its → it.type = GitItemType.blob →
      mapHas (its.foldl filePassStep m) it.path = true := by
  induction its with
  | nil => intro m it h; cases h
  | cons it0 rest ih =>
    intro m it h hb
    simp only [List.foldl_cons]
    rcases List.mem_cons.mp h with rfl | hr
    · apply filePass_has_mono
      unfold filePassStep
      rw [hb]
      exact mapHas_mapSet_self m it.path (.fileE it.size)
    · exact ih _ _ hr hb

theorem filePass_fileE (exts : List String) (its : List GitHubTreeItem) :
    ∀ m, (∀ p sz, (p, EntryKind.fileE sz) ∈ m →
        shouldIncludeFile p exts = true) →
      (∀ it ∈ its, it.type = GitItemType.blob →
        shouldIncludeFile it.path exts = true) →
      ∀ p sz, (p, EntryKind.fileE sz) ∈ its.foldl filePassStep m →
        shouldIncludeFile p exts = true := by
  induction its with
  | nil => intro m hm _ p sz hmem; exact hm p sz hmem
  | cons it rest ih =>
    intro m hm hits p sz hmem
    simp only [List.foldl_cons] at hmem
    refine ih _ ?_ (fun it2 h2 => hits it2 (List.mem_cons_of_mem _ h2)) p sz
      hmem
    intro p2 sz2 hmem2
    unfold filePassStep at hmem2
    split at hmem2
    · rename_i hb
      rcases mapSet_mem hmem2 with heq | hin
      · have hp : p2 = it.path := congrArg Prod.fst heq
        subst hp
        exact hits it (List.mem_cons_self _ _) hb
      · exact hm p2 sz2 hin
    · exact hm p2 sz2 hmem2

theorem addFolders_fileE (fps : List String) :
    ∀ m p sz, (p, EntryKind.fileE sz) ∈ fps.foldl addFoldersStep m →
      (p, EntryKind.fileE sz) ∈ m := by
  induction fps with
  | nil => exact fun m p sz h => h
  | cons fp rest ih =>
    intro m p sz h
    simp only [List.foldl_cons] at h
    have h2 := ih _ p sz h
    unfold addFoldersStep at h2
    split at h2
    · exact h2
    · rcases mapSet_mem h2 with heq | hin
      · exact absurd (congrArg Prod.snd heq) (by simp)
      · exact hin

theorem addFolders_folderE (fps : List String) :
    ∀ m q, (q, EntryKind.folderE) ∈ fps.foldl addFoldersStep m →
      (q, EntryKind.folderE) ∈ m ∨ q ∈ fps := by
  induction fps with
  | nil => exact fun m q h => Or.inl h
  | cons fp rest ih =>
    intro m q h
    simp only [List.foldl_cons] at h
    rcases ih _ q h with hin | hr
    · unfold addFoldersStep at hin
      split at hin
      · exact Or.inl hin
      · rcases mapSet_mem hin with heq | hin2
        · refine Or.inr ?_
          have hq : q = fp := congrArg Prod.fst heq
          rw [hq]
          exact List.mem_cons_self _ _
        · exact Or.inl hin2
    · exact Or.inr (List.mem_cons_of_mem _ hr)

theorem filePass_no_folderE (its : List GitHubTreeItem) :
    ∀ m q, (q, EntryKind.folderE) ∈ its.foldl filePassStep m →
      (q, EntryKind.folderE) ∈ m := by
  induction its with
  | nil => exact fun m q h => h
  | cons it rest ih =>
    intro m q h
    simp only [List.foldl_cons] at h
    have h2 := ih _ q h
    unfold filePassStep at h2
    split at h2
    · rcases mapSet_mem h2 with heq | hin
      · exact absurd (congrArg Prod.snd heq) (by simp)
      · exact hin
    · exact h2

theorem subset_addUnique (l : List String) (x : String) :
    l ⊆ addUnique l x := by
  unfold addUnique
  split
  · exact fun a h => h
  · exact fun a h => List.mem_append_left _ h

theorem mem_addUnique_self (l : List String) (x : String) :
    x ∈ addUnique l x := by
  unfold addUnique
  split
  · rename_i h
    simpa using h
  · exact List.mem_append_right _ (List.mem_singleton.mpr rfl)

theorem mem_addUnique (l : List String) (x q : String)
    (h : q ∈ addUnique l x) : q ∈ l ∨ q = x := by
  unfold addUnique at h
  split at h
  · exact Or.inl h
  · rcases List.mem_append.mp h with h1 | h2
    · exact Or.inl h1
    · exact Or.inr (List.mem_singleton.mp h2)

theorem walkAncestors_inv (basePath : String)
    (blobs : List GitHubTreeItem) :
    ∀ fuel p acc, ancestorInv basePath blobs acc →
      (∃ c : String, getParentPath c = p ∧
        ((∃ it ∈ blobs, it.type = GitItemType.blob ∧ it.path = c) ∨
          c ∈ acc)) →
      ancestorInv basePath blobs (walkAncestors basePath fuel acc p) := by
  intro fuel
  induction fuel with
  | zero =>
    intro p acc hInv _
    simpa [walkAncestors] using hInv
  | succ n ih =>
    intro p acc hInv hc
    rw [walkAncestors]
    split
    · rename_i hg1
      split
      · exact hInv
      · rename_i hg2
        apply ih
        · intro q hq
          rcases mem_addUnique _ _ _ hq with hql | hqx
          · obtain ⟨h1, h2, c, hcp, hcw⟩ := hInv q hql
            refine ⟨h1, h2, c, hcp, ?_⟩
            rcases hcw with hl | hr
            · exact Or.inl hl
            · exact Or.inr (subset_addUnique _ _ hr)
          · subst hqx
            refine ⟨hg1.1, hg2, ?_⟩
            obtain ⟨c, hcp, hcw⟩ := hc
            refine ⟨c, hcp, ?_⟩
            rcases hcw with hl | hr
            · exact Or.inl hl
            · exact Or.inr (subset_addUnique _ _ hr)
        · exact ⟨p, rfl, Or.inr (mem_addUnique_self _ _)⟩
    · exact hInv

theorem folderPaths_inv (basePath : String)
    (blobs : List GitHubTreeItem) (its : List GitHubTreeItem) :
    ∀ acc, (∀ it ∈ its, it ∈ blobs) →
      ancestorInv basePath blobs acc →
      ancestorInv basePath blobs
        (its.foldl (folderPathsStep basePath) acc) := by
  induction its with
  | nil => intro acc _ h; exact h
  | cons it rest ih =>
    intro acc hsub hInv
    simp only [List.foldl_cons]
    apply ih _ (fun x hx => hsub x (List.mem_cons_of_mem _ hx))
    unfold folderPathsStep
    split
    · rename_i hb
      apply walkAncestors_inv _ _ _ _ _ hInv
      exact ⟨it.path, rfl,
        Or.inl ⟨it, hsub it (List.mem_cons_self _ _), hb, rfl⟩⟩
    · exact hInv

theorem folderPaths_spec (filtered : List GitHubTreeItem)
    (basePath : String) :
    ancestorInv basePath filtered (folderPaths filtered basePath) := by
  rw [folderPaths_eq_foldl]
  exact folderPaths_inv basePath filtered filtered [] (fun it h => h)
    (fun q hq => absurd hq (List.not_mem_nil q))

theorem getParentPath_length_lt (p : String) (hp : p ≠ "") :
    (getParentPath p).length < p.length := by
  have hl : p.toList ≠ [] := by
    intro h
    apply hp
    cases p with
    | mk l =>
      simp only [String.toList, String.data] at h
      rw [h]
  have hlen : p.length = p.toList.length := rfl
  rw [getParentPath, string_mk_length, hlen]
  unfold getParentPathL
  split
  · rename_i c rest heq
    have h1 : (c :: rest).length ≤ p.toList.reverse.length := by
      rw [← heq]
      exact (List.dropWhile_sublist _).length_le
    simp only [List.length_cons, List.length_reverse] at h1
    simp only [List.length_reverse]
    omega
  · simpa using List.length_pos.mpr hl

theorem le_foldr_max (l : List Nat) : ∀ x ∈ l, x ≤ l.foldr max 0 := by
  induction l with
  | nil => intro x hx; cases hx
  | cons a t ih =>
    intro x hx
    simp only [List.foldr_cons]
    rcases List.mem_cons.mp hx with rfl | hr
    · exact Nat.le_max_left _ _
    · exact le_trans (ih x hr) (Nat.le_max_right _ _)

theorem nodeMap_folderE_mem (items : List GitHubTreeItem)
    (basePath : String) (exts : List String) (maxD : Int) (q : String)
    (hq : (q, EntryKind.folderE) ∈ nodeMapOf items basePath exts maxD) :
    q ∈ folderPaths (filteredItems items basePath exts maxD) basePath := by
  simp only [nodeMapOf] at hq
  rw [addFolders_eq_foldl] at hq
  rcases addFolders_folderE _ _ _ hq with hin | hfp
  · exfalso
    rw [filePass_eq_foldl] at hin
    exact absurd (filePass_no_folderE _ _ _ hin) (List.not_mem_nil _)
  · exact hfp

theorem nodeMap_fileE_ok (items : List GitHubTreeItem) (basePath : String)
    (exts : List String) (maxD : Int) :
    ∀ p sz, (p, EntryKind.fileE sz) ∈ nodeMapOf items basePath exts maxD →
      shouldIncludeFile p exts = true := by
  intro p sz h
  simp only [nodeMapOf] at h
  rw [addFolders_eq_foldl] at h
  have h2 := addFolders_fileE _ _ p sz h
  rw [filePass_eq_foldl] at h2
  refine filePass_fileE exts _ []
    (fun p2 sz2 h0 => absurd h0 (List.not_mem_nil _)) ?_ p sz h2
  intro it hit hb
  have hpass := (List.mem_filter.mp hit).2
  simp only [itemPasses, Bool.and_eq_true] at hpass
  obtain ⟨-, hc⟩ := hpass
  rw [hb] at hc
  exact hc

theorem childEntries_ne_nil (items : List GitHubTreeItem)
    (basePath : String) (exts : List String) (maxD : Int) (q : String)
    (hq : (q, EntryKind.folderE) ∈ nodeMapOf items basePath exts maxD) :
    childEntries (nodeMapOf items basePath exts maxD) basePath q ≠ [] := by
  have hq2 := nodeMap_folderE_mem items basePath exts maxD q hq
  obtain ⟨hqne, hqsz, c, hcp, hcw⟩ :=
    folderPaths_spec (filteredItems items basePath exts maxD) basePath q hq2
  have hch : mapHas (nodeMapOf items basePath exts maxD) c = true := by
    simp only [nodeMapOf]
    rw [addFolders_eq_foldl]
    rcases hcw with ⟨it, hit, htype, hpath⟩ | hcf
    · apply addFolders_has_mono
      rw [filePass_eq_foldl]
      rw [← hpath]
      exact filePass_has_blob _ _ _ hit htype
    · exact addFolders_has _ _ _ hcf
  obtain ⟨v, hv⟩ := (mapHas_iff _ _).mp hch
  apply List.ne_nil_of_mem (a := (c, v))
  refine List.mem_filter.mpr ⟨hv, ?_⟩
  have hskip : thirdPassSkip basePath c = false := by
    simp only [thirdPassSkip, hcp, Bool.or_eq_false_iff,
      Bool.and_eq_false_iff, decide_eq_false_iff_not]
    refine ⟨hqne, ?_⟩
    by_cases hb : basePath = ""
    · exact Or.inl (by simp [hb])
    · exact Or.inr (by simpa using fun hlt => hqsz ⟨hb, hlt⟩)
  simp [hskip, hcp]

theorem toNat_ofNat_valid (n : Nat) (h : n.isValidChar) :
    (Char.ofNat n).toNat = n := by
  rw [Char.ofNat, dif_pos h]
  simp [Char.ofNatAux, Char.toNat, UInt32.toNat]

theorem toLower_eq_slash_iff (c : Char) : (c.toLower = '/') ↔ c = '/' := by
  unfold Char.toLower
  by_cases h : c.toNat ≥ 65 ∧ c.toNat ≤ 90
  · rw [if_pos h]
    constructor
    · intro he
      exfalso
      have hv : (Char.ofNat (c.toNat + 32)).toNat = ('/').toNat := by
        rw [he]
      rw [toNat_ofNat_valid] at hv
      · have h47 : ('/').toNat = 47 := by decide
        omega
      · exact Or.inl (by omega)
    · intro he
      subst he
      exfalso
      have h47 : ('/').toNat = 47 := by decide
      omega
  · rw [if_neg h]

theorem prefix_takeWhile_of_all {P : Char → Bool} :
    ∀ (pre l : List Char), pre <+: l → (∀ c ∈ pre, P c = true) →
      pre <+: l.takeWhile P := by
  intro pre
  induction pre with
  | nil => intro l _ _; exact List.nil_prefix
  | cons a t ih =>
    intro l hpre hall
    obtain ⟨rest, hrest⟩ := hpre
    subst hrest
    have ha := hall a (List.mem_cons_self _ _)
    simp only [List.cons_append, List.takeWhile_cons, ha, if_true]
    rw [List.prefix_cons_inj]
    exact ih (t ++ rest) (List.prefix_append t rest)
      (fun c hc => hall c (List.mem_cons_of_mem _ hc))

theorem takeWhile_ne_slash_map_toLower (l : List Char) :
    (l.map Char.toLower).takeWhile (fun c => c ≠ '/') =
      (l.takeWhile (fun c => c ≠ '/')).map Char.toLower := by
  rw [List.takeWhile_map]
  have hpr : ((fun c : Char => decide (c ≠ '/')) ∘ Char.toLower) =
      (fun c : Char => decide (c ≠ '/')) := by
    funext c
    simp [Function.comp, decide_eq_decide, toLower_eq_slash_iff]
  rw [hpr]

theorem jsEndsWith_name_of_path (p ext : String)
    (hslash : ('/' : Char) ∉ ext.toList)
    (h : jsEndsWith (jsToLower p) (jsToLower ext) = true) :
    jsEndsWith (jsToLower (getNameFromPath p)) (jsToLower ext) = true := by
  rw [jsEndsWith, List.isSuffixOf_iff_suffix] at h ⊢
  have hN : (jsToLower (getNameFromPath p)).toList =
      (((p.toList.map Char.toLower).reverse.takeWhile
        (fun c => c ≠ '/')).reverse) := by
    show ((p.toList.reverse.takeWhile (fun c => c ≠ '/')).reverse).map
        Char.toLower = _
    rw [← List.map_reverse, takeWhile_ne_slash_map_toLower,
      List.map_reverse]
  rw [hN]
  have h2 : (jsToLower ext).toList.reverse <+:
      (p.toList.map Char.toLower).reverse := List.reverse_prefix.mpr h
  rw [← List.reverse_prefix, List.reverse_reverse]
  refine prefix_takeWhile_of_all _ _ h2 ?_
  intro c hc
  rw [List.mem_reverse] at hc
  obtain ⟨c0, hc0, hcc⟩ := List.mem_map.mp hc
  subst hcc
  simp only [decide_eq_true_eq, ne_eq, toLower_eq_slash_iff]
  intro hc0s
  exact hslash (hc0s ▸ hc0)

theorem shouldIncludeFile_name (p : String) (exts : List String)
    (hne : exts ≠ [])
    (hslash : ∀ e ∈ exts, ('/' : Char) ∉ e.toList)
    (h : shouldIncludeFile p exts = true) :
    exts.any (fun ext =>
      jsEndsWith (jsToLower (getNameFromPath p)) (jsToLower ext)) = true := by
  rw [shouldIncludeFile, if_neg (by simpa [List.length_eq_zero] using hne)]
    at h
  rcases List.any_eq_true.mp h with ⟨ext, hmem, hends⟩
  exact List.any_eq_true.mpr
    ⟨ext, hmem, jsEndsWith_name_of_path p ext (hslash ext hmem) hends⟩

theorem allNodesList_eq_all (pred : DocsTreeNode → Bool) :
    ∀ l, allNodesList pred l = l.all (allNodes pred)
  | [] => rfl
  | c :: cs => by
    rw [allNodesList, allNodesList_eq_all pred cs, List.all_cons]

theorem materialize_fileExt (items : List GitHubTreeItem)
    (basePath : String) (exts : List String) (maxD : Int)
    (hne : exts ≠ [])
    (hslash : ∀ e ∈ exts, ('/' : Char) ∉ e.toList) :
    ∀ fuel p k, (p, k) ∈ nodeMapOf items basePath exts maxD →
      allNodes (fileExtOK exts)
        (materialize (nodeMapOf items basePath exts maxD) basePath fuel
          (p, k)) = true := by
  intro fuel
  induction fuel with
  | zero =>
    intro p k hm
    cases k with
    | fileE sz =>
      simp only [materialize, allNodes, fileExtOK]
      exact shouldIncludeFile_name p exts hne hslash
        (nodeMap_fileE_ok items basePath exts maxD p sz hm)
    | folderE =>
      simp [materialize, allNodes, allNodesList, fileExtOK]
  | succ n ih =>
    intro p k hm
    cases k with
    | fileE sz =>
      simp only [materialize, allNodes, fileExtOK]
      exact shouldIncludeFile_name p exts hne hslash
        (nodeMap_fileE_ok items basePath exts maxD p sz hm)
    | folderE =>
      simp only [materialize, allNodes, fileExtOK, Bool.true_and]
      rw [allNodesList_eq_all, List.all_eq_true]
      intro x hx
      obtain ⟨⟨p2, k2⟩, he, hxe⟩ := List.mem_map.mp hx
      rw [← hxe]
      exact ih p2 k2 (List.mem_filter.mp he).1

theorem materialize_folderNE (items : List GitHubTreeItem)
    (basePath : String) (exts : List String) (maxD : Int) :
    ∀ fuel p k, (p, k) ∈ nodeMapOf items basePath exts maxD →
      ((nodeMapOf items basePath exts maxD).map
          (fun e => e.1.length)).foldr max 0 < fuel + p.length →
      allNodes folderNonempty
        (materialize (nodeMapOf items basePath exts maxD) basePath fuel
          (p, k)) = true := by
  intro fuel
  induction fuel with
  | zero =>
    intro p k hm hb
    cases k with
    | fileE sz => simp [materialize, allNodes, folderNonempty]
    | folderE =>
      exfalso
      have hmm : p.length ∈ (nodeMapOf items basePath exts maxD).map
          (fun e => e.1.length) :=
        List.mem_map.mpr ⟨(p, EntryKind.folderE), hm, rfl⟩
      have hle := le_foldr_max _ p.length hmm
      omega
  | succ n ih =>
    intro p k hm hb
    cases k with
    | fileE sz => simp [materialize, allNodes, folderNonempty]
    | folderE =>
      simp only [materialize, allNodes, Bool.and_eq_true]
      constructor
      · have hne2 := childEntries_ne_nil items basePath exts maxD p hm
        simp only [folderNonempty, Bool.not_eq_true', List.isEmpty_eq_false,
          ne_eq, List.map_eq_nil]
        simpa using hne2
      · rw [allNodesList_eq_all, List.all_eq_true]
        intro x hx
        obtain ⟨⟨p2, k2⟩, he, hxe⟩ := List.mem_map.mp hx
        have hmem2 : (p2, k2) ∈ nodeMapOf items basePath exts maxD :=
          (List.mem_filter.mp he).1
        have hpred := (List.mem_filter.mp he).2
        simp only [Bool.and_eq_true, Bool.not_eq_true', decide_eq_true_eq]
          at hpred
        obtain ⟨hskip, hpp⟩ := hpred
        have hp2ne : p2 ≠ "" := by
          intro h0
          rw [h0] at hskip
          simp [thirdPassSkip] at hskip
          exact hskip.1 (by decide)
        have hlt := getParentPath_length_lt p2 hp2ne
        rw [hpp] at hlt
        rw [← hxe]
        exact ih p2 k2 hmem2 (by omega)

theorem allNodesList_insertLe (pred : DocsTreeNode → Bool)
    (le : DocsTreeNode → DocsTreeNode → Bool) (x : DocsTreeNode) :
    ∀ l, allNodesList pred (insertLe le x l) =
      (allNodes pred x && allNodesList pred l)
  | [] => by simp [insertLe, allNodesList]
  | y :: t => by
    rw [insertLe]
    split
    · rfl
    · rw [allNodesList, allNodesList_insertLe pred le x t, allNodesList,
        Bool.and_left_comm]

theorem allNodesList_sortByLe (pred : DocsTreeNode → Bool)
    (le : DocsTreeNode → DocsTreeNode → Bool) :
    ∀ l, allNodesList pred (sortByLe le l) = allNodesList pred l
  | [] => rfl
  | x :: t => by
    rw [sortByLe, allNodesList_insertLe, allNodesList_sortByLe pred le t,
      allNodesList]

theorem length_insertLe {α : Type} (le : α → α → Bool) (x : α) :
    ∀ l : List α, (insertLe le x l).length = l.length + 1
  | [] => rfl
  | y :: t => by
    rw [insertLe]
    split
    · rfl
    · simp [length_insertLe le x t]

theorem length_sortByLe {α : Type} (le : α → α → Bool) :
    ∀ l : List α, (sortByLe le l).length = l.length
  | [] => rfl
  | x :: t => by
    rw [sortByLe, length_insertLe, length_sortByLe le t, List.length_cons]

theorem sortTreeList_eq_map :
    ∀ l, sortTreeList l = l.map sortTree
  | [] => rfl
  | c :: cs => by
    rw [sortTreeList, List.map_cons, sortTreeList_eq_map cs]

theorem isEmpty_eq_of_length_eq {α : Type} :
    ∀ (l1 l2 : List α), l1.length = l2.length →
      l1.isEmpty = l2.isEmpty := by
  intro l1 l2 h
  cases l1 <;> cases l2 <;> simp_all

mutual

theorem allNodes_sortTree (pred : DocsTreeNode → Bool)
    (hp : ∀ n p ch,
      pred (DocsTreeNode.folder n p (sortByLe nodeLe (sortTreeList ch))) =
        pred (DocsTreeNode.folder n p ch)) :
    ∀ t, allNodes pred (sortTree t) = allNodes pred t
  | .file n p s => rfl
  | .folder n p ch => by
    rw [sortTree, allNodes, allNodes, hp, allNodesList_sortByLe,
      allNodesList_sortTreeP pred hp ch]

theorem allNodesList_sortTreeP (pred : DocsTreeNode → Bool)
    (hp : ∀ n p ch,
      pred (DocsTreeNode.folder n p (sortByLe nodeLe (sortTreeList ch))) =
        pred (DocsTreeNode.folder n p ch)) :
    ∀ l, allNodesList pred (sortTreeList l) = allNodesList pred l
  | [] => rfl
  | c :: cs => by
    rw [sortTreeList, allNodesList, allNodes_sortTree pred hp c,
      allNodesList_sortTreeP pred hp cs, allNodesList]

end

theorem allNodesList_sortForest (pred : DocsTreeNode → Bool)
    (hp : ∀ n p ch,
      pred (DocsTreeNode.folder n p (sortByLe nodeLe (sortTreeList ch))) =
        pred (DocsTreeNode.folder n p ch)) (l : List DocsTreeNode) :
    allNodesList pred (sortForest l) = allNodesList pred l := by
  rw [sortForest, allNodesList_sortByLe, ← sortTreeList_eq_map,
    allNodesList_sortTreeP pred hp]

/-- C2 counterexample: the claimed leaf-extension invariant fails as
stated for *all* extension filters.  With an empty extension filter the
file `a.txt` survives although its name matches none of the configured
extensions (there are none), and with the filter `["b/c.md"]` the file
`ab/c.md` survives (the code matches extensions against the full path)
although its *name* `c.md` does not end with the configured extension. -/
theorem buildHierarchicalTree_ext_counterexample :
    (buildHierarchicalTree [⟨"a.txt", GitItemType.blob, some 3⟩] "" []
        10).1 =
      [DocsTreeNode.file "a.txt" "a.txt" (some 3)] ∧
    fileExtOK [] (DocsTreeNode.file "a.txt" "a.txt" (some 3)) = false ∧
    (buildHierarchicalTree [⟨"ab/c.md", GitItemType.blob, some 3⟩] ""
        ["b/c.md"] 10).1 =
      [DocsTreeNode.folder "ab" "ab"
        [DocsTreeNode.file "c.md" "ab/c.md" (some 3)]] ∧
    fileExtOK ["b/c.md"]
      (DocsTreeNode.file "c.md" "ab/c.md" (some 3)) = false :=
  ⟨rfl, rfl, rfl, rfl⟩

/-- C2 (amended): for every flat listing, base path, maxDepth, and
*nonempty, slash-free* extension filter, every file leaf of the tree
built by `buildHierarchicalTree` (the tree `fetchRepoTree` returns) has a
name ending case-insensitively in one of the configured extensions; and —
unconditionally in the filter — every folder node of the tree has at
least one child, folders being synthesized only for ancestor directories
of surviving files. -/
theorem buildHierarchicalTree_invariants (items : List GitHubTreeItem)
    (basePath : String) (extensions : List String) (maxDepth : Int) :
    (extensions ≠ [] →
      (∀ e ∈ extensions, ('/' : Char) ∉ e.toList) →
      allNodesList (fileExtOK extensions)
          (buildHierarchicalTree items basePath extensions maxDepth).1 =
        true) ∧
    allNodesList folderNonempty
        (buildHierarchicalTree items basePath extensions maxDepth).1 =
      true := by
  have hfst : (buildHierarchicalTree items basePath extensions maxDepth).1 =
      sortForest
        (((nodeMapOf items basePath extensions maxDepth).filter
            (fun e => isRootEntry basePath e.1)).map
          (materialize (nodeMapOf items basePath extensions maxDepth)
            basePath
            (((nodeMapOf items basePath extensions maxDepth).map
                (fun e => e.1.length)).foldr max 0 + 1))) := rfl
  constructor
  · intro hne hslash
    rw [hfst,
      allNodesList_sortForest (fileExtOK extensions) (fun n p ch => rfl),
      allNodesList_eq_all, List.all_eq_true]
    intro x hx
    obtain ⟨⟨p, k⟩, he, hxe⟩ := List.mem_map.mp hx
    rw [← hxe]
    exact materialize_fileExt items basePath extensions maxDepth hne
      hslash _ p k (List.mem_filter.mp he).1
  · rw [hfst, allNodesList_sortForest folderNonempty ?hpred,
      allNodesList_eq_all, List.all_eq_true]
    case hpred =>
      intro n p ch
      simp only [folderNonempty]
      have hl : (sortByLe nodeLe (sortTreeList ch)).length = ch.length := by
        rw [length_sortByLe, sortTreeList_eq_map, List.length_map]
      rw [isEmpty_eq_of_length_eq _ _ hl]
    intro x hx
    obtain ⟨⟨p, k⟩, he, hxe⟩ := List.mem_map.mp hx
    rw [← hxe]
    exact materialize_folderNE items basePath extensions maxDepth _ p k
      (List.mem_filter.mp he).1 (by omega)

/-- Witness for the amended C2 theorem at a concrete listing with a
nested folder, a non-matching file and a bare folder item. -/
theorem buildHierarchicalTree_invariants_witness :
    allNodesList (fileExtOK [".md"])
        (buildHierarchicalTree
          [⟨"docs/guide/a.md", GitItemType.blob, some 5⟩,
           ⟨"docs", GitItemType.tree, none⟩,
           ⟨"docs/img.png", GitItemType.blob, some 9⟩] "" [".md"] 10).1 =
      true ∧
    allNodesList folderNonempty
        (buildHierarchicalTree
          [⟨"docs/guide/a.md", GitItemType.blob, some 5⟩,
           ⟨"docs", GitItemType.tree, none⟩,
           ⟨"docs/img.png", GitItemType.blob, some 9⟩] "" [".md"] 10).1 =
      true :=
  ⟨(buildHierarchicalTree_invariants
      [⟨"docs/guide/a.md", GitItemType.blob, some 5⟩,
       ⟨"docs", GitItemType.tree, none⟩,
       ⟨"docs/img.png", GitItemType.blob, some 9⟩] "" [".md"] 10).1
    (by decide) (by decide),
   (buildHierarchicalTree_invariants
      [⟨"docs/guide/a.md", GitItemType.blob, some 5⟩,
       ⟨"docs", GitItemType.tree, none⟩,
       ⟨"docs/img.png", GitItemType.blob, some 9⟩] "" [".md"] 10).2⟩

/-! ### Crawl bounds (C3): URL-parser shape lemmas -/

theorem char_le_iff (a b : Char) : a ≤ b ↔ a.toNat ≤ b.toNat := by
  rw [Char.le_def, UInt32.le_def, BitVec.le_def]
  rfl

theorem char_eq_iff (a b : Char) : a = b ↔ a.toNat = b.toNat := by
  constructor
  · intro h; rw [h]
  · intro h
    apply Char.eq_of_val_eq
    apply UInt32.toNat.inj h

theorem isDigit_toNat (c : Char) (h : c.isDigit = true) :
    48 ≤ c.toNat ∧ c.toNat ≤ 57 := by
  simp only [Char.isDigit, Bool.and_eq_true, decide_eq_true_eq, ge_iff_le]
    at h
  obtain ⟨h1, h2⟩ := h
  rw [UInt32.le_def, BitVec.le_def] at h1 h2
  exact ⟨h1, h2⟩

theorem toLower_toLower (c : Char) : c.toLower.toLower = c.toLower := by
  unfold Char.toLower
  by_cases h : c.toNat ≥ 65 ∧ c.toNat ≤ 90
  · rw [if_pos h]
    have hv : (Char.ofNat (c.toNat + 32)).toNat = c.toNat + 32 :=
      toNat_ofNat_valid _ (Or.inl (by omega))
    rw [if_neg (by omega)]
  · rw [if_neg h, if_neg h]

theorem hostChar_toNat (c : Char) (h : hostChar c = true) :
    (97 ≤ c.toNat ∧ c.toNat ≤ 122) ∨ (48 ≤ c.toNat ∧ c.toNat ≤ 57) ∨
      c.toNat = 46 ∨ c.toNat = 45 ∨ c.toNat = 95 := by
  simp only [hostChar, Bool.or_eq_true, decide_eq_true_eq] at h
  rcases h with (((⟨h1, h2⟩ | hd) | hdot) | hdash) | hus
  · rw [char_le_iff] at h1 h2
    exact Or.inl ⟨h1, h2⟩
  · exact Or.inr (Or.inl (isDigit_toNat c hd))
  · rw [char_eq_iff] at hdot
    exact Or.inr (Or.inr (Or.inl hdot))
  · rw [char_eq_iff] at hdash
    exact Or.inr (Or.inr (Or.inr (Or.inl hdash)))
  · rw [char_eq_iff] at hus
    exact Or.inr (Or.inr (Or.inr (Or.inr hus)))

theorem hostChar_no_stop (c : Char) (h : hostChar c = true) :
    c ≠ '/' ∧ c ≠ '?' ∧ c ≠ '#' := by
  have h2 := hostChar_toNat c h
  refine ⟨?_, ?_, ?_⟩ <;>
    (intro he; rw [char_eq_iff] at he; simp at he; omega)

theorem hostChar_not_ws (c : Char) (h : hostChar c = true) :
    ¬ c.toNat ≤ 0x20 := by
  have h2 := hostChar_toNat c h
  omega

theorem takeWhile_append_stop {P : Char → Bool} :
    ∀ (l1 : List Char) (c : Char) (l2 : List Char),
      (∀ x ∈ l1, P x = true) → P c = false →
      (l1 ++ c :: l2).takeWhile P = l1 := by
  intro l1
  induction l1 with
  | nil =>
    intro c l2 _ hc
    simp [List.takeWhile_cons, hc]
  | cons a t ih =>
    intro c l2 hall hc
    have ha := hall a (List.mem_cons_self _ _)
    simp only [List.cons_append, List.takeWhile_cons, ha, if_true]
    rw [ih c l2 (fun x hx => hall x (List.mem_cons_of_mem _ hx)) hc]

theorem dropWhile_append_stop {P : Char → Bool} :
    ∀ (l1 : List Char) (c : Char) (l2 : List Char),
      (∀ x ∈ l1, P x = true) → P c = false →
      (l1 ++ c :: l2).dropWhile P = c :: l2 := by
  intro l1
  induction l1 with
  | nil =>
    intro c l2 _ hc
    simp [List.dropWhile_cons, hc]
  | cons a t ih =>
    intro c l2 hall hc
    have ha := hall a (List.mem_cons_self _ _)
    simp only [List.cons_append, List.dropWhile_cons, ha, if_true]
    exact ih c l2 (fun x hx => hall x (List.mem_cons_of_mem _ hx)) hc

theorem span_append_stop {P : Char → Bool} (l1 : List Char) (c : Char)
    (l2 : List Char) (hall : ∀ x ∈ l1, P x = true) (hc : P c = false) :
    (l1 ++ c :: l2).span P = (l1, c :: l2) := by
  rw [List.span_eq_take_drop, takeWhile_append_stop l1 c l2 hall hc,
    dropWhile_append_stop l1 c l2 hall hc]

theorem encodePathL_cons (c : Char) (l : List Char) :
    encodePathL (c :: l) =
      (if pathEncChar c then percentHex c.toNat else [c]) ++
        encodePathL l := by
  simp [encodePathL]

/-- Everything `parseURLCore` accepts has an http(s) scheme, a nonempty
lower-case hostname over the host alphabet, a path that is the
percent-encoding of a slash-led, stop-free, dot-segment-free raw path of
ASCII characters, and a hash-free query. -/
theorem parseURLCore_shape (cs : List Char) (r : URLRec)
    (h : parseURLCore cs = some r) :
    (r.scheme = "http" ∨ r.scheme = "https") ∧
    (r.host.toList ≠ [] ∧ r.host.toList.all hostChar = true ∧
      r.host.toList.map Char.toLower = r.host.toList) ∧
    (∃ praw : List Char,
      r.path.toList = encodePathL praw ∧
      praw.head? = some '/' ∧
      (∀ c ∈ praw, ¬ (c = '?' ∨ c = '#')) ∧
      (splitCharL '/' praw).all (fun seg => ¬ isDotSeg seg) = true ∧
      (∀ c ∈ praw, c.toNat < 128)) ∧
    (∀ c ∈ r.query.toList, c ≠ '#' ∧ c.toNat < 128) := by
  simp only [parseURLCore] at h
  split at h
  case isFalse => exact absurd h (by simp)
  rename_i hC1
  have hprint : ∀ c ∈ cs, c.toNat < 128 := by
    intro c hc
    have hp := List.all_eq_true.mp hC1.1 c hc
    simp only [printableChar, decide_eq_true_eq] at hp
    have h2 := hp.2
    rw [char_le_iff] at h2
    have h126 : ('~').toNat = 126 := by decide
    omega
  split at h
  case h_2 => exact absurd h (by simp)
  rename_i r2 heq1
  split at h
  case isFalse => exact absurd h (by simp)
  rename_i hscheme
  split at h
  case isFalse => exact absurd h (by simp)
  rename_i hhost
  have hr2 : ∀ c ∈ r2, c.toNat < 128 := by
    intro c hc
    apply hprint
    have hmem : c ∈ cs.dropWhile isAsciiAlpha := by
      rw [List.span_eq_take_drop] at heq1
      rw [show (cs.takeWhile isAsciiAlpha, cs.dropWhile isAsciiAlpha).2 =
        cs.dropWhile isAsciiAlpha from rfl] at heq1
      rw [heq1]
      exact List.mem_cons_of_mem _ (List.mem_cons_of_mem _
        (List.mem_cons_of_mem _ hc))
    exact (List.dropWhile_sublist _).mem hmem
  have hs22 : ∀ c ∈ (r2.span
      (fun c => ¬ (c = '/' ∨ c = '?' ∨ c = '#'))).2, c.toNat < 128 := by
    intro c hc
    rw [List.span_eq_take_drop] at hc
    exact hr2 c ((List.dropWhile_sublist _).mem hc)
  have hschemeG : (String.mk ((cs.span isAsciiAlpha).1.map Char.toLower)
        = "http" ∨
      String.mk ((cs.span isAsciiAlpha).1.map Char.toLower) = "https") := by
    rcases hscheme with hl | hr3
    · exact Or.inl (by rw [hl]; rfl)
    · exact Or.inr (by rw [hr3]; rfl)
  have hlowerG : (((r2.span (fun c =>
        ¬ (c = '/' ∨ c = '?' ∨ c = '#'))).1.map Char.toLower).map
        Char.toLower) =
      ((r2.span (fun c =>
        ¬ (c = '/' ∨ c = '?' ∨ c = '#'))).1.map Char.toLower) := by
    rw [List.map_map]
    exact List.map_congr_left (fun a _ => toLower_toLower a)
  split at h
  case isFalse => exact absurd h (by simp)
  rename_i hdot
  split at h
  · rename_i r3 heq3
    rw [heq3] at hdot hs22
    simp only [] at hdot
    rw [List.span_eq_take_drop] at hdot
    split at h
    · rename_i q heq4
      obtain rfl := Option.some.inj h
      refine ⟨hschemeG, ⟨hhost.1, hhost.2, hlowerG⟩,
        ⟨('/' :: r3).takeWhile (fun c => ¬ (c = '?' ∨ c = '#')),
          ?_, ?_, ?_, hdot, ?_⟩, ?_⟩
      · show encodePathL (List.span _ ('/' :: r3)).1 = _
        rw [List.span_eq_take_drop]
      · simp [List.takeWhile_cons]
      · intro c hc
        have hcp := List.mem_takeWhile_imp hc
        simpa using hcp
      · intro c hc
        exact hs22 c ((List.takeWhile_sublist _).mem hc)
      · intro c hc
        refine ⟨?_, ?_⟩
        · have hcp := List.mem_takeWhile_imp (p := (· ≠ '#'))
            (by simpa [List.span_eq_take_drop] using hc)
          simpa using hcp
        · have hcq : c ∈ q := (List.takeWhile_sublist _).mem
            (by simpa [List.span_eq_take_drop] using hc)
          have hcs : c ∈ ('/' :: r3) := by
            have hc2 : c ∈ '?' :: q := List.mem_cons_of_mem _ hcq
            rw [← heq4] at hc2
            rw [List.span_eq_take_drop] at hc2
            exact (List.dropWhile_sublist _).mem hc2
          exact hs22 c hcs
    · obtain rfl := Option.some.inj h
      refine ⟨hschemeG, ⟨hhost.1, hhost.2, hlowerG⟩,
        ⟨('/' :: r3).takeWhile (fun c => ¬ (c = '?' ∨ c = '#')),
          ?_, ?_, ?_, hdot, ?_⟩, ?_⟩
      · show encodePathL (List.span _ ('/' :: r3)).1 = _
        rw [List.span_eq_take_drop]
      · simp [List.takeWhile_cons]
      · intro c hc
        have hcp := List.mem_takeWhile_imp hc
        simpa using hcp
      · intro c hc
        exact hs22 c ((List.takeWhile_sublist _).mem hc)
      · intro c hc
        exact absurd hc (by simp)
  · rename_i hx
    simp only [] at h hdot
    split at h
    · rename_i q heq4
      obtain rfl := Option.some.inj h
      refine ⟨hschemeG, ⟨hhost.1, hhost.2, hlowerG⟩,
        ⟨['/'], rfl, rfl, by decide, by decide, by decide⟩, ?_⟩
      intro c hc
      refine ⟨?_, ?_⟩
      · have hcp := List.mem_takeWhile_imp (p := (· ≠ '#'))
          (by simpa [List.span_eq_take_drop] using hc)
        simpa using hcp
      · have hcq : c ∈ q := (List.takeWhile_sublist _).mem
          (by simpa [List.span_eq_take_drop] using hc)
        have hc2 : c ∈ '?' :: q := List.mem_cons_of_mem _ hcq
        rw [← heq4] at hc2
        exact hs22 c hc2
    · obtain rfl := Option.some.inj h
      refine ⟨hschemeG, ⟨hhost.1, hhost.2, hlowerG⟩,
        ⟨['/'], rfl, rfl, by decide, by decide, by decide⟩, ?_⟩
      intro c hc
      exact absurd hc (by simp)

theorem dropWhile_cons_false {P : Char → Bool} (a : Char) (l : List Char)
    (ha : P a = false) : (a :: l).dropWhile P = a :: l := by
  simp [List.dropWhile_cons, ha]

theorem rtrim_append_keep {P : Char → Bool} (l1 : List Char) (c : Char)
    (l2 : List Char) (hc : P c = false) :
    ((l1 ++ c :: l2).reverse.dropWhile P).reverse =
      l1 ++ c :: (l2.reverse.dropWhile P).reverse := by
  rw [List.reverse_append, List.reverse_cons, List.append_assoc,
    List.dropWhile_append]
  split
  · rename_i hemp
    rw [List.singleton_append, dropWhile_cons_false c _ hc,
      List.reverse_cons, List.reverse_reverse,
      List.isEmpty_iff.mp hemp]
    simp
  · rw [List.singleton_append, List.reverse_append, List.reverse_cons,
      List.reverse_reverse]
    simp

/-- Reparsing the serialization of a well-formed URL record (one produced
by `parseURLCore`) preserves the hostname whenever the reparse succeeds. -/
theorem parse_serialize_host (r r3 : URLRec)
    (hs : r.scheme = "http" ∨ r.scheme = "https")
    (hh1 : r.host.toList ≠ []) (hh2 : r.host.toList.all hostChar = true)
    (hh3 : r.host.toList.map Char.toLower = r.host.toList)
    (hp : r.path.toList.head? = some '/')
    (h : parseURL (serializeURL r) = some r3) :
    r3.host = r.host := by
  obtain ⟨ptail, hpath⟩ : ∃ ptail, r.path.toList = '/' :: ptail := by
    cases hpl : r.path.toList with
    | nil => rw [hpl] at hp; cases hp
    | cons c t =>
      rw [hpl] at hp
      simp only [List.head?_cons, Option.some.injEq] at hp
      exact ⟨t, by rw [hp]⟩
  obtain ⟨stail, hsch⟩ : ∃ stail, r.scheme.toList = 'h' :: stail := by
    rcases hs with h1 | h1 <;> rw [h1] <;> exact ⟨_, rfl⟩
  have hserial : (serializeURL r).toList =
      'h' :: (stail ++ ':' :: '/' :: '/' ::
        (r.host.toList ++ '/' :: (ptail ++
          ((if r.query = "" then "" else "?" ++ r.query).toList ++
           (if r.hash = "" then "" else "#" ++ r.hash).toList)))) := by
    show (serializeURL r).data = _
    simp only [serializeURL, String.data_append]
    rw [show (r.scheme.data : List Char) = 'h' :: stail from hsch,
      show (r.path.data : List Char) = '/' :: ptail from hpath]
    simp [List.append_assoc, String.toList]
  simp only [parseURL] at h
  rw [hserial, dropWhile_cons_false _ _ (by decide)] at h
  rw [show ('h' :: (stail ++ ':' :: '/' :: '/' ::
      (r.host.toList ++ '/' :: (ptail ++
        ((if r.query = "" then "" else "?" ++ r.query).toList ++
         (if r.hash = "" then "" else "#" ++ r.hash).toList))))) =
      ('h' :: stail ++ ':' :: '/' :: '/' :: r.host.toList) ++ '/' ::
        (ptail ++
          ((if r.query = "" then "" else "?" ++ r.query).toList ++
           (if r.hash = "" then "" else "#" ++ r.hash).toList)) from by
    simp [List.append_assoc]] at h
  rw [rtrim_append_keep _ '/' _ (by decide)] at h
  rw [show (('h' :: stail ++ ':' :: '/' :: '/' :: r.host.toList) ++ '/' ::
      ((ptail ++
        ((if r.query = "" then "" else "?" ++ r.query).toList ++
         (if r.hash = "" then "" else "#" ++
           r.hash).toList)).reverse.dropWhile
             (fun c => c.toNat ≤ 0x20)).reverse) =
      ('h' :: stail) ++ ':' :: ('/' :: '/' ::
        (r.host.toList ++ '/' ::
          ((ptail ++
            ((if r.query = "" then "" else "?" ++ r.query).toList ++
             (if r.hash = "" then "" else "#" ++
               r.hash).toList)).reverse.dropWhile
                 (fun c => c.toNat ≤ 0x20)).reverse)) from by
    simp [List.append_assoc]] at h
  have hallS : ∀ x ∈ 'h' :: stail, isAsciiAlpha x = true := by
    have hS : 'h' :: stail = r.scheme.toList := hsch.symm
    rw [hS]
    rcases hs with h1 | h1 <;> rw [h1] <;> decide
  set SUF2 := (List.dropWhile (fun c => decide (c.toNat ≤ 32))
      (ptail ++
        ((if r.query = "" then "" else "?" ++ r.query).toList ++
         (if r.hash = "" then "" else "#" ++
           r.hash).toList)).reverse).reverse with hSUF2
  have hspan1 := span_append_stop ('h' :: stail) ':'
    ('/' :: '/' :: (r.host.toList ++ '/' :: SUF2)) hallS (by decide)
  simp only [parseURLCore] at h
  split at h
  case isFalse => exact absurd h (by simp)
  rw [hspan1] at h
  simp only [] at h
  split at h
  case isFalse =>
    rename_i hneg
    refine absurd ?_ hneg
    rcases hs with h1 | h1
    · exact Or.inl (by rw [show 'h' :: stail = r.scheme.toList from
        hsch.symm, h1]; decide)
    · exact Or.inr (by rw [show 'h' :: stail = r.scheme.toList from
        hsch.symm, h1]; decide)
  have hallH : ∀ x ∈ r.host.toList,
      (fun c => ¬ (c = '/' ∨ c = '?' ∨ c = '#') : Char → Bool) x = true := by
    intro x hx
    have h3 := hostChar_no_stop x (List.all_eq_true.mp hh2 x hx)
    simp [h3.1, h3.2.1, h3.2.2]
  have hspan2 := span_append_stop r.host.toList '/' SUF2 hallH (by decide)
  rw [hspan2] at h
  simp only [] at h
  split at h
  case isFalse =>
    rename_i hneg
    exact absurd ⟨by rw [hh3]; exact hh1, by rw [hh3]; exact hh2⟩ hneg
  split at h
  case isFalse => exact absurd h (by simp)
  obtain rfl := Option.some.inj h
  show String.mk (r.host.toList.map Char.toLower) = r.host
  rw [hh3]
  rfl

theorem encodePathL_head_slash (l : List Char) (h : l.head? = some '/') :
    (encodePathL l).head? = some '/' := by
  cases l with
  | nil => cases h
  | cons c t =>
    simp only [List.head?_cons, Option.some.injEq] at h
    subst h
    rw [encodePathL_cons, if_neg (by decide)]
    rfl

theorem stripTrailingSlashL_head (l : List Char) (h : l.head? = some '/') :
    (stripTrailingSlashL l).head? = some '/' := by
  unfold stripTrailingSlashL
  split
  · rename_i hcond
    cases l with
    | nil => cases h
    | cons a t =>
      cases t with
      | nil => simp at hcond
      | cons b t2 =>
        simp only [List.head?_cons, Option.some.injEq] at h
        subst h
        simp [List.dropLast]
  · exact h

theorem percentDecodeL_head_slash (l d : List Char) (hh : l.head? = some '/')
    (h : percentDecodeL l = some d) : d.head? = some '/' := by
  cases l with
  | nil => cases hh
  | cons c t =>
    simp only [List.head?_cons, Option.some.injEq] at hh
    subst hh
    have hstep : percentDecodeL ('/' :: t) =
        (percentDecodeL t).map (fun x => '/' :: x) := by
      rw [percentDecodeL.eq_def]
      simp
    rw [hstep] at h
    cases hd : percentDecodeL t with
    | none => rw [hd] at h; cases h
    | some d2 =>
      rw [hd] at h
      simp at h
      subst h
      rfl

/-- `normalizeUrl` never changes which domain a URL belongs to: a URL on
the same domain as a normalized URL is on the same domain as the original
URL. -/
theorem isSameDomain_normalizeUrl (u s : String)
    (h : isSameDomain u (normalizeUrl s) = true) :
    isSameDomain u s = true := by
  cases hps : parseURL s with
  | none =>
    rw [show normalizeUrl s = s from by simp [normalizeUrl, hps]] at h
    exact h
  | some parsed =>
    obtain ⟨hs, ⟨hh1, hh2, hh3⟩, ⟨praw, hpr1, hpr2, -, -, -⟩, -⟩ :=
      parseURLCore_shape _ parsed hps
    have hphead : parsed.path.toList.head? = some '/' := by
      rw [hpr1]
      exact encodePathL_head_slash praw hpr2
    set R2 : URLRec :=
      { parsed with
        hash := "",
        query := ⟨serializeFormL (sortPairsL (removeTrackingL
          (parseFormL parsed.query.toList)))⟩,
        path := ⟨match percentDecodeL
            (stripTrailingSlashL parsed.path.toList) with
          | some d => encodePathL d
          | none => stripTrailingSlashL parsed.path.toList⟩ } with hR2
    have hnu : normalizeUrl s = serializeURL R2 := by
      rw [hR2]
      simp [normalizeUrl, hps]
    rw [hnu] at h
    have hR2path : R2.path.toList.head? = some '/' := by
      rw [hR2]
      show (match percentDecodeL (stripTrailingSlashL parsed.path.toList)
          with
        | some d => encodePathL d
        | none => stripTrailingSlashL parsed.path.toList).head? = some '/'
      have hp1 := stripTrailingSlashL_head _ hphead
      cases hdec : percentDecodeL (stripTrailingSlashL
          parsed.path.toList) with
      | none => simpa using hp1
      | some d =>
        simpa using encodePathL_head_slash d
          (percentDecodeL_head_slash _ d hp1 hdec)
    simp only [isSameDomain] at h ⊢
    cases hdu : extractDomain u with
    | none => rw [hdu] at h; simp at h
    | some d1 =>
      rw [hdu] at h
      cases hre : parseURL (serializeURL R2) with
      | none =>
        rw [show extractDomain (serializeURL R2) = none from by
          rw [extractDomain, hre]; rfl] at h
        simp at h
      | some r3 =>
        have hR2host : R2.host = parsed.host := by rw [hR2]
        have hhost : r3.host = parsed.host := by
          have hps2 := parse_serialize_host R2 r3 (by rw [hR2]; exact hs)
            (by rw [hR2]; exact hh1) (by rw [hR2]; exact hh2)
            (by rw [hR2]; exact hh3) hR2path hre
          exact hps2.trans hR2host
        rw [show extractDomain (serializeURL R2) = some parsed.host from by
          rw [extractDomain, hre]; simp [hhost]] at h
        rw [show extractDomain s = some parsed.host from by
          rw [extractDomain, hps]; rfl]
        exact h

/-- Invariant of the crawl loop: if every queued depth and every already
collected page respects the (clamped-below-by-zero) depth bound, the
domain guard and the page budget, so does the final result, for every
fuel value. -/
theorem crawlLoop_inv (fetchO : String → Option FetchedPage)
    (robots : RobotsRules) (respect : Bool) (maxDepth maxPages : Int)
    (baseUrl : String) :
    ∀ fuel queue visited res,
      (∀ qd ∈ queue, ((qd.2 : Int) ≤ max maxDepth 0)) →
      (∀ p ∈ res.pages, (p.depth : Int) ≤ max maxDepth 0 ∧
        isSameDomain p.url baseUrl = true) →
      ((res.pages.length : Int) ≤ max maxPages 0) →
      (∀ p ∈ (crawlLoop fetchO robots respect maxDepth maxPages baseUrl
          fuel queue visited res).pages,
        (p.depth : Int) ≤ max maxDepth 0 ∧
        isSameDomain p.url baseUrl = true) ∧
      (((crawlLoop fetchO robots respect maxDepth maxPages baseUrl
          fuel queue visited res).pages.length : Int) ≤ max maxPages 0) := by
  intro fuel
  induction fuel with
  | zero =>
    intro queue visited res _ hpages hlen
    rw [crawlLoop]
    exact ⟨hpages, hlen⟩
  | succ n ih =>
    intro queue visited res hqueue hpages hlen
    match queue with
    | [] =>
      rw [crawlLoop]
      exact ⟨hpages, hlen⟩
    | (url, depth) :: rest =>
      rw [crawlLoop]
      split
      · exact ⟨hpages, hlen⟩
      split
      · exact ih rest visited res
          (fun qd hqd => hqueue qd (List.mem_cons_of_mem _ hqd)) hpages hlen
      split
      · exact ih rest _ _
          (fun qd hqd => hqueue qd (List.mem_cons_of_mem _ hqd)) hpages hlen
      split
      · exact ih rest _ _
          (fun qd hqd => hqueue qd (List.mem_cons_of_mem _ hqd)) hpages hlen
      rename_i hbudget hvis hrob hdom
      split
      · exact ih rest _ _
          (fun qd hqd => hqueue qd (List.mem_cons_of_mem _ hqd)) hpages hlen
      · rename_i pr hpr
        apply ih
        · intro qd hqd
          rcases List.mem_append.mp hqd with hqr | hqn
          · exact hqueue qd (List.mem_cons_of_mem _ hqr)
          · obtain ⟨link, hlink, hqd2⟩ := List.mem_map.mp hqn
            rw [← hqd2]
            show ((depth + 1 : Nat) : Int) ≤ max maxDepth 0
            by_cases hlt : (depth : Int) < maxDepth
            · push_cast
              omega
            · rw [if_neg hlt] at hlink
              cases hlink
        · intro p hp
          rcases List.mem_append.mp hp with hpo | hpn
          · exact hpages p hpo
          · rw [List.mem_singleton.mp hpn]
            refine ⟨hqueue (url, depth) (List.mem_cons_self _ _), ?_⟩
            simpa using hdom
        · have hb : (res.pages.length : Int) < maxPages := by
            simpa using hbudget
          simp only [List.length_append, List.length_cons,
            List.length_nil]
          push_cast
          omega

/-- C3 counterexample: with a caller-supplied negative `maxDepth` the
seed page is still crawled at depth `0 > maxDepth`, and with a negative
`maxPages` the page count `0` is not at most `maxPages`, so the claimed
bounds fail as stated on those (unvalidated) option values. -/
theorem crawl_bounds_counterexample :
    ((crawlWebsite (fun _ => some ⟨"", 200, "text/html"⟩) none
        "https://x.com/a" ⟨some (-1), none, none, none, none⟩ 3).pages.map
      (fun p => p.depth)) = [0] ∧
    effectiveMaxDepth (some (-1)) = -1 ∧
    ¬ ((0 : Int) ≤ -1) ∧
    (crawlWebsite (fun _ => some ⟨"", 200, "text/html"⟩) none
        "https://x.com/a" ⟨none, none, some (-1), none, none⟩
        3).pages.length = 0 :=
  ⟨rfl, by decide, by decide, rfl⟩

/-- C3 (amended): in every crawl run, every returned page's depth is at
most `max(effectiveMaxDepth, 0)` (and the effective depth never exceeds
`MAX_DEPTH = 5`), the page count is at most `max(maxPages, 0)` (default
100), and every returned page is on the seed URL's domain up to a leading
`www.` prefix. -/
theorem crawlWebsite_bounds (fetchO : String → Option FetchedPage)
    (robotsO : Option RobotsRules) (startUrl : String)
    (options : ScraperOptions) (fuel : Nat) :
    (∀ p ∈ (crawlWebsite fetchO robotsO startUrl options fuel).pages,
      (p.depth : Int) ≤ max (effectiveMaxDepth options.maxDepth) 0 ∧
      isSameDomain p.url startUrl = true) ∧
    (((crawlWebsite fetchO robotsO startUrl options fuel).pages.length :
      Int) ≤ max (options.maxPages.getD 100) 0) ∧
    effectiveMaxDepth options.maxDepth ≤ MAX_DEPTH := by
  have hloop := crawlLoop_inv fetchO
    (if options.respectRobotsTxt.getD true then robotsO.getD ⟨[], none⟩
     else ⟨[], none⟩)
    (options.respectRobotsTxt.getD true)
    (effectiveMaxDepth options.maxDepth) (options.maxPages.getD 100)
    (normalizeUrl startUrl) fuel
    [(normalizeUrl startUrl, 0)] []
    ⟨normalizeUrl startUrl, [], [], [], ⟨1, 0, 0, 0, 0⟩⟩
    (by
      intro qd hqd
      rw [List.mem_singleton.mp hqd]
      simp)
    (by intro p hp; exact absurd hp (List.not_mem_nil p))
    (by simp)
  have hcw : crawlWebsite fetchO robotsO startUrl options fuel =
      crawlLoop fetchO
        (if options.respectRobotsTxt.getD true then robotsO.getD ⟨[], none⟩
         else ⟨[], none⟩)
        (options.respectRobotsTxt.getD true)
        (effectiveMaxDepth options.maxDepth) (options.maxPages.getD 100)
        (normalizeUrl startUrl) fuel [(normalizeUrl startUrl, 0)] []
        ⟨normalizeUrl startUrl, [], [], [], ⟨1, 0, 0, 0, 0⟩⟩ := rfl
  refine ⟨?_, ?_, ?_⟩
  · intro p hp
    rw [hcw] at hp
    have h2 := hloop.1 p hp
    exact ⟨h2.1, isSameDomain_normalizeUrl p.url startUrl h2.2⟩
  · rw [hcw]
    exact hloop.2
  · simp only [effectiveMaxDepth]
    exact min_le_right _ _

/-! ### URL-normalization round trip (C4) -/

theorem hexDigit_props (m : Nat) (hm : m < 16) :
    pathEncChar (hexDigit m) = false ∧ (hexDigit m).toNat < 128 ∧
    0x20 < (hexDigit m).toNat ∧ hexDigit m ≠ '#' ∧ hexDigit m ≠ '&' ∧
    hexDigit m ≠ '=' ∧ hexVal (hexDigit m) = some m := by
  interval_cases m <;> refine ⟨by decide, by decide, by decide, by decide,
    by decide, by decide, by decide⟩

theorem encodePathL_pathOK (l : List Char) (hl : ∀ c ∈ l, c.toNat < 128) :
    ∀ c ∈ encodePathL l, pathEncChar c = false ∧ c.toNat < 128 := by
  intro c hc
  simp only [encodePathL, List.mem_flatten, List.mem_map] at hc
  obtain ⟨piece, ⟨a, ha, hpiece⟩, hcpc⟩ := hc
  rw [← hpiece] at hcpc
  by_cases henc : pathEncChar a = true
  · rw [if_pos henc] at hcpc
    have ha128 := hl a ha
    simp only [percentHex, List.mem_cons, List.not_mem_nil, or_false]
      at hcpc
    rcases hcpc with rfl | rfl | rfl
    · exact ⟨by decide, by decide⟩
    · have := hexDigit_props (a.toNat / 16) (by omega)
      exact ⟨this.1, this.2.1⟩
    · have := hexDigit_props (a.toNat % 16) (by omega)
      exact ⟨this.1, this.2.1⟩
  · rw [if_neg henc] at hcpc
    rcases List.mem_singleton.mp hcpc with rfl
    exact ⟨by simpa using henc, hl c ha⟩

theorem pathOK_no_stop (c : Char) (h : pathEncChar c = false) :
    c ≠ '?' ∧ c ≠ '#' ∧ ¬ (c.toNat ≤ 0x20) := by
  refine ⟨fun hq => ?_, fun hh => ?_, fun hw => ?_⟩
  · rw [hq] at h
    exact absurd h (by decide)
  · rw [hh] at h
    exact absurd h (by decide)
  · have hcase : c.toNat < 0x20 ∨ c = ' ' := by
      rcases Nat.lt_or_ge c.toNat 0x20 with hlt | hge
      · exact Or.inl hlt
      · refine Or.inr ((char_eq_iff c ' ').mpr ?_)
        have h32 : (' ').toNat = 32 := by decide
        omega
    rcases hcase with h1 | h1
    · rw [show pathEncChar c = true from by simp [pathEncChar, h1]] at h
      cases h
    · rw [h1] at h
      exact absurd h (by decide)

theorem encodePathL_fixed (l : List Char)
    (h : ∀ c ∈ l, pathEncChar c = false) : encodePathL l = l := by
  induction l with
  | nil => rfl
  | cons c t ih =>
    rw [encodePathL_cons, if_neg (by simp [h c (List.mem_cons_self _ _)]),
      List.singleton_append, ih (fun x hx => h x (List.mem_cons_of_mem _
        hx))]

theorem percentDecodeL_cons_ne (c : Char) (t : List Char) (hc : c ≠ '%') :
    percentDecodeL (c :: t) = (percentDecodeL t).map (c :: ·) := by
  rw [percentDecodeL.eq_def]
  simp [hc]

theorem percentDecodeL_percent (a b : Char) (t : List Char) :
    percentDecodeL ('%' :: a :: b :: t) =
      match hexVal a, hexVal b with
      | some hi, some lo =>
        if 16 * hi + lo < 128 then
          (percentDecodeL t).map (Char.ofNat (16 * hi + lo) :: ·)
        else none
      | _, _ => none := by
  rw [percentDecodeL.eq_def]
  simp

theorem percentDecodeL_no_percent (l : List Char)
    (h : ∀ c ∈ l, c ≠ '%') : percentDecodeL l = some l := by
  induction l with
  | nil => rfl
  | cons c t ih =>
    rw [percentDecodeL_cons_ne c t (h c (List.mem_cons_self _ _)),
      ih (fun x hx => h x (List.mem_cons_of_mem _ hx))]
    rfl

theorem percentDecodeL_lt128_aux (n : Nat) :
    ∀ l d, l.length ≤ n → (∀ c ∈ l, c.toNat < 128) →
      percentDecodeL l = some d → ∀ c ∈ d, c.toNat < 128 := by
  induction n with
  | zero =>
    intro l d hlen _ hd
    have : l = [] := List.length_eq_zero.mp (Nat.le_zero.mp hlen)
    subst this
    cases hd
    intro c hc
    cases hc
  | succ n ih =>
    intro l d hlen hl hd
    cases l with
    | nil =>
      cases hd
      intro c hc
      cases hc
    | cons c t =>
      by_cases hc : c = '%'
      · subst hc
        cases t with
        | nil => rw [percentDecodeL.eq_def] at hd; simp at hd
        | cons a t1 =>
        cases t1 with
        | nil => rw [percentDecodeL.eq_def] at hd; simp at hd
        | cons b t2 =>
          rw [percentDecodeL_percent] at hd
          rcases hva : hexVal a with - | hi
          · rw [hva] at hd; cases hd
          rcases hvb : hexVal b with - | lo
          · rw [hva, hvb] at hd; cases hd
          rw [hva, hvb] at hd
          simp only [] at hd
          by_cases hlt : 16 * hi + lo < 128
          · rw [if_pos hlt] at hd
            cases hdec : percentDecodeL t2 with
            | none => rw [hdec] at hd; simp at hd
            | some d2 =>
              rw [hdec] at hd
              simp at hd
              subst hd
              intro c2 hc2
              rcases List.mem_cons.mp hc2 with rfl | hmem
              · rw [toNat_ofNat_valid _ (Or.inl (by omega))]
                omega
              · refine ih t2 d2 ?_ ?_ hdec c2 hmem
                · simp only [List.length_cons] at hlen
                  omega
                · intro x hx
                  refine hl x ?_
                  exact List.mem_cons_of_mem _ (List.mem_cons_of_mem _
                    (List.mem_cons_of_mem _ hx))
          · rw [if_neg hlt] at hd
            simp at hd
      · rw [percentDecodeL_cons_ne c t hc] at hd
        cases hdec : percentDecodeL t with
        | none => rw [hdec] at hd; simp at hd
        | some d2 =>
          rw [hdec] at hd
          simp at hd
          subst hd
          intro c2 hc2
          rcases List.mem_cons.mp hc2 with rfl | hmem
          · exact hl c2 (List.mem_cons_self _ _)
          · refine ih t d2 ?_
              (fun x hx => hl x (List.mem_cons_of_mem _ hx)) hdec c2 hmem
            simp only [List.length_cons] at hlen
            omega

theorem percentDecodeL_lt128 (l d : List Char)
    (hl : ∀ c ∈ l, c.toNat < 128) (hd : percentDecodeL l = some d) :
    ∀ c ∈ d, c.toNat < 128 :=
  percentDecodeL_lt128_aux l.length l d (le_refl _) hl hd

theorem stripTrailingSlashL_subset (l : List Char) :
    ∀ c ∈ stripTrailingSlashL l, c ∈ l := by
  intro c hc
  unfold stripTrailingSlashL at hc
  split at hc
  · exact (List.dropLast_sublist l).mem hc
  · exact hc

theorem isAlphanum_toNat (c : Char) (h : c.isAlphanum = true) :
    (48 ≤ c.toNat ∧ c.toNat ≤ 57) ∨ (65 ≤ c.toNat ∧ c.toNat ≤ 90) ∨
      (97 ≤ c.toNat ∧ c.toNat ≤ 122) := by
  simp only [Char.isAlphanum, Char.isAlpha, Char.isUpper, Char.isLower,
    Bool.or_eq_true, Bool.and_eq_true, decide_eq_true_eq, ge_iff_le] at h
  rcases h with (⟨h1, h2⟩ | ⟨h1, h2⟩) | hd
  · rw [UInt32.le_def, BitVec.le_def] at h1 h2
    exact Or.inr (Or.inl ⟨h1, h2⟩)
  · rw [UInt32.le_def, BitVec.le_def] at h1 h2
    exact Or.inr (Or.inr ⟨h1, h2⟩)
  · exact Or.inl (isDigit_toNat c hd)

theorem formSafe_toNat (c : Char) (h : formSafe c = true) :
    (48 ≤ c.toNat ∧ c.toNat ≤ 57) ∨ (65 ≤ c.toNat ∧ c.toNat ≤ 90) ∨
      (97 ≤ c.toNat ∧ c.toNat ≤ 122) ∨ c.toNat = 42 ∨ c.toNat = 45 ∨
      c.toNat = 46 ∨ c.toNat = 95 := by
  simp only [formSafe, Bool.or_eq_true, decide_eq_true_eq] at h
  rcases h with (((han | hst) | hda) | hdo) | hus
  · rcases isAlphanum_toNat c han with h1 | h1 | h1
    · exact Or.inl h1
    · exact Or.inr (Or.inl h1)
    · exact Or.inr (Or.inr (Or.inl h1))
  · rw [char_eq_iff] at hst
    exact Or.inr (Or.inr (Or.inr (Or.inl hst)))
  · rw [char_eq_iff] at hda
    exact Or.inr (Or.inr (Or.inr (Or.inr (Or.inl hda))))
  · rw [char_eq_iff] at hdo
    exact Or.inr (Or.inr (Or.inr (Or.inr (Or.inr (Or.inl hdo)))))
  · rw [char_eq_iff] at hus
    exact Or.inr (Or.inr (Or.inr (Or.inr (Or.inr (Or.inr hus)))))

theorem formSafe_props (c : Char) (h : formSafe c = true) :
    c ≠ '#' ∧ c ≠ '&' ∧ c ≠ '=' ∧ c ≠ '+' ∧ c ≠ '%' ∧ c ≠ ' ' ∧
    0x20 < c.toNat ∧ c.toNat < 128 := by
  have hn := formSafe_toNat c h
  refine ⟨?_, ?_, ?_, ?_, ?_, ?_, by omega, by omega⟩ <;>
    (intro he; rw [char_eq_iff] at he; simp at he; omega)

theorem formEncodeL_cons (c : Char) (l : List Char) :
    formEncodeL (c :: l) =
      (if c = ' ' then ['+']
       else if formSafe c then [c]
       else percentHex c.toNat) ++ formEncodeL l := by
  simp [formEncodeL]

theorem formEncodeL_mem (x : List Char) (hx : ∀ c ∈ x, c.toNat < 128) :
    ∀ c ∈ formEncodeL x, c ≠ '#' ∧ c ≠ '&' ∧ c ≠ '=' ∧
      0x20 < c.toNat ∧ c.toNat < 128 := by
  intro c hc
  simp only [formEncodeL, List.mem_flatten, List.mem_map] at hc
  obtain ⟨piece, ⟨a, ha, hpiece⟩, hcpc⟩ := hc
  rw [← hpiece] at hcpc
  by_cases hsp : a = ' '
  · rw [if_pos hsp] at hcpc
    rcases List.mem_singleton.mp hcpc with rfl
    exact ⟨by decide, by decide, by decide, by decide, by decide⟩
  · rw [if_neg hsp] at hcpc
    by_cases hsafe : formSafe a = true
    · rw [if_pos hsafe] at hcpc
      rcases List.mem_singleton.mp hcpc with rfl
      have hp := formSafe_props c hsafe
      exact ⟨hp.1, hp.2.1, hp.2.2.1, hp.2.2.2.2.2.2.1, hp.2.2.2.2.2.2.2⟩
    · rw [if_neg hsafe] at hcpc
      have ha128 := hx a ha
      simp only [percentHex, List.mem_cons, List.not_mem_nil, or_false]
        at hcpc
      rcases hcpc with rfl | rfl | rfl
      · exact ⟨by decide, by decide, by decide, by decide, by decide⟩
      · have h2 := hexDigit_props (a.toNat / 16) (by omega)
        exact ⟨h2.2.2.2.1, h2.2.2.2.2.1, h2.2.2.2.2.2.1, h2.2.2.1, h2.2.1⟩
      · have h2 := hexDigit_props (a.toNat % 16) (by omega)
        exact ⟨h2.2.2.2.1, h2.2.2.2.2.1, h2.2.2.2.2.2.1, h2.2.2.1, h2.2.1⟩

theorem formDecodeL_plus (t : List Char) :
    formDecodeL ('+' :: t) = ' ' :: formDecodeL t := by
  rw [formDecodeL.eq_def]
  simp

theorem formDecodeL_lit (c : Char) (t : List Char) (h1 : c ≠ '+')
    (h2 : c ≠ '%') : formDecodeL (c :: t) = c :: formDecodeL t := by
  rw [formDecodeL.eq_def]
  simp [h1, h2]

theorem formDecodeL_percent (a b : Char) (t : List Char) :
    formDecodeL ('%' :: a :: b :: t) =
      match hexVal a, hexVal b with
      | some hi, some lo =>
        if 16 * hi + lo < 128 then
          Char.ofNat (16 * hi + lo) :: formDecodeL t
        else '%' :: formDecodeL (a :: b :: t)
      | _, _ => '%' :: formDecodeL (a :: b :: t) := by
  rw [formDecodeL.eq_def]
  simp

theorem formDecode_formEncode (x : List Char)
    (hx : ∀ c ∈ x, c.toNat < 128) :
    formDecodeL (formEncodeL x) = x := by
  induction x with
  | nil => rfl
  | cons c t ih =>
    have iht := ih (fun a ha => hx a (List.mem_cons_of_mem _ ha))
    rw [formEncodeL_cons]
    by_cases hsp : c = ' '
    · rw [if_pos hsp, List.singleton_append, formDecodeL_plus, iht, hsp]
    · rw [if_neg hsp]
      by_cases hsafe : formSafe c = true
      · rw [if_pos hsafe, List.singleton_append]
        have hp := formSafe_props c hsafe
        rw [formDecodeL_lit c _ hp.2.2.2.1 hp.2.2.2.2.1, iht]
      · rw [if_neg hsafe]
        have h128 := hx c (List.mem_cons_self _ _)
        have hhi := hexDigit_props (c.toNat / 16) (by omega)
        have hlo := hexDigit_props (c.toNat % 16) (by omega)
        show formDecodeL ('%' :: hexDigit (c.toNat / 16) ::
          hexDigit (c.toNat % 16) :: formEncodeL t) = c :: t
        rw [formDecodeL_percent, hhi.2.2.2.2.2.2, hlo.2.2.2.2.2.2]
        simp only []
        rw [if_pos (by omega)]
        rw [show 16 * (c.toNat / 16) + c.toNat % 16 = c.toNat from by
          omega]
        rw [Char.ofNat_toNat, iht]

theorem formDecodeL_lt128_aux (n : Nat) :
    ∀ l, l.length ≤ n → (∀ c ∈ l, c.toNat < 128) →
      ∀ c ∈ formDecodeL l, c.toNat < 128 := by
  induction n with
  | zero =>
    intro l hlen _
    have : l = [] := List.length_eq_zero.mp (Nat.le_zero.mp hlen)
    subst this
    intro c hc
    cases hc
  | succ n ih =>
    intro l hlen hl
    cases l with
    | nil => intro c hc; cases hc
    | cons c t =>
      by_cases hplus : c = '+'
      · subst hplus
        rw [formDecodeL_plus]
        intro c2 hc2
        rcases List.mem_cons.mp hc2 with rfl | hmem
        · decide
        · refine ih t ?_ (fun x hx => hl x (List.mem_cons_of_mem _ hx))
            c2 hmem
          simp only [List.length_cons] at hlen
          omega
      by_cases hpc : c = '%'
      · subst hpc
        cases t with
        | nil =>
          rw [show formDecodeL ['%'] = ['%'] from by
            rw [formDecodeL.eq_def]; simp [formDecodeL]]
          intro c2 hc2
          rcases List.mem_singleton.mp hc2 with rfl
          decide
        | cons a t1 =>
          cases t1 with
          | nil =>
            rw [show formDecodeL ['%', a] = '%' :: formDecodeL [a] from by
              rw [formDecodeL.eq_def]; simp]
            intro c2 hc2
            rcases List.mem_cons.mp hc2 with rfl | hmem
            · decide
            · refine ih [a] ?_ ?_ c2 hmem
              · simp only [List.length_cons] at hlen ⊢
                omega
              · intro x hx
                exact hl x (List.mem_cons_of_mem _ hx)
          | cons b t2 =>
            rw [formDecodeL_percent]
            have hrec2 : ∀ c2 ∈ formDecodeL (a :: b :: t2),
                c2.toNat < 128 := by
              refine ih _ ?_ ?_
              · simp only [List.length_cons] at hlen ⊢
                omega
              · intro x hx
                exact hl x (List.mem_cons_of_mem _ hx)
            rcases hva : hexVal a with - | hi
            · simp only []
              intro c2 hc2
              rcases List.mem_cons.mp hc2 with rfl | hmem
              · decide
              · exact hrec2 c2 hmem
            rcases hvb : hexVal b with - | lo
            · simp only []
              intro c2 hc2
              rcases List.mem_cons.mp hc2 with rfl | hmem
              · decide
              · exact hrec2 c2 hmem
            simp only []
            by_cases hlt : 16 * hi + lo < 128
            · rw [if_pos hlt]
              intro c2 hc2
              rcases List.mem_cons.mp hc2 with rfl | hmem
              · rw [toNat_ofNat_valid _ (Or.inl (by omega))]
                omega
              · refine ih t2 ?_ ?_ c2 hmem
                · simp only [List.length_cons] at hlen
                  omega
                · intro x hx
                  exact hl x (List.mem_cons_of_mem _
                    (List.mem_cons_of_mem _ (List.mem_cons_of_mem _ hx)))
            · rw [if_neg hlt]
              intro c2 hc2
              rcases List.mem_cons.mp hc2 with rfl | hmem
              · decide
              · exact hrec2 c2 hmem
      · rw [formDecodeL_lit c t hplus hpc]
        intro c2 hc2
        rcases List.mem_cons.mp hc2 with rfl | hmem
        · exact hl c2 (List.mem_cons_self _ _)
        · refine ih t ?_ (fun x hx => hl x (List.mem_cons_of_mem _ hx))
            c2 hmem
          simp only [List.length_cons] at hlen
          omega

theorem formDecodeL_lt128 (l : List Char) (hl : ∀ c ∈ l, c.toNat < 128) :
    ∀ c ∈ formDecodeL l, c.toNat < 128 :=
  formDecodeL_lt128_aux l.length l (le_refl _) hl

theorem splitCharL_no_sep (sep : Char) (l : List Char)
    (h : ∀ c ∈ l, c ≠ sep) : splitCharL sep l = [l] := by
  induction l with
  | nil => rfl
  | cons c t ih =>
    rw [splitCharL, if_neg (h c (List.mem_cons_self _ _)),
      ih (fun x hx => h x (List.mem_cons_of_mem _ hx))]

theorem splitCharL_append_sep (sep : Char) (l1 l2 : List Char)
    (h : ∀ c ∈ l1, c ≠ sep) :
    splitCharL sep (l1 ++ sep :: l2) = l1 :: splitCharL sep l2 := by
  induction l1 with
  | nil =>
    rw [List.nil_append, splitCharL, if_pos rfl]
  | cons c t ih =>
    rw [List.cons_append, splitCharL,
      if_neg (h c (List.mem_cons_self _ _)),
      ih (fun x hx => h x (List.mem_cons_of_mem _ hx))]

theorem splitCharL_subset (sep : Char) :
    ∀ (l : List Char), ∀ part ∈ splitCharL sep l, ∀ c ∈ part, c ∈ l := by
  intro l
  induction l with
  | nil =>
    intro part hpart c hc
    rw [splitCharL] at hpart
    rcases List.mem_singleton.mp hpart with rfl
    cases hc
  | cons a t ih =>
    intro part hpart c hc
    rw [splitCharL] at hpart
    split at hpart
    · rcases List.mem_cons.mp hpart with rfl | hmem
      · cases hc
      · exact List.mem_cons_of_mem _ (ih part hmem c hc)
    · cases hsp : splitCharL sep t with
      | nil =>
        rw [hsp] at hpart
        simp only [] at hpart
        rcases List.mem_singleton.mp hpart with rfl
        rcases List.mem_singleton.mp hc with rfl
        exact List.mem_cons_self _ _
      | cons h0 r =>
        rw [hsp] at hpart
        simp only [] at hpart
        rcases List.mem_cons.mp hpart with rfl | hmem
        · rcases List.mem_cons.mp hc with rfl | hc2
          · exact List.mem_cons_self _ _
          · exact List.mem_cons_of_mem _
              (ih h0 (by rw [hsp]; exact List.mem_cons_self h0 r) c hc2)
        · exact List.mem_cons_of_mem _
            (ih part (by rw [hsp]; exact List.mem_cons_of_mem _ hmem) c
              hc)

theorem intercalate_cons_cons (sep : Char) (x y : List Char)
    (t : List (List Char)) :
    List.intercalate [sep] (x :: y :: t) =
      x ++ sep :: List.intercalate [sep] (y :: t) := by
  simp [List.intercalate, List.intersperse]

theorem mem_intercalate (sep : Char) :
    ∀ (ll : List (List Char)) (c : Char),
      c ∈ List.intercalate [sep] ll → c = sep ∨ ∃ x ∈ ll, c ∈ x := by
  intro ll
  induction ll with
  | nil => intro c hc; simp [List.intercalate] at hc
  | cons x t ih =>
    intro c hc
    cases t with
    | nil =>
      rw [show List.intercalate [sep] [x] = x from by
        simp [List.intercalate]] at hc
      exact Or.inr ⟨x, List.mem_singleton.mpr rfl, hc⟩
    | cons y t2 =>
      rw [intercalate_cons_cons] at hc
      rcases List.mem_append.mp hc with hx | hrest
      · exact Or.inr ⟨x, List.mem_cons_self _ _, hx⟩
      · rcases List.mem_cons.mp hrest with rfl | hmem
        · exact Or.inl rfl
        · rcases ih c hmem with hs | ⟨z, hz, hcz⟩
          · exact Or.inl hs
          · exact Or.inr ⟨z, List.mem_cons_of_mem _ hz, hcz⟩

theorem parsePairL_enc (p : List Char × List Char)
    (h1 : ∀ c ∈ p.1, c.toNat < 128) (h2 : ∀ c ∈ p.2, c.toNat < 128) :
    parsePairL (formEncodeL p.1 ++ '=' :: formEncodeL p.2) = p := by
  rw [parsePairL]
  rw [span_append_stop (formEncodeL p.1) '=' (formEncodeL p.2)
    (fun x hx => by simp [(formEncodeL_mem p.1 h1 x hx).2.2.1])
    (by decide)]
  simp only []
  rw [formDecode_formEncode p.1 h1, formDecode_formEncode p.2 h2]

theorem parseFormL_serializeFormL (pairs : List (List Char × List Char))
    (hp : ∀ p ∈ pairs, (∀ c ∈ p.1, c.toNat < 128) ∧
      (∀ c ∈ p.2, c.toNat < 128)) :
    parseFormL (serializeFormL pairs) = pairs := by
  induction pairs with
  | nil => rfl
  | cons p t ih =>
    have hpenc : ∀ c ∈ formEncodeL p.1 ++ '=' :: formEncodeL p.2,
        c ≠ '&' := by
      intro c hc
      rcases List.mem_append.mp hc with hcn | hcv
      · exact (formEncodeL_mem p.1 (hp p (List.mem_cons_self _ _)).1 c
          hcn).2.1
      · rcases List.mem_cons.mp hcv with rfl | hcv2
        · decide
        · exact (formEncodeL_mem p.2 (hp p (List.mem_cons_self _ _)).2 c
            hcv2).2.1
    cases t with
    | nil =>
      rw [serializeFormL, parseFormL]
      rw [show (List.map (fun p => formEncodeL p.1 ++ '=' :: formEncodeL
        p.2) [p]) = [formEncodeL p.1 ++ '=' :: formEncodeL p.2] from rfl]
      rw [show List.intercalate ['&'] [formEncodeL p.1 ++ '=' ::
        formEncodeL p.2] = formEncodeL p.1 ++ '=' :: formEncodeL p.2 from
        by simp [List.intercalate]]
      rw [splitCharL_no_sep '&' _ hpenc]
      rw [show List.filter (· ≠ []) [formEncodeL p.1 ++ '=' ::
        formEncodeL p.2] = [formEncodeL p.1 ++ '=' :: formEncodeL p.2]
        from by
          rw [List.filter_cons]
          simp]
      rw [List.map_singleton,
        parsePairL_enc p (hp p (List.mem_cons_self _ _)).1
          (hp p (List.mem_cons_self _ _)).2]
    | cons q t2 =>
      have iht := ih (fun x hx => hp x (List.mem_cons_of_mem _ hx))
      rw [serializeFormL, List.map_cons] at iht
      rw [serializeFormL, List.map_cons, List.map_cons,
        intercalate_cons_cons]
      rw [parseFormL]
      rw [splitCharL_append_sep '&' _ _ hpenc]
      rw [List.filter_cons]
      rw [if_pos (by
        simp only [decide_eq_true_eq]
        intro hemp
        cases formEncodeL p.1 with
        | nil => simp at hemp
        | cons a b => simp at hemp)]
      rw [List.map_cons]
      rw [parsePairL_enc p (hp p (List.mem_cons_self _ _)).1
        (hp p (List.mem_cons_self _ _)).2]
      rw [parseFormL] at iht
      rw [iht]

theorem parseFormL_lt128 (raw : List Char)
    (hraw : ∀ c ∈ raw, c.toNat < 128) :
    ∀ p ∈ parseFormL raw, (∀ c ∈ p.1, c.toNat < 128) ∧
      (∀ c ∈ p.2, c.toNat < 128) := by
  intro p hp
  simp only [parseFormL, List.mem_map] at hp
  obtain ⟨part, hpart, hpp⟩ := hp
  have hpartsub : ∀ c ∈ part, c.toNat < 128 := by
    intro c hc
    exact hraw c (splitCharL_subset '&' raw part
      (List.mem_filter.mp hpart).1 c hc)
  rw [← hpp, parsePairL]
  split
  · rename_i head v hv
    constructor
    · refine formDecodeL_lt128 _ ?_
      intro c hc
      rw [List.span_eq_take_drop] at hc
      exact hpartsub c ((List.takeWhile_sublist _).mem hc)
    · refine formDecodeL_lt128 _ ?_
      intro c hc
      have hcs : c ∈ (part.span (fun x => decide (x ≠ '='))).2 := by
        rw [hv]
        exact List.mem_cons_of_mem _ hc
      rw [List.span_eq_take_drop] at hcs
      exact hpartsub c ((List.dropWhile_sublist _).mem hcs)
  · constructor
    · refine formDecodeL_lt128 _ ?_
      intro c hc
      rw [List.span_eq_take_drop] at hc
      exact hpartsub c ((List.takeWhile_sublist _).mem hc)
    · intro c hc
      cases hc

theorem listLe_total (a : List Char) : ∀ b, listLe a b = true ∨
    listLe b a = true := by
  induction a with
  | nil => intro b; exact Or.inl rfl
  | cons x xs ih =>
    intro b
    cases b with
    | nil => exact Or.inr rfl
    | cons y ys =>
      rcases lt_trichotomy x y with hlt | heq | hgt
      · exact Or.inl (by simp [listLe, hlt])
      · subst heq
        rcases ih ys with h1 | h1
        · exact Or.inl (by simp [listLe, h1])
        · exact Or.inr (by simp [listLe, h1])
      · exact Or.inr (by simp [listLe, hgt])

theorem mem_insertPairL (x : List Char × List Char) :
    ∀ l y, y ∈ insertPairL x l → y = x ∨ y ∈ l := by
  intro l
  induction l with
  | nil =>
    intro y hy
    exact Or.inl (List.mem_singleton.mp hy)
  | cons z t ih =>
    intro y hy
    rw [insertPairL] at hy
    split at hy
    · rcases List.mem_cons.mp hy with rfl | hmem
      · exact Or.inl rfl
      · exact Or.inr hmem
    · rcases List.mem_cons.mp hy with rfl | hmem
      · exact Or.inr (List.mem_cons_self _ _)
      · rcases ih y hmem with rfl | h2
        · exact Or.inl rfl
        · exact Or.inr (List.mem_cons_of_mem _ h2)

theorem mem_sortPairsL : ∀ (l : List (List Char × List Char)) y,
    y ∈ sortPairsL l → y ∈ l := by
  intro l
  induction l with
  | nil => intro y hy; cases hy
  | cons x t ih =>
    intro y hy
    rw [sortPairsL] at hy
    rcases mem_insertPairL x _ y hy with rfl | hmem
    · exact List.mem_cons_self _ _
    · exact List.mem_cons_of_mem _ (ih y hmem)

theorem insertPairL_head (x : List Char × List Char)
    (l : List (List Char × List Char)) :
    (insertPairL x l).head? = some x ∨ (insertPairL x l).head? = l.head? := by
  cases l with
  | nil => exact Or.inl rfl
  | cons y t =>
    rw [insertPairL]
    split
    · exact Or.inl rfl
    · exact Or.inr rfl

theorem insertPairL_chain (x : List Char × List Char) :
    ∀ l, List.Chain' (fun a b : List Char × List Char =>
        listLe a.1 b.1 = true) l →
      List.Chain' (fun a b : List Char × List Char =>
        listLe a.1 b.1 = true) (insertPairL x l) := by
  intro l
  induction l with
  | nil => exact fun _ => List.chain'_singleton x
  | cons y t ih =>
    intro h
    rw [insertPairL]
    split
    · rename_i hxy
      exact List.chain'_cons.mpr ⟨hxy, h⟩
    · rename_i hneg
      have hyx : listLe y.1 x.1 = true := by
        rcases listLe_total x.1 y.1 with h1 | h1
        · exact absurd h1 hneg
        · exact h1
      rw [List.chain'_cons']
      refine ⟨?_, ih (List.Chain'.tail h)⟩
      intro b hb
      rcases insertPairL_head x t with hh | hh
      · rw [hh] at hb
        rcases Option.mem_some_iff.mp hb with rfl
        exact hyx
      · rw [hh] at hb
        exact (List.chain'_cons'.mp h).1 b hb

theorem sortPairsL_chain : ∀ (l : List (List Char × List Char)),
    List.Chain' (fun a b : List Char × List Char =>
      listLe a.1 b.1 = true) (sortPairsL l) := by
  intro l
  induction l with
  | nil => exact List.chain'_nil
  | cons x t ih =>
    rw [sortPairsL]
    exact insertPairL_chain x _ ih

theorem sortPairsL_eq_of_chain :
    ∀ (l : List (List Char × List Char)),
      List.Chain' (fun a b : List Char × List Char =>
        listLe a.1 b.1 = true) l →
      sortPairsL l = l := by
  intro l
  induction l with
  | nil => exact fun _ => rfl
  | cons x t ih =>
    intro h
    rw [sortPairsL, ih (List.Chain'.tail h)]
    cases t with
    | nil => rfl
    | cons y t2 =>
      rw [insertPairL, if_pos (List.chain'_cons.mp h).1]

theorem sortPairsL_idem (l : List (List Char × List Char)) :
    sortPairsL (sortPairsL l) = sortPairsL l :=
  sortPairsL_eq_of_chain _ (sortPairsL_chain l)

theorem removeTrackingL_not_tracking
    (l : List (List Char × List Char)) :
    ∀ p ∈ removeTrackingL l,
      ((TRACKING_PARAMS.map String.toList).contains p.1) = false := by
  intro p hp
  have h2 := (List.mem_filter.mp hp).2
  simpa using h2

theorem removeTrackingL_eq_of_clean (l : List (List Char × List Char))
    (h : ∀ p ∈ l,
      ((TRACKING_PARAMS.map String.toList).contains p.1) = false) :
    removeTrackingL l = l := by
  rw [removeTrackingL]
  rw [List.filter_eq_self.mpr]
  intro p hp
  have h2 := h p hp
  simp at h2 ⊢
  exact h2

theorem serializeFormL_chars (pairs : List (List Char × List Char))
    (hp : ∀ p ∈ pairs, (∀ c ∈ p.1, c.toNat < 128) ∧
      (∀ c ∈ p.2, c.toNat < 128)) :
    ∀ c ∈ serializeFormL pairs,
      c ≠ '#' ∧ ¬ (c.toNat ≤ 0x20) ∧ c.toNat < 128 := by
  intro c hc
  rw [serializeFormL] at hc
  rcases mem_intercalate '&' _ c hc with rfl | ⟨x, hx, hcx⟩
  · exact ⟨by decide, by decide, by decide⟩
  · obtain ⟨p, hpm, hpe⟩ := List.mem_map.mp hx
    rw [← hpe] at hcx
    rcases List.mem_append.mp hcx with hcn | hcv
    · have h2 := formEncodeL_mem p.1 (hp p hpm).1 c hcn
      exact ⟨h2.1, by omega, h2.2.2.2.2⟩
    · rcases List.mem_cons.mp hcv with rfl | hcv2
      · exact ⟨by decide, by decide, by decide⟩
      · have h2 := formEncodeL_mem p.2 (hp p hpm).2 c hcv2
        exact ⟨h2.1, by omega, h2.2.2.2.2⟩

theorem takeWhile_all {P : Char → Bool} :
    ∀ l : List Char, (∀ c ∈ l, P c = true) →
      l.takeWhile P = l ∧ l.dropWhile P = [] := by
  intro l
  induction l with
  | nil => exact fun _ => ⟨rfl, rfl⟩
  | cons c t ih =>
    intro h
    have hc := h c (List.mem_cons_self _ _)
    have ht := ih (fun x hx => h x (List.mem_cons_of_mem _ hx))
    rw [List.takeWhile_cons, List.dropWhile_cons, if_pos hc, if_pos hc,
      ht.1, ht.2]
    exact ⟨rfl, rfl⟩

theorem span_all {P : Char → Bool} (l : List Char)
    (h : ∀ c ∈ l, P c = true) : l.span P = (l, []) := by
  rw [List.span_eq_take_drop, (takeWhile_all l h).1, (takeWhile_all l h).2]

theorem dropWhile_all_false {P : Char → Bool} :
    ∀ l : List Char, (∀ c ∈ l, P c = false) → l.dropWhile P = l := by
  intro l
  induction l with
  | nil => exact fun _ => rfl
  | cons c t ih =>
    intro h
    rw [List.dropWhile_cons, if_neg (by simp
      [h c (List.mem_cons_self _ _)])]

/-- Reparsing a canonically serialized http(s) URL (lower-case scheme
tail `stail`, host `H`, path `'/' :: P1`, raw query marker block `QL`)
recovers each component whenever the reparse succeeds. -/
theorem parseURLCore_canonical (stail H P1 QL : List Char) (r3 : URLRec)
    (hS : ∀ x ∈ 'h' :: stail, isAsciiAlpha x = true)
    (hH1 : H.map Char.toLower ≠ [])
    (hH2 : (H.map Char.toLower).all hostChar = true)
    (hP : ∀ c ∈ P1, (fun c => ¬ (c = '?' ∨ c = '#') : Char → Bool) c =
      true)
    (hQL : QL = [] ∨ ∃ ql, QL = '?' :: ql ∧ ∀ c ∈ ql, c ≠ '#')
    (h : parseURLCore (('h' :: stail) ++ ':' :: '/' :: '/' ::
      (H ++ '/' :: (P1 ++ QL))) = some r3) :
    r3 = ⟨⟨('h' :: stail).map Char.toLower⟩, ⟨H.map Char.toLower⟩,
      ⟨encodePathL ('/' :: P1)⟩, ⟨QL.drop 1⟩, ""⟩ := by
  have hspan1 := span_append_stop ('h' :: stail) ':'
    ('/' :: '/' :: (H ++ '/' :: (P1 ++ QL))) hS (by decide)
  simp only [parseURLCore] at h
  split at h
  case isFalse => exact absurd h (by simp)
  rw [hspan1] at h
  simp only [] at h
  split at h
  case isFalse => exact absurd h (by simp)
  have hallH : ∀ x ∈ H,
      (fun c => ¬ (c = '/' ∨ c = '?' ∨ c = '#') : Char → Bool) x =
        true := by
    intro x hx
    have hx2 : x.toLower ∈ H.map Char.toLower := List.mem_map_of_mem _ hx
    have h3 := hostChar_no_stop x.toLower
      (List.all_eq_true.mp hH2 _ hx2)
    have hxl : x ≠ '/' ∧ x ≠ '?' ∧ x ≠ '#' := by
      refine ⟨fun he => h3.1 ?_, fun he => h3.2.1 ?_, fun he =>
        h3.2.2 ?_⟩ <;> rw [he] <;> decide
    simp [hxl.1, hxl.2.1, hxl.2.2]
  have hspan2 := span_append_stop H '/' (P1 ++ QL) hallH (by decide)
  rw [hspan2] at h
  simp only [] at h
  split at h
  case isFalse =>
    rename_i hneg
    exact absurd ⟨hH1, hH2⟩ hneg
  have hspan3 : ('/' :: (P1 ++ QL)).span
      (fun c => ¬ (c = '?' ∨ c = '#')) = ('/' :: P1, QL) := by
    rcases hQL with rfl | ⟨ql, rfl, hql⟩
    · rw [List.append_nil]
      exact span_all ('/' :: P1) (fun c hc => by
        rcases List.mem_cons.mp hc with rfl | hc2
        · decide
        · exact hP c hc2)
    · rw [show ('/' :: (P1 ++ '?' :: ql)) = ('/' :: P1) ++ '?' :: ql from
        by simp]
      exact span_append_stop ('/' :: P1) '?' ql (by
        intro c hc
        rcases List.mem_cons.mp hc with rfl | hc2
        · decide
        · exact hP c hc2) (by decide)
  rw [hspan3] at h
  simp only [] at h
  split at h
  case isFalse => exact absurd h (by simp)
  rcases hQL with rfl | ⟨ql, rfl, hql⟩
  · simp only [] at h
    obtain rfl := Option.some.inj h
    rfl
  · simp only [] at h
    rw [show (List.span (fun x => decide (x ≠ '#')) ql) = (ql, [])
      from span_all ql (fun c hc => by simpa using hql c hc)] at h
    simp only [] at h
    obtain rfl := Option.some.inj h
    rfl

/-- The character list of a serialized record with an http(s)-style
scheme, a slash-led path and no fragment. -/
theorem serializeURL_toList (rr : URLRec) (stail P1 : List Char)
    (hsch : rr.scheme.toList = 'h' :: stail)
    (hP : rr.path.toList = '/' :: P1)
    (hh : rr.hash = "") :
    (serializeURL rr).toList =
      'h' :: (stail ++ ':' :: '/' :: '/' :: (rr.host.toList ++ '/' ::
        (P1 ++ (if rr.query = "" then ""
          else "?" ++ rr.query).toList))) := by
  show (serializeURL rr).data = _
  rw [serializeURL, hh, if_pos rfl]
  simp only [String.data_append]
  rw [show (rr.scheme.data : List Char) = 'h' :: stail from hsch,
    show (rr.path.data : List Char) = '/' :: P1 from hP]
  simp [List.append_assoc, String.toList]

/-- When the output of `normalizeUrl` parses back, the parsed record is
exactly the record `normalizeUrl` serialized: its serialization is the
normalized URL, its hash is empty, its path is a fixed point of the path
percent-encoder, and its query is the sorted, tracking-free
re-serialization of some raw ASCII query. -/
theorem normalizeUrl_reparse (u : String) (r : URLRec)
    (h : parseURL (normalizeUrl u) = some r) :
    normalizeUrl u = serializeURL r ∧
    r.hash = "" ∧
    (∀ c ∈ r.path.toList, pathEncChar c = false ∧ c.toNat < 128) ∧
    r.path.toList.head? = some '/' ∧
    (∃ q0 : List Char, (∀ c ∈ q0, c.toNat < 128) ∧
      r.query = ⟨serializeFormL (sortPairsL (removeTrackingL
        (parseFormL q0)))⟩) := by
  cases hps : parseURL u with
  | none =>
    rw [show normalizeUrl u = u from by simp [normalizeUrl, hps], hps]
      at h
    cases h
  | some parsed =>
    obtain ⟨hs, ⟨hh1, hh2, hh3⟩, ⟨praw, hpr1, hpr2, -, -, hpr128⟩, hqsh⟩ :=
      parseURLCore_shape _ parsed hps
    have hphead : parsed.path.toList.head? = some '/' := by
      rw [hpr1]
      exact encodePathL_head_slash praw hpr2
    set R2 : URLRec :=
      { parsed with
        hash := "",
        query := ⟨serializeFormL (sortPairsL (removeTrackingL
          (parseFormL parsed.query.toList)))⟩,
        path := ⟨match percentDecodeL
            (stripTrailingSlashL parsed.path.toList) with
          | some d => encodePathL d
          | none => stripTrailingSlashL parsed.path.toList⟩ } with hR2
    have hnu : normalizeUrl u = serializeURL R2 := by
      rw [hR2]
      simp [normalizeUrl, hps]
    have hparsedOK : ∀ c ∈ parsed.path.toList,
        pathEncChar c = false ∧ c.toNat < 128 := by
      rw [hpr1]
      exact encodePathL_pathOK praw hpr128
    have hp1OK : ∀ c ∈ stripTrailingSlashL parsed.path.toList,
        pathEncChar c = false ∧ c.toNat < 128 :=
      fun c hc => hparsedOK c (stripTrailingSlashL_subset _ c hc)
    have hpathOK : ∀ c ∈ R2.path.toList,
        pathEncChar c = false ∧ c.toNat < 128 := by
      show ∀ c ∈ (match percentDecodeL
          (stripTrailingSlashL parsed.path.toList) with
        | some d => encodePathL d
        | none => stripTrailingSlashL parsed.path.toList),
        pathEncChar c = false ∧ c.toNat < 128
      cases hdec : percentDecodeL (stripTrailingSlashL
          parsed.path.toList) with
      | none => exact hp1OK
      | some d =>
        exact encodePathL_pathOK d (percentDecodeL_lt128 _ d
          (fun c hc => (hp1OK c hc).2) hdec)
    have hpathHead : R2.path.toList.head? = some '/' := by
      show (match percentDecodeL
          (stripTrailingSlashL parsed.path.toList) with
        | some d => encodePathL d
        | none => stripTrailingSlashL parsed.path.toList).head? = some '/'
      have hp1 := stripTrailingSlashL_head _ hphead
      cases hdec : percentDecodeL (stripTrailingSlashL
          parsed.path.toList) with
      | none => simpa using hp1
      | some d =>
        simpa using encodePathL_head_slash d
          (percentDecodeL_head_slash _ d hp1 hdec)
    have hq0 : ∀ c ∈ parsed.query.toList, c.toNat < 128 :=
      fun c hc => (hqsh c hc).2
    have hpairs : ∀ p ∈ sortPairsL (removeTrackingL
        (parseFormL parsed.query.toList)),
        (∀ c ∈ p.1, c.toNat < 128) ∧ (∀ c ∈ p.2, c.toNat < 128) := by
      intro p hp
      refine parseFormL_lt128 _ hq0 p ?_
      exact (List.mem_filter.mp (mem_sortPairsL _ p hp)).1
    have hqchars : ∀ c ∈ R2.query.toList,
        c ≠ '#' ∧ ¬ (c.toNat ≤ 0x20) ∧ c.toNat < 128 :=
      serializeFormL_chars _ hpairs
    obtain ⟨stail, hsch⟩ : ∃ stail, R2.scheme.toList = 'h' :: stail := by
      show ∃ stail, parsed.scheme.toList = 'h' :: stail
      rcases hs with h1 | h1 <;> rw [h1] <;> exact ⟨_, rfl⟩
    have hsch2 : parsed.scheme.toList = 'h' :: stail := hsch
    obtain ⟨P1, hP1⟩ : ∃ P1, R2.path.toList = '/' :: P1 := by
      cases hpl : R2.path.toList with
      | nil => rw [hpl] at hpathHead; cases hpathHead
      | cons c t =>
        rw [hpl] at hpathHead
        simp only [List.head?_cons, Option.some.injEq] at hpathHead
        exact ⟨t, by rw [hpathHead]⟩
    have hserial := serializeURL_toList R2 stail P1 hsch hP1 rfl
    have hwsfree : ∀ c ∈ 'h' :: (stail ++ ':' :: '/' :: '/' ::
        (R2.host.toList ++ '/' :: (P1 ++
          (if R2.query = "" then "" else "?" ++ R2.query).toList))),
        (fun c : Char => decide (c.toNat ≤ 32)) c = false := by
      intro c hc
      simp only [decide_eq_false_iff_not]
      rcases List.mem_cons.mp hc with rfl | hc1
      · decide
      rcases List.mem_append.mp hc1 with hcs | hc2
      · have hx3 : c ∈ parsed.scheme.toList := by
          rw [hsch2]
          exact List.mem_cons_of_mem _ hcs
        rcases hs with h1 | h1 <;> rw [h1] at hx3
        · exact (by decide : ∀ x ∈ "http".toList,
            ¬ (x.toNat ≤ 32)) c hx3
        · exact (by decide : ∀ x ∈ "https".toList,
            ¬ (x.toNat ≤ 32)) c hx3
      rcases List.mem_cons.mp hc2 with rfl | hc3
      · decide
      rcases List.mem_cons.mp hc3 with rfl | hc4
      · decide
      rcases List.mem_cons.mp hc4 with rfl | hc5
      · decide
      rcases List.mem_append.mp hc5 with hch | hc6
      · have hch2 : c ∈ parsed.host.toList := hch
        exact hostChar_not_ws c (List.all_eq_true.mp hh2 c hch2)
      rcases List.mem_cons.mp hc6 with rfl | hc7
      · decide
      rcases List.mem_append.mp hc7 with hcp | hcq
      · exact (pathOK_no_stop c (hpathOK c (by
          rw [hP1]
          exact List.mem_cons_of_mem _ hcp)).1).2.2
      · split at hcq
        · cases hcq
        · rcases List.mem_cons.mp (by
            simpa [String.toList, String.data_append] using hcq :
              c ∈ '?' :: R2.query.toList) with rfl | hcq2
          · decide
          · exact (hqchars c hcq2).2.1
    rw [hnu] at h
    simp only [parseURL] at h
    rw [hserial] at h
    rw [dropWhile_cons_false _ _ (by decide)] at h
    rw [show List.dropWhile (fun c => decide (c.toNat ≤ 32))
        ('h' :: (stail ++ ':' :: '/' :: '/' ::
          (R2.host.toList ++ '/' :: (P1 ++
            (if R2.query = "" then "" else
              "?" ++ R2.query).toList)))).reverse =
        ('h' :: (stail ++ ':' :: '/' :: '/' ::
          (R2.host.toList ++ '/' :: (P1 ++
            (if R2.query = "" then "" else
              "?" ++ R2.query).toList)))).reverse from by
      refine dropWhile_all_false _ ?_
      intro c hc
      exact hwsfree c (List.mem_reverse.mp hc)] at h
    rw [List.reverse_reverse] at h
    rw [show ('h' :: (stail ++ ':' :: '/' :: '/' ::
        (R2.host.toList ++ '/' :: (P1 ++
          (if R2.query = "" then "" else "?" ++ R2.query).toList)))) =
        (('h' :: stail) ++ ':' :: '/' :: '/' ::
          (R2.host.toList ++ '/' :: (P1 ++
            (if R2.query = "" then "" else "?" ++ R2.query).toList)))
        from by simp] at h
    have hhostlow : R2.host.toList.map Char.toLower = R2.host.toList :=
      hh3
    have hcanon := parseURLCore_canonical stail R2.host.toList P1
      ((if R2.query = "" then "" else "?" ++ R2.query).toList) r
      (by
        intro x hx
        have hx3 : x ∈ parsed.scheme.toList := by
          rw [hsch2]
          exact hx
        rcases hs with h1 | h1 <;> rw [h1] at hx3
        · exact (by decide : ∀ y ∈ "http".toList,
            isAsciiAlpha y = true) x hx3
        · exact (by decide : ∀ y ∈ "https".toList,
            isAsciiAlpha y = true) x hx3)
      (by rw [hhostlow]; exact hh1)
      (by rw [hhostlow]; exact hh2)
      (by
        intro c hc
        have hOK := hpathOK c (by
          rw [hP1]
          exact List.mem_cons_of_mem _ hc)
        have hns := pathOK_no_stop c hOK.1
        simp [hns.1, hns.2.1])
      (by
        by_cases hqe : R2.query = ""
        · rw [if_pos hqe]
          exact Or.inl rfl
        · rw [if_neg hqe]
          refine Or.inr ⟨R2.query.toList, ?_, ?_⟩
          · show ("?" ++ R2.query).data = '?' :: R2.query.data
            simp [String.data_append]
          · intro c hc
            exact (hqchars c hc).1)
      h
    have hlower : ('h' :: stail).map Char.toLower = 'h' :: stail := by
      rcases hs with h1 | h1 <;> rw [h1] at hsch2 <;> rw [← hsch2] <;>
        decide
    have hqdrop : (⟨((if R2.query = "" then "" else
        "?" ++ R2.query).toList).drop 1⟩ : String) = R2.query := by
      by_cases hqe : R2.query = ""
      · rw [if_pos hqe, hqe]
        rfl
      · rw [if_neg hqe]
        show String.mk (("?" ++ R2.query).data.drop 1) = R2.query
        rw [String.data_append]
        rfl
    have hr : r = R2 := by
      rw [hcanon]
      rw [hlower, hhostlow]
      rw [show encodePathL ('/' :: P1) = '/' :: P1 from by
        rw [show ('/' :: P1) = R2.path.toList from hP1.symm]
        exact encodePathL_fixed _ (fun c hc => (hpathOK c hc).1)]
      rw [show ('/' :: P1) = R2.path.toList from hP1.symm,
        show ('h' :: stail) = R2.scheme.toList from hsch.symm]
      rw [hqdrop]
      rfl
    subst hr
    exact ⟨hnu, rfl, hpathOK, hpathHead,
      ⟨parsed.query.toList, hq0, rfl⟩⟩

/-- C4 counterexample: `normalizeUrl` is not idempotent.  For the input
`https://x.com/a//` the first normalization strips only one trailing
slash, producing `https://x.com/a/`, and the second normalization strips
the remaining one, producing `https://x.com/a`. -/
theorem normalizeUrl_not_idempotent_counterexample :
    normalizeUrl (normalizeUrl "https://x.com/a//") ≠
      normalizeUrl "https://x.com/a//" := by
  decide

/-- C4 (corrected): whenever the output of `normalizeUrl` parses back,
the parsed record has an empty fragment and its query contains none of
the known tracking parameters; and normalization IS idempotent whenever
the normalized path contains no percent sign and no strippable trailing
slash.  Unconditional idempotence is false: see
`normalizeUrl_not_idempotent_counterexample`. -/
theorem normalizeUrl_fragment_tracking_and_conditional_idempotence
    (u : String) (r : URLRec)
    (h : parseURL (normalizeUrl u) = some r) :
    r.hash = "" ∧
    (∀ p ∈ parseFormL r.query.toList,
      ((TRACKING_PARAMS.map String.toList).contains p.1) = false) ∧
    ('%' ∉ r.path.toList →
      stripTrailingSlashL r.path.toList = r.path.toList →
      normalizeUrl (normalizeUrl u) = normalizeUrl u) := by
  obtain ⟨hnu, hhash, hpathOK, hphead, q0, hq0, hq⟩ :=
    normalizeUrl_reparse u r h
  have hqlist : r.query.toList =
      serializeFormL (sortPairsL (removeTrackingL (parseFormL q0))) := by
    rw [hq]
    rfl
  have hpairs : ∀ p ∈ sortPairsL (removeTrackingL (parseFormL q0)),
      (∀ c ∈ p.1, c.toNat < 128) ∧ (∀ c ∈ p.2, c.toNat < 128) := by
    intro p hp
    refine parseFormL_lt128 _ hq0 p ?_
    exact (List.mem_filter.mp (mem_sortPairsL _ p hp)).1
  have hround : parseFormL r.query.toList =
      sortPairsL (removeTrackingL (parseFormL q0)) := by
    rw [hqlist]
    exact parseFormL_serializeFormL _ hpairs
  refine ⟨hhash, ?_, ?_⟩
  · intro p hp
    rw [hround] at hp
    exact removeTrackingL_not_tracking _ p (mem_sortPairsL _ p hp)
  · intro hnopct hnostrip
    have hq2 : serializeFormL (sortPairsL (removeTrackingL
        (parseFormL r.query.toList))) = r.query.toList := by
      rw [hround,
        removeTrackingL_eq_of_clean _
          (fun p hp => removeTrackingL_not_tracking _ p
            (mem_sortPairsL _ p hp)),
        sortPairsL_idem, ← hqlist]
    have hp2 : (match percentDecodeL
        (stripTrailingSlashL r.path.toList) with
      | some d => encodePathL d
      | none => stripTrailingSlashL r.path.toList) = r.path.toList := by
      rw [hnostrip, percentDecodeL_no_percent _
        (fun c hc e => hnopct (e ▸ hc))]
      exact encodePathL_fixed _ (fun c hc => (hpathOK c hc).1)
    have hrec : ({ r with
        hash := "",
        query := ⟨serializeFormL (sortPairsL (removeTrackingL
          (parseFormL r.query.toList)))⟩,
        path := ⟨(match percentDecodeL
            (stripTrailingSlashL r.path.toList) with
          | some d => encodePathL d
          | none => stripTrailingSlashL r.path.toList)⟩ } : URLRec) =
        r := by
      rw [hq2, hp2, ← hhash]
      rfl
    have hstep : normalizeUrl (normalizeUrl u) = serializeURL
        { r with
          hash := "",
          query := ⟨serializeFormL (sortPairsL (removeTrackingL
            (parseFormL r.query.toList)))⟩,
          path := ⟨(match percentDecodeL
              (stripTrailingSlashL r.path.toList) with
            | some d => encodePathL d
            | none => stripTrailingSlashL r.path.toList)⟩ } := by
      rw [normalizeUrl.eq_def, h]
    rw [hstep, hrec]
    exact hnu.symm

/-- Witness: at the concrete input
`https://x.com/a?b=1&utm_source=z#f`, which normalizes to
`https://x.com/a?b=1`, the reparse succeeds and the conditional
idempotence applies. -/
theorem normalizeUrl_conditional_idempotence_witness :
    normalizeUrl (normalizeUrl "https://x.com/a?b=1&utm_source=z#f") =
      normalizeUrl "https://x.com/a?b=1&utm_source=z#f" :=
  (normalizeUrl_fragment_tracking_and_conditional_idempotence
    "https://x.com/a?b=1&utm_source=z#f"
    ⟨"https", "x.com", "/a", "b=1", ""⟩
    (by decide)).2.2 (by decide) (by decide)

end DocsScraper
